import Mathlib

/-!
# A verification of the O(log n + c) text CRDT (`src/crdt/text_logn.ts`)

This file shallowly embeds the second (complete) `CTextLogn` class of
`src/crdt/text_logn.ts` together with the `SplitAppendListManager`
(list-based implementation, `src/unnamed/part_001`), and proves / refutes
the specification's properties P1–P8 about it.

Modelling conventions:
* the mutable pointer structures become inductive trees
  (`ITree` for the interleaving "ground truth" tree, `BTree` for the
  balanced index); walks that follow `parent` pointers in the source are
  rendered as the equivalent top-down recursions, with the path from the
  root playing the role of the reversed `bParent` chain;
* `JSON` (de)serialisation is dropped: messages are the tagged records
  themselves (the wire format is deterministic and round-trippable);
* JavaScript exceptions become `Except`/`Option` results;
* `nodesByID.get(x)!` on a missing key (a causal-delivery violation, which
  would crash the JS program) is modelled by leaving the state unchanged;
  all theorems about reachable states only use causally valid deliveries.
-/

namespace TextLogn

/-- JavaScript's `<` on strings: lexicographic comparison of the
character sequences (written out on `String.data` so that it evaluates;
this is exactly Lean's `String.lt`). -/
def idLt (a b : String) : Prop := a.data < b.data

instance (a b : String) : Decidable (idLt a b) :=
  inferInstanceAs (Decidable (a.data < b.data))

/-- Payload data of one character node (fields `id`, `value`, `isPresent`
of `class Node`, text_logn.ts lines 203-238). -/
structure IData where
  id : String
  value : String
  isPresent : Bool
  deriving DecidableEq, Repr

/-- The interleaving ("ground truth") tree: a node with its ordered
`leftChildren` and `rightChildren` arrays (text_logn.ts lines 203-217). -/
inductive ITree where
  | node : IData → List ITree → List ITree → ITree
  deriving Repr

/-- Entry stored at a balanced-index node: the shared character node's
data plus the stored AVL balance factor `bF` (text_logn.ts lines 219-229). -/
structure BEntry where
  id : String
  value : String
  isPresent : Bool
  bF : Int
  deriving DecidableEq, Repr

/-- The balanced index: an AVL-intended binary tree whose nodes carry a
`BEntry` and the stored subtree present-count `bCount`
(text_logn.ts lines 222-229).  `bParent` pointers are represented by the
path from the root. -/
inductive BTree where
  | nil : BTree
  | node : BTree → BEntry → Nat → BTree → BTree
  deriving DecidableEq, Repr

namespace BTree

/-- Stored `bCount` of a (possibly null) subtree; `node.bCount ?? 0`. -/
def count : BTree → Nat
  | nil => 0
  | node _ _ c _ => c

/-- Stored balance factor of the root (0 for null, never read on null). -/
def rootBF : BTree → Int
  | nil => 0
  | node _ e _ _ => e.bF

/-- Inorder list of entries of the balanced index. -/
def inorder : BTree → List BEntry
  | nil => []
  | node l e _ r => inorder l ++ e :: inorder r

/-- Inorder list of ids. -/
def ids (t : BTree) : List String := t.inorder.map BEntry.id

/-- `updateBCount` (text_logn.ts lines 634-639): rebuild a node, its
stored count recomputed from its children's stored counts. -/
def mkCnt (l : BTree) (e : BEntry) (r : BTree) : BTree :=
  node l e (l.count + (if e.isPresent then 1 else 0) + r.count) r

/-- `rotate_Left` (text_logn.ts lines 523-543), applied to the subtree
rooted at `X`; `Z` is `X.bRightChild`.  Note the source sets the same
balance factors as `rotate_Right`. -/
def rotateLeft : BTree → BTree
  | node xl xe _ (node zl ze _ zr) =>
      let xf : Int := if ze.bF = 0 then 1 else 0
      let zf : Int := if ze.bF = 0 then -1 else 0
      mkCnt (mkCnt xl { xe with bF := xf } zl) { ze with bF := zf } zr
  | t => t

/-- `rotate_Right` (text_logn.ts lines 545-563); `Z` is `X.bLeftChild`.
The source's balance-factor assignments are identical to `rotate_Left`
(not mirrored); we translate them literally. -/
def rotateRight : BTree → BTree
  | node (node zl ze _ zr) xe _ xr =>
      let xf : Int := if ze.bF = 0 then 1 else 0
      let zf : Int := if ze.bF = 0 then -1 else 0
      mkCnt zl { ze with bF := zf } (mkCnt zr { xe with bF := xf } xr)
  | t => t

/-- `rotate_RightLeft` (text_logn.ts lines 565-596); `Z = X.bRightChild`,
`Y = Z.bLeftChild`. -/
def rotateRightLeft : BTree → BTree
  | node xl xe _ (node (node yl ye _ yr) ze _ zr) =>
      let xf : Int := if ye.bF = 0 then 0 else if ye.bF > 0 then -1 else 0
      let zf : Int := if ye.bF = 0 then 0 else if ye.bF > 0 then 0 else 1
      mkCnt (mkCnt xl { xe with bF := xf } yl) { ye with bF := 0 }
        (mkCnt yr { ze with bF := zf } zr)
  | t => t

/-- `rotate_LeftRight` (text_logn.ts lines 598-629); `Z = X.bLeftChild`,
`Y = Z.bRightChild`.  The source reuses `rotate_RightLeft`'s
balance-factor table verbatim (not its mirror image); we translate it
literally. -/
def rotateLeftRight : BTree → BTree
  | node (node zl ze _ (node yl ye _ yr)) xe _ xr =>
      let xf : Int := if ye.bF = 0 then 0 else if ye.bF > 0 then -1 else 0
      let zf : Int := if ye.bF = 0 then 0 else if ye.bF > 0 then 0 else 1
      mkCnt (mkCnt zl { ze with bF := zf } yl) { ye with bF := 0 }
        (mkCnt yr { xe with bF := xf } xr)
  | t => t

/-- One iteration of the retracing loop of `rebalance`
(text_logn.ts lines 476-521) combined with the `bCount` increment of
lines 374-381.  `sub = (child', grew)` is the rebuilt child on the side
given by `zRight` (`true` = right), `grew` meaning the bottom-up walk is
still running (each continued iteration of the source loop set
`X.bF = ±1`, i.e. the subtree height grew).  `l`, `e`, `c`, `r` are the
original components of `X`. -/
def combine (zRight : Bool) (sub : BTree × Bool) (l : BTree) (e : BEntry)
    (c : Nat) (r : BTree) : BTree × Bool :=
  let child := sub.1
  let lft := if zRight then l else child
  let rgt := if zRight then child else r
  let c' := c + 1
  if sub.2 then
    if zRight then
      if e.bF > 0 then
        (if child.rootBF < 0 then rotateRightLeft (node lft e c' rgt)
         else rotateLeft (node lft e c' rgt), false)
      else if e.bF < 0 then (node lft { e with bF := 0 } c' rgt, false)
      else (node lft { e with bF := 1 } c' rgt, true)
    else
      if e.bF < 0 then
        (if child.rootBF > 0 then rotateLeftRight (node lft e c' rgt)
         else rotateRight (node lft e c' rgt), false)
      else if e.bF > 0 then (node lft { e with bF := 0 } c' rgt, false)
      else (node lft { e with bF := -1 } c' rgt, true)
  else (node lft e c' rgt, false)

/-- A freshly inserted node (text_logn.ts lines 324-331), its `bCount`
already incremented to 1 by the walk of lines 374-381. -/
def freshLeaf (nd : IData) : BTree :=
  node nil { id := nd.id, value := nd.value, isPresent := nd.isPresent, bF := 0 } 1 nil

/-- Descend to the leftmost node and attach the fresh node in its null
left slot (text_logn.ts lines 355-358), rebalancing on the way back. -/
def attachLeftmost (nd : IData) : BTree → BTree × Bool
  | nil => (freshLeaf nd, true)
  | node nil e c r => combine false (freshLeaf nd, true) nil e c r
  | node (node ll le lc lr) e c r =>
      combine false (attachLeftmost nd (node ll le lc lr)) (node ll le lc lr) e c r

/-- Descend to the rightmost node and attach the fresh node in its null
right slot (text_logn.ts lines 367-370), rebalancing on the way back. -/
def attachRightmost (nd : IData) : BTree → BTree × Bool
  | nil => (freshLeaf nd, true)
  | node l e c nil => combine true (freshLeaf nd, true) l e c nil
  | node l e c (node rl re rc rr) =>
      combine true (attachRightmost nd (node rl re rc rr)) l e c (node rl re rc rr)

/-- Insert the fresh node immediately after the node with id `p`
(text_logn.ts lines 348-359): as `p`'s right child if that slot is null,
else as the leftmost descendant of `p`'s right child; then the `bCount`
walk and `rebalance` of lines 374-384. -/
def attachAfter (p : String) (nd : IData) : BTree → BTree × Bool
  | nil => (nil, false)
  | node l e c r =>
      if e.id = p then combine true (attachLeftmost nd r) l e c r
      else if p ∈ l.ids then combine false (attachAfter p nd l) l e c r
      else combine true (attachAfter p nd r) l e c r

/-- Insert the fresh node immediately before the node with id `p`
(text_logn.ts lines 360-372), mirror image of `attachAfter`. -/
def attachBefore (p : String) (nd : IData) : BTree → BTree × Bool
  | nil => (nil, false)
  | node l e c r =>
      if e.id = p then combine false (attachRightmost nd l) l e c r
      else if p ∈ l.ids then combine false (attachBefore p nd l) l e c r
      else combine true (attachBefore p nd r) l e c r

/-- `nodesByID.get(id)` viewed through the balanced index (both give the
same shared node object): first entry with the given id. -/
def find? (id : String) : BTree → Option BEntry
  | nil => none
  | node l e _ r =>
      match find? id l with
      | some x => some x
      | none => if e.id = id then some e else find? id r

/-- The `delete` case of `receivePrimitive` on the balanced index
(text_logn.ts lines 413-424): clear `isPresent` on the node and decrement
the stored `bCount` of the node and of each of its balanced ancestors
(the path from the root down to it). -/
def tomb (id : String) : BTree → BTree
  | nil => nil
  | node l e c r =>
      if e.id = id then node l { e with isPresent := false } (c - 1) r
      else if id ∈ l.ids then node (tomb id l) e (c - 1) r
      else if id ∈ r.ids then node l e (c - 1) (tomb id r)
      else node l e c r

/-- `nodeToIndex` (text_logn.ts lines 685-708).  The source starts with
the node's left count and climbs `bParent` pointers, adding
`parent.bLeftChild.bCount + parent.isPresent` at every climb out of a
right child; top-down those are exactly the additions made when the
search turns right. -/
def nodeToIndexF (t : BTree) (id : String) : Option (Nat × Bool) :=
  match t with
  | nil => none
  | node l e _ r =>
      if e.id = id then some (l.count, e.isPresent)
      else
        match nodeToIndexF l id with
        | some x => some x
        | none =>
            (nodeToIndexF r id).map fun x =>
              (l.count + (if e.isPresent then 1 else 0) + x.1, x.2)

/-- Interior search loop of `indexToNode` (text_logn.ts lines 651-677). -/
def indexToNodeAux : BTree → Nat → Except String BEntry
  | nil, _ => .error "Internal error: failed to find valid index"
  | node l e _ r, i =>
      if i < l.count then indexToNodeAux l i
      else
        let i1 := i - l.count
        if e.isPresent && i1 = 0 then .ok e
        else
          let i2 := if e.isPresent then i1 - 1 else i1
          match r with
          | nil => .error "Internal error: failed to find valid index"
          | node rl re rc rr =>
              if (node rl re rc rr).count < i2 then
                .error "Internal error: failed to find valid index"
              else indexToNodeAux (node rl re rc rr) i2

/-- `indexToNode` (text_logn.ts lines 646-678) with its bounds check
(line 647); the public index type is `Nat`, so only the upper bound can
fail. -/
def indexToNodeF (t : BTree) (i : Nat) : Except String BEntry :=
  if t.count ≤ i then .error "index out of bounds"
  else indexToNodeAux t i

/-- `nextNode` (text_logn.ts lines 716-733): the inorder successor over
the balanced index.  Going right and descending leftmost is literal; the
upward loop "climb until we leave a left child" is rendered by the
fall-through that returns the nearest ancestor whose left subtree
contained the node. -/
def nextNodeF (t : BTree) (id : String) : Option BEntry :=
  match t with
  | nil => none
  | node l e _ r =>
      if e.id = id then
        match r with
        | nil => none
        | node rl re rc rr => some (leftmostEntry (node rl re rc rr))
      else if id ∈ l.ids then
        match nextNodeF l id with
        | some x => some x
        | none => some e
      else nextNodeF r id
where
  /-- `while (current.bLeftChild !== null) current = current.bLeftChild`. -/
  leftmostEntry : BTree → BEntry
    | nil => { id := "", value := "", isPresent := false, bF := 0 }
    | node nil e _ _ => e
    | node (node ll le lc lr) _ _ _ => leftmostEntry (node ll le lc lr)

/-- `toString`'s iterative walk (text_logn.ts lines 739-789): inorder
over the balanced index, pruning subtrees with `bCount === 0` (a null
child also has count 0), collecting the values of present nodes. -/
def toVals : BTree → List String
  | nil => []
  | node l e _ r =>
      (if l.count ≠ 0 then toVals l else []) ++
        (if e.isPresent then [e.value] else []) ++
        (if r.count ≠ 0 then toVals r else [])

/-- Height of a (possibly null) balanced-index subtree, with
`height(null) = -1` (the convention of split_append_list.ts line 28-30
and of the AVL literature the source follows). -/
def height : BTree → Int
  | nil => -1
  | node l _ _ r => 1 + max l.height r.height

/-- Does every stored balance factor equal
`height(bRightChild) - height(bLeftChild)`? -/
def bfAccurate : BTree → Bool
  | nil => true
  | node l e _ r => (e.bF = r.height - l.height) && bfAccurate l && bfAccurate r

/-- AVL invariant P4: `|height(bLeft) - height(bRight)| ≤ 1` at every
node. -/
def balanced : BTree → Bool
  | nil => true
  | node l _ _ r => ((r.height - l.height).natAbs ≤ 1) && balanced l && balanced r

/-- Count correctness P3 as a checkable predicate: every stored `bCount`
equals the recomputation from the children plus the node's own presence. -/
def countsOK : BTree → Bool
  | nil => true
  | node l e c r =>
      (c = l.count + (if e.isPresent then 1 else 0) + r.count) &&
        countsOK l && countsOK r

end BTree

namespace ITree

/-- The node's data. -/
def data : ITree → IData
  | node d _ _ => d

/-- `leftChildren`. -/
def lcs : ITree → List ITree
  | node _ l _ => l

/-- `rightChildren`. -/
def rcs : ITree → List ITree
  | node _ _ r => r

mutual
/-- All ids in the subtree (the keys the `nodesByID` directory holds for
this subtree), in canonical inorder. -/
def allIds : ITree → List String
  | node d lc rc => allIdsL lc ++ d.id :: allIdsL rc
/-- `allIds` over a children list. -/
def allIdsL : List ITree → List String
  | [] => []
  | c :: cs => allIds c ++ allIdsL cs
end

mutual
/-- Canonical inorder traversal of the interleaving tree (spec §4.1):
left children in stored order, the node itself, right children in stored
order. -/
def canon : ITree → List IData
  | node d lc rc => canonL lc ++ d :: canonL rc
/-- `canon` over a children list. -/
def canonL : List ITree → List IData
  | [] => []
  | c :: cs => canon c ++ canonL cs
end

/-- Splice a new node among its same-side siblings, in order by id:
the loop `for (; i < siblings.length; i++) if (node.id < siblings[i].id)
break; siblings.splice(i, 0, node)` (text_logn.ts lines 333-341). -/
def insertSib (nd : IData) : List ITree → List ITree
  | [] => [node nd [] []]
  | c :: rest =>
      if idLt nd.id c.data.id then node nd [] [] :: c :: rest
      else c :: insertSib nd rest

mutual
/-- The `insert` case of `receivePrimitive` on the ground-truth tree
(text_logn.ts lines 322-341): create the node and splice it into its
parent's side list. -/
def splice (pid : String) (side : Bool) (nd : IData) : ITree → ITree
  | node d lc rc =>
      if d.id = pid then
        if side then node d (insertSib nd lc) rc
        else node d lc (insertSib nd rc)
      else node d (spliceL pid side nd lc) (spliceL pid side nd rc)
/-- `splice` over a children list. -/
def spliceL (pid : String) (side : Bool) (nd : IData) : List ITree → List ITree
  | [] => []
  | c :: cs => splice pid side nd c :: spliceL pid side nd cs
end

mutual
/-- The `delete` case on the ground-truth node (text_logn.ts line 415):
clear `isPresent` of the node with the given id. -/
def tomb (i : String) : ITree → ITree
  | node d lc rc =>
      node (if d.id = i then { d with isPresent := false } else d)
        (tombL i lc) (tombL i rc)
/-- `tomb` over a children list. -/
def tombL (i : String) : List ITree → List ITree
  | [] => []
  | c :: cs => tomb i c :: tombL i cs
end

/-- First `some` in a list of options. -/
def firstSome : List (Option α) → Option α
  | [] => none
  | some x :: _ => some x
  | none :: rest => firstSome rest

mutual
/-- `nodesByID.get(id)`: find the subtree rooted at the node with the
given id. -/
def findNode (i : String) : ITree → Option ITree
  | node d lc rc =>
      if d.id = i then some (node d lc rc)
      else
        match findNodeL i lc with
        | some n => some n
        | none => findNodeL i rc
/-- `findNode` over a children list. -/
def findNodeL (i : String) : List ITree → Option ITree
  | [] => none
  | c :: cs =>
      match findNode i c with
      | some n => some n
      | none => findNodeL i cs
end

/-- `getLeftmostDescendant` (text_logn.ts lines 992-996): repeatedly
take the first left child. -/
def leftmostDesc : ITree → String
  | node d [] _ => d.id
  | node _ (c :: _) _ => leftmostDesc c

mutual
/-- `getRightmostDescendant` (text_logn.ts lines 998-1003): repeatedly
take the last right child (`rightChildren[rightChildren.length - 1]`). -/
def rightmostDesc : ITree → String
  | node d _ [] => d.id
  | node _ _ (c :: cs) => rightmostDescL (c :: cs)
/-- `rightmostDesc` of the last element of a sibling list (only ever
applied to nonempty lists). -/
def rightmostDescL : List ITree → String
  | [] => ""
  | [c] => rightmostDesc c
  | _ :: c :: cs => rightmostDescL (c :: cs)
end

end ITree

/-! ## The SplitAppendListManager

Modelled from `src/unnamed/part_001` (the list-based implementation,
`listByValue : Map<T, T[]>`): the manager's state is the collection of
its lists; each value belongs to the (unique, under the reachable-state
invariant) list containing it.  `src/unnamed/part_002` implements the same
`create`/`append`/`getEnd`/`split` interface with AVL join/split trees
(spec §4.3). -/

/-- The collection of lists managed by a `SplitAppendListManager`. -/
abbrev Salm := List (List String)

namespace Salm

/-- `create(value)`: a new list containing just `value`. -/
def create (S : Salm) (v : String) : Salm := [v] :: S

/-- `append(listEntry, value)`: push `value` at the end of the list
containing `listEntry`. -/
def append : Salm → String → String → Salm
  | [], _, _ => []
  | L :: rest, e, v =>
      if e ∈ L then (L ++ [v]) :: rest else L :: append rest e v

/-- `getEnd(value)`: the last element of the list containing `value`. -/
def getEnd (S : Salm) (v : String) : Option String :=
  (S.find? fun L => L.contains v).bind List.getLast?

/-- `split(value)`: split the list containing `value` into
`[start, value]` and `(value, end]`. -/
def split : Salm → String → Salm
  | [], _ => []
  | L :: rest, v =>
      if v ∈ L then
        let j := L.indexOf v
        L.take (j + 1) :: L.drop (j + 1) :: rest
      else L :: split rest v

end Salm

/-! ## Messages, events, replica state and the message handler -/

/-- An `InsertMessage` (text_logn.ts lines 193-199). -/
structure InsertMsg where
  id : String
  parentID : String
  isLeftChild : Bool
  value : String
  deriving DecidableEq, Repr

/-- A `NetworkMessage` (text_logn.ts line 201). -/
inductive Msg where
  | ins : InsertMsg → Msg
  | del : String → Msg
  deriving DecidableEq, Repr

/-- An emitted `Insert`/`Delete` event (text_logn.ts lines 404-408 and
427-432; `meta` is opaque and omitted). -/
inductive Ev where
  | ins : Nat → Ev
  | del : Nat → String → Ev
  deriving DecidableEq, Repr

/-- Replica state: the ground-truth tree (rooted at the sentinel), the
balanced index, and the two SALMs (text_logn.ts lines 250-256). -/
structure State where
  itree : ITree
  btree : BTree
  leftS : Salm
  rightS : Salm

/-- The freshly constructed replica (text_logn.ts lines 258-267). -/
def State.init : State :=
  let root : IData := { id := "", value := "", isPresent := false }
  { itree := .node root [] []
    btree := .node .nil { id := "", value := "", isPresent := false, bF := 0 } 0 .nil
    leftS := [[""]]
    rightS := [[""]] }

/-- `length` (text_logn.ts lines 735-737). -/
def State.length (s : State) : Nat := s.btree.count

/-- The `insert` case of `receivePrimitive`
(text_logn.ts lines 322-409). -/
def applyInsert (s : State) (m : InsertMsg) : State × List Ev :=
  match s.itree.findNode m.parentID with
  | none => (s, [])
  | some parent =>
      let nd : IData := { id := m.id, value := m.value, isPresent := true }
      -- sibling position (lines 333-341)
      let preSibs := (if m.isLeftChild then parent.lcs else parent.rcs).map
        fun c => c.data.id
      let i := preSibs.findIdx fun sid => decide (idLt m.id sid)
      let sibs := preSibs.insertIdx i m.id
      let itree1 := s.itree.splice m.parentID m.isLeftChild nd
      -- getNeighbor (lines 447-470)
      let pred : Option String :=
        if m.isLeftChild then none
        else if i = 0 then some m.parentID
        else s.rightS.getEnd sibs[i-1]!
      let succ : Option String :=
        if ¬m.isLeftChild then none
        else if i = sibs.length - 1 then some m.parentID
        else s.leftS.getEnd sibs[i+1]!
      -- balanced-tree attach, bCount walk and rebalance (lines 348-384)
      let btree1 :=
        match pred, succ with
        | some p, _ => (s.btree.attachAfter p nd).1
        | none, some q => (s.btree.attachBefore q nd).1
        | none, none => s.btree
      -- SALM updates (lines 386-401)
      let (leftS1, rightS1) :=
        if m.isLeftChild then
          (if i = 0 then
            (if sibs.length ≥ 2 then s.leftS.split m.parentID else s.leftS).append
              m.parentID m.id
           else s.leftS.create m.id,
           s.rightS.create m.id)
        else
          (s.leftS.create m.id,
           if i = sibs.length - 1 then
            (if sibs.length ≥ 2 then s.rightS.split m.parentID else s.rightS).append
              m.parentID m.id
           else s.rightS.create m.id)
      let st : State := { itree := itree1, btree := btree1, leftS := leftS1, rightS := rightS1 }
      (st, [.ins (((btree1.nodeToIndexF m.id).map Prod.fst).getD 0)])

/-- The `delete` case of `receivePrimitive`
(text_logn.ts lines 411-435). -/
def applyDelete (s : State) (i : String) : State × List Ev :=
  match s.btree.find? i with
  | none => (s, [])
  | some e =>
      if e.isPresent then
        let idx := ((s.btree.nodeToIndexF i).map Prod.fst).getD 0
        ({ itree := s.itree.tomb i, btree := s.btree.tomb i,
           leftS := s.leftS, rightS := s.rightS },
         [.del idx e.value])
      else (s, [])

/-- `receivePrimitive` (text_logn.ts lines 316-437). -/
def applyMsg (s : State) : Msg → State × List Ev
  | .ins m => applyInsert s m
  | .del i => applyDelete s i

/-- State transition of one received message. -/
def step (s : State) (m : Msg) : State := (applyMsg s m).1

/-- A message deliverable at state `s` under causal order and the wire
format (spec §5, §6): an insert's parent was already created, its id is
fresh and its value one character; a delete's target was created. -/
def validMsg (s : State) : Msg → Prop
  | .ins m => m.parentID ∈ s.itree.allIds ∧ m.id ∉ s.itree.allIds ∧
      m.value.length = 1
  | .del i => i ∈ s.itree.allIds

instance : (s : State) → (m : Msg) → Decidable (validMsg s m)
  | _, .ins _ => inferInstanceAs (Decidable (_ ∧ _ ∧ _))
  | _, .del _ => inferInstanceAs (Decidable (_ ∈ _))

/-- Apply a sequence of messages. -/
def applySeq (s : State) : List Msg → State
  | [] => s
  | m :: rest => applySeq (step s m) rest

/-- The sequence is deliverable, each message valid where it occurs. -/
def ValidSeq (s : State) : List Msg → Prop
  | [] => True
  | m :: rest => validMsg s m ∧ ValidSeq (step s m) rest

instance instDecValidSeq : (s : State) → (l : List Msg) → Decidable (ValidSeq s l)
  | _, [] => .isTrue trivial
  | s, m :: rest =>
      have := instDecValidSeq (step s m) rest
      inferInstanceAs (Decidable (_ ∧ _))

/-- Replica states reachable by causally valid deliveries. -/
inductive Reachable : State → Prop
  | init : Reachable State.init
  | step {s m} : Reachable s → validMsg s m → Reachable (step s m)

/-! ## Further derived definitions used by the statements and proofs -/

/-- The character-node data carried by a balanced-index entry (the entry
views the same shared `Node` object, minus the AVL balance factor). -/
def BEntry.dat (e : BEntry) : IData :=
  { id := e.id, value := e.value, isPresent := e.isPresent }

/-- Inorder character-node data of the balanced index. -/
def BTree.dat (t : BTree) : List IData := t.inorder.map BEntry.dat

/-- `toString()` (text_logn.ts lines 739-789): the output array is
preallocated with `this.length` empty slots (JavaScript array holes,
which `join("")` renders as empty strings), the walk then pushes the
present values after those slots, and the final length check throws on
mismatch. -/
def State.toStr (s : State) : Except String String :=
  let values := List.replicate s.length "" ++ s.btree.toVals
  let ans := String.join values
  if ans.length ≠ s.length then
    .error "Internal error: toString() has wrong length"
  else .ok ans

/-- `deleteOne` (text_logn.ts lines 308-314) together with the
synchronous echo of its message back into `receivePrimitive` (the
Collabs runtime delivers local operations synchronously; spec §5
"Remote and local effects of a single local edit occur during the same
handler call"). -/
def deleteOneL (s : State) (i : Nat) : Except String State :=
  match s.btree.indexToNodeF i with
  | .error e => .error e
  | .ok e => .ok (step s (.del e.id))

/-- `delete(startIndex, count)` (text_logn.ts lines 275-279): one
`deleteOne` per character, issued from right to left. -/
def deleteL (s : State) (startIndex : Nat) : Nat → Except String State
  | 0 => .ok s
  | k + 1 =>
      match deleteOneL s (startIndex + k) with
      | .error e => .error e
      | .ok s1 => deleteL s1 startIndex k

/-- The "first left child" relation of the interleaving tree:
`leftChildren[0]` of the node with the given id. -/
def ITree.flc (t : ITree) (a : String) : Option String :=
  (t.findNode a).bind fun n => n.lcs.head?.map fun c => c.data.id

/-- The "last right child" relation of the interleaving tree:
`rightChildren[rightChildren.length - 1]` of the node with the given
id. -/
def ITree.lrc (t : ITree) (a : String) : Option String :=
  (t.findNode a).bind fun n => n.rcs.getLast?.map fun c => c.data.id

/-- `n` occurs as a node of the tree `t` (reflexive-transitive child
closure). -/
inductive ITree.IsNode : ITree → ITree → Prop
  | refl (t : ITree) : IsNode t t
  | child {t c n : ITree} : c ∈ t.lcs ++ t.rcs → IsNode c n → IsNode t n

/-- A SALM list is one maximal chain of the given child-successor
relation: nonempty, consecutive elements linked, and the last element
has no successor. -/
def ChainOf (f : String → Option String) (L : List String) : Prop :=
  L ≠ [] ∧ List.Chain' (fun a b => f a = some b) L ∧
    ∀ h : L ≠ [], f (L.getLast h) = none

/-- Invariant of one SALM relative to its child-successor relation: the
lists partition the directory's ids, and each list is a maximal chain. -/
def SalmInv (f : String → Option String) (allIds : List String) (S : Salm) : Prop :=
  S.flatten.Perm allIds ∧ ∀ L ∈ S, ChainOf f L

/-- Iterating a partial successor function from `v` to exhaustion ends
at `u`. -/
inductive Reaches (f : String → Option String) : String → String → Prop
  | done {v : String} : f v = none → Reaches f v v
  | step {v w u : String} : f v = some w → Reaches f w u → Reaches f v u

/-- Are all present values single characters?  (Wire-format constraint,
spec §6; the root sentinel is never present.) -/
def PresVals (l : List IData) : Prop :=
  ∀ d ∈ l, d.isPresent → d.value.length = 1

/-- The master reachable-state invariant: distinct ids, the balanced
index agrees with the canonical inorder of the interleaving tree
(P2), the stored counts are correct (P3), both SALMs hold the maximal
chains of their child relation (P5), and present values are single
characters. -/
def WF (s : State) : Prop :=
  s.itree.allIds.Nodup ∧
  s.btree.dat = s.itree.canon ∧
  s.btree.countsOK = true ∧
  SalmInv (s.itree.flc) s.itree.allIds s.leftS ∧
  SalmInv (s.itree.lrc) s.itree.allIds s.rightS ∧
  PresVals s.itree.canon

/-- Number of present nodes in a data list. -/
def presCnt (l : List IData) : Nat := (l.filter fun d => d.isPresent).length

/-- The entry following the first entry with the given id. -/
def succD : List IData → String → Option IData
  | [], _ => none
  | x :: rest, i => if x.id = i then rest.head? else succD rest i

/-- Insert `nd` immediately after the first element with id `p`. -/
def insertAfterD (p : String) (nd : IData) : List IData → List IData
  | [] => []
  | e :: rest => if e.id = p then e :: nd :: rest else e :: insertAfterD p nd rest

/-- Insert `nd` immediately before the first element with id `q`. -/
def insertBeforeD (q : String) (nd : IData) : List IData → List IData
  | [] => []
  | e :: rest => if e.id = q then nd :: e :: rest else e :: insertBeforeD q nd rest

/-! Projections of the replica dynamics onto the ground-truth tree (the
`itree` component of `step` depends on nothing else; used for the
convergence theorem P1). -/

/-- The effect of one message on the ground-truth tree alone. -/
def stepI (t : ITree) : Msg → ITree
  | .ins m => t.splice m.parentID m.isLeftChild
      { id := m.id, value := m.value, isPresent := true }
  | .del i => t.tomb i

/-- `validMsg` seen by the ground-truth tree alone. -/
def validMsgI (t : ITree) : Msg → Prop
  | .ins m => m.parentID ∈ t.allIds ∧ m.id ∉ t.allIds ∧ m.value.length = 1
  | .del i => i ∈ t.allIds

/-- Apply a message sequence to the ground-truth tree alone. -/
def applySeqI (t : ITree) : List Msg → ITree
  | [] => t
  | m :: rest => applySeqI (stepI t m) rest

/-- Causal validity of a sequence, seen by the ground-truth tree. -/
def ValidSeqI (t : ITree) : List Msg → Prop
  | [] => True
  | m :: rest => validMsgI t m ∧ ValidSeqI (stepI t m) rest

/-- Shorthand for the insert messages used in concrete runs. -/
def mkIns (i pid : String) (left : Bool) : Msg :=
  .ins { id := i, parentID := pid, isLeftChild := left, value := "x" }

/-- A causally valid 6-message run (all messages are inserts of left
children) on which the AVL invariant of the balanced index fails: the
5th message triggers `rotate_LeftRight` with `Y.bF > 0`, whose
balance-factor assignments are not the mirror image of
`rotate_RightLeft`'s, corrupting the stored factors; the 6th insert then
makes a rebalancing decision on the corrupted factor and leaves a node
with child-height difference 2. -/
def c3seq : List Msg :=
  [mkIns "a" "" true, mkIns "b" "" true, mkIns "c" "a" true,
   mkIns "d" "b" true, mkIns "e" "b" true, mkIns "f" "a" true]

/-! # Theorems -/

/-! ## Nested-recursion workhorses for the interleaving tree -/

/-- Induction principle for the nested inductive `ITree`. -/
theorem ITree.my_ind {P : ITree → Prop}
    (h : ∀ d lc rc, (∀ c ∈ lc, P c) → (∀ c ∈ rc, P c) → P (ITree.node d lc rc)) :
    ∀ t, P t := fun t =>
  match t with
  | .node d lc rc =>
      h d lc rc (fun c hc => my_ind h c) (fun c hc => my_ind h c)
termination_by t => sizeOf t
decreasing_by
  all_goals
    have h9 := List.sizeOf_lt_of_mem hc
    simp at *
    omega

theorem ITree.allIdsL_eq (l : List ITree) :
    allIdsL l = (l.map allIds).flatten := by
  induction l with
  | nil => rfl
  | cons c cs ih => simp [allIdsL, ih]

theorem ITree.canonL_eq (l : List ITree) :
    canonL l = (l.map canon).flatten := by
  induction l with
  | nil => rfl
  | cons c cs ih => simp [canonL, ih]

theorem ITree.spliceL_eq (pid : String) (side : Bool) (nd : IData)
    (l : List ITree) : spliceL pid side nd l = l.map (splice pid side nd) := by
  induction l with
  | nil => rfl
  | cons c cs ih => simp [spliceL, ih]

theorem ITree.tombL_eq (i : String) (l : List ITree) :
    tombL i l = l.map (tomb i) := by
  induction l with
  | nil => rfl
  | cons c cs ih => simp [tombL, ih]

theorem ITree.findNodeL_eq (i : String) (l : List ITree) :
    findNodeL i l = firstSome (l.map (findNode i)) := by
  induction l with
  | nil => rfl
  | cons c cs ih =>
      simp only [findNodeL, ih, List.map_cons]
      cases findNode i c <;> simp [firstSome]

/-! ## C3: the AVL invariant fails on a reachable state -/

/-- **C3** is false of the code: after the causally valid 6-insert run
`c3seq`, the balanced index of the replica violates the AVL invariant
(`|height(bLeft) − height(bRight)| = 2` at the node inserted by the first
message) and stored balance factors differ from
`height(bRightChild) − height(bLeftChild)`.  The culprit is
`rotate_LeftRight`, whose balance-factor assignments copy
`rotate_RightLeft`'s table instead of mirroring it. -/
theorem c3_avl_and_bf_violated_on_reachable_run :
    ValidSeq State.init c3seq ∧
    (applySeq State.init c3seq).btree.balanced = false ∧
    (applySeq State.init c3seq).btree.bfAccurate = false :=
  ⟨by decide, by decide, by decide⟩

/-! ## Basic balanced-index lemmas -/

namespace BTree

theorem ids_nil : (nil).ids = [] := rfl

theorem ids_node (l : BTree) (e : BEntry) (c : Nat) (r : BTree) :
    (node l e c r).ids = l.ids ++ e.id :: r.ids := by
  simp [ids, inorder]

theorem find?_id {i : String} {t : BTree} {e : BEntry}
    (h : t.find? i = some e) : e.id = i := by
  induction t with
  | nil => simp [find?] at h
  | node l e' c r ihl ihr =>
      simp only [find?] at h
      cases hl : l.find? i with
      | some x => rw [hl] at h; exact ihl (hl.trans h)
      | none =>
          rw [hl] at h
          by_cases he : e'.id = i
          · simp [he] at h; rw [← h]; exact he
          · simp [he] at h; exact ihr h

theorem find?_isSome_iff (i : String) (t : BTree) :
    (t.find? i).isSome ↔ i ∈ t.ids := by
  induction t with
  | nil => simp [find?, ids_nil]
  | node l e c r ihl ihr =>
      simp only [find?, ids_node, List.mem_append, List.mem_cons]
      cases hl : l.find? i with
      | some x =>
          have : i ∈ l.ids := ihl.mp (by simp [hl])
          simp [this]
      | none =>
          have hnl : i ∉ l.ids := fun hm => by
            have := ihl.mpr hm; simp [hl] at this
          by_cases he : e.id = i
          · simp [he]
          · simp only [he, if_false]
            rw [ihr]
            constructor
            · intro h; tauto
            · rintro (h | h | h)
              · exact absurd h hnl
              · exact absurd h.symm he
              · exact h

theorem find?_eq_none_iff (i : String) (t : BTree) :
    t.find? i = none ↔ i ∉ t.ids := by
  rw [← find?_isSome_iff]
  cases t.find? i <;> simp

theorem ids_tomb (i : String) (t : BTree) : (t.tomb i).ids = t.ids := by
  induction t with
  | nil => rfl
  | node l e c r ihl ihr =>
      simp only [tomb]
      by_cases he : e.id = i
      · simp [he, ids_node]
      · simp only [he, if_false]
        by_cases hil : i ∈ l.ids
        · simp [hil, ids_node, ihl]
        · by_cases hir : i ∈ r.ids
          · simp [hil, hir, ids_node, ihr]
          · simp [hil, hir]

theorem tomb_of_not_mem {i : String} {t : BTree} (h : i ∉ t.ids) :
    t.tomb i = t := by
  induction t with
  | nil => rfl
  | node l e c r ihl ihr =>
      rw [ids_node] at h
      simp only [List.mem_append, List.mem_cons, not_or] at h
      have he : ¬ e.id = i := fun hx => h.2.1 hx.symm
      simp [tomb, he, h.1, h.2.2]

theorem find?_tomb_self {i : String} {t : BTree} {e : BEntry}
    (hn : t.ids.Nodup) (h : t.find? i = some e) :
    (t.tomb i).find? i = some { e with isPresent := false } := by
  induction t with
  | nil => simp [find?] at h
  | node l el c r ihl ihr =>
      rw [ids_node] at hn
      have hnl : l.ids.Nodup := (List.nodup_append.mp hn).1
      have hnr : r.ids.Nodup :=
        ((List.nodup_cons.mp (List.nodup_append.mp hn).2.1)).2
      have hdisj := (List.nodup_append.mp hn).2.2
      have hemem : el.id ∉ l.ids := fun hx => (hdisj hx) (by simp)
      by_cases he : el.id = i
      · -- the root is the node with id i; i is then not in l
        have hil : i ∉ l.ids := he ▸ hemem
        have hfl : l.find? i = none := (find?_eq_none_iff i l).mpr hil
        simp only [find?, hfl] at h
        rw [if_pos he] at h
        obtain rfl : el = e := by simpa using h
        have ht : (node l el c r).tomb i = node l { el with isPresent := false } (c-1) r := by
          simp [tomb, he]
        rw [ht]
        simp [find?, hfl, he]
      · cases hl : l.find? i with
        | some x =>
            simp only [find?, hl] at h
            have hil : i ∈ l.ids := (find?_isSome_iff i l).mp (by simp [hl])
            have ht : (node l el c r).tomb i = node (l.tomb i) el (c-1) r := by
              simp [tomb, he, hil]
            rw [ht]
            simp [find?, ihl hnl (hl.trans h)]
        | none =>
            simp only [find?, hl, he, if_false] at h
            have hil : i ∉ l.ids := (find?_eq_none_iff i l).mp hl
            have hir : i ∈ r.ids := (find?_isSome_iff i r).mp (by simp [h])
            have ht : (node l el c r).tomb i = node l el (c-1) (r.tomb i) := by
              simp [tomb, he, hil, hir]
            rw [ht]
            simp [find?, hl, he, ihr hnr h]

/-! ### Entry-sequence (`dat`) lemmas: rotations and attachment -/

theorem dat_nil : (nil).dat = [] := rfl

theorem dat_node (l : BTree) (e : BEntry) (c : Nat) (r : BTree) :
    (node l e c r).dat = l.dat ++ e.dat :: r.dat := by
  simp [dat, inorder]

theorem ids_eq_map_dat (t : BTree) : t.ids = t.dat.map IData.id := by
  simp [ids, dat, BEntry.dat]

theorem dat_mkCnt (l : BTree) (e : BEntry) (r : BTree) :
    (mkCnt l e r).dat = l.dat ++ e.dat :: r.dat := dat_node ..

/-- `{ e with bF := x }` describes the same character node. -/
theorem dat_setBF (e : BEntry) (x : Int) : ({ e with bF := x } : BEntry).dat = e.dat := rfl

theorem dat_rotateLeft (t : BTree) : (rotateLeft t).dat = t.dat := by
  cases t with
  | nil => rfl
  | node l e c r =>
      cases r with
      | nil => rfl
      | node zl ze zc zr => simp [rotateLeft, dat_mkCnt, dat_node, dat_setBF]

theorem dat_rotateRight (t : BTree) : (rotateRight t).dat = t.dat := by
  cases t with
  | nil => rfl
  | node l e c r =>
      cases l with
      | nil => rfl
      | node zl ze zc zr => simp [rotateRight, dat_mkCnt, dat_node, dat_setBF]

theorem dat_rotateRightLeft (t : BTree) : (rotateRightLeft t).dat = t.dat := by
  cases t with
  | nil => rfl
  | node l e c r =>
      cases r with
      | nil => rfl
      | node z ze zc zr =>
          cases z with
          | nil => rfl
          | node yl ye yc yr =>
              simp [rotateRightLeft, dat_mkCnt, dat_node, dat_setBF]

theorem dat_rotateLeftRight (t : BTree) : (rotateLeftRight t).dat = t.dat := by
  cases t with
  | nil => rfl
  | node l e c r =>
      cases l with
      | nil => rfl
      | node zl ze zc z =>
          cases z with
          | nil => rfl
          | node yl ye yc yr =>
              simp [rotateLeftRight, dat_mkCnt, dat_node, dat_setBF]

theorem dat_combine (zR : Bool) (sub : BTree × Bool) (l : BTree) (e : BEntry)
    (c : Nat) (r : BTree) :
    (combine zR sub l e c r).1.dat =
      if zR then l.dat ++ e.dat :: sub.1.dat else sub.1.dat ++ e.dat :: r.dat := by
  cases zR <;> cases h2 : sub.2 <;>
    simp only [combine, h2] <;> split_ifs <;>
    simp [dat_rotateLeft, dat_rotateRight, dat_rotateRightLeft,
      dat_rotateLeftRight, dat_node, dat_setBF]

theorem dat_freshLeaf (nd : IData) : (freshLeaf nd).dat = [nd] := rfl

theorem dat_attachLeftmost (nd : IData) (t : BTree) :
    (attachLeftmost nd t).1.dat = nd :: t.dat := by
  induction t with
  | nil => rfl
  | node l e c r ihl ihr =>
      cases l with
      | nil => simp [attachLeftmost, dat_combine, eq_self_iff_true, if_true, Bool.false_eq_true, if_false, dat_freshLeaf, dat_node, dat_nil]
      | node ll le lc lr =>
          simp [attachLeftmost, dat_combine, eq_self_iff_true, if_true, Bool.false_eq_true, if_false, dat_node, ihl]

theorem dat_attachRightmost (nd : IData) (t : BTree) :
    (attachRightmost nd t).1.dat = t.dat ++ [nd] := by
  induction t with
  | nil => rfl
  | node l e c r ihl ihr =>
      cases r with
      | nil => simp [attachRightmost, dat_combine, eq_self_iff_true, if_true, Bool.false_eq_true, if_false, dat_freshLeaf, dat_node, dat_nil]
      | node rl re rc rr =>
          simp [attachRightmost, dat_combine, eq_self_iff_true, if_true, Bool.false_eq_true, if_false, dat_node, ihr]

end BTree

/-! ### `insertAfterD` / `insertBeforeD` list lemmas -/

theorem insertAfterD_not_mem {p : String} (nd : IData) {l : List IData}
    (h : p ∉ l.map IData.id) : insertAfterD p nd l = l := by
  induction l with
  | nil => rfl
  | cons x rest ih =>
      simp only [List.map_cons, List.mem_cons, not_or] at h
      have hx : ¬ x.id = p := fun hh => h.1 hh.symm
      simp [insertAfterD, hx, ih h.2]

theorem insertBeforeD_not_mem {q : String} (nd : IData) {l : List IData}
    (h : q ∉ l.map IData.id) : insertBeforeD q nd l = l := by
  induction l with
  | nil => rfl
  | cons x rest ih =>
      simp only [List.map_cons, List.mem_cons, not_or] at h
      have hx : ¬ x.id = q := fun hh => h.1 hh.symm
      simp [insertBeforeD, hx, ih h.2]

theorem insertAfterD_append_right {p : String} (nd : IData) {A : List IData}
    (B : List IData) (h : p ∉ A.map IData.id) :
    insertAfterD p nd (A ++ B) = A ++ insertAfterD p nd B := by
  induction A with
  | nil => rfl
  | cons x rest ih =>
      simp only [List.map_cons, List.mem_cons, not_or] at h
      have hx : ¬ x.id = p := fun hh => h.1 hh.symm
      simp [insertAfterD, hx, ih h.2]

theorem insertBeforeD_append_right {q : String} (nd : IData) {A : List IData}
    (B : List IData) (h : q ∉ A.map IData.id) :
    insertBeforeD q nd (A ++ B) = A ++ insertBeforeD q nd B := by
  induction A with
  | nil => rfl
  | cons x rest ih =>
      simp only [List.map_cons, List.mem_cons, not_or] at h
      have hx : ¬ x.id = q := fun hh => h.1 hh.symm
      simp [insertBeforeD, hx, ih h.2]

theorem insertAfterD_append_left {p : String} (nd : IData) {A : List IData}
    (B : List IData) (h : p ∈ A.map IData.id) :
    insertAfterD p nd (A ++ B) = insertAfterD p nd A ++ B := by
  induction A with
  | nil => simp at h
  | cons x rest ih =>
      by_cases hx : x.id = p
      · simp [insertAfterD, hx]
      · simp only [List.map_cons, List.mem_cons] at h
        rcases h with h | h
        · exact absurd h.symm hx
        · simp [insertAfterD, hx, ih h]

theorem insertBeforeD_append_left {q : String} (nd : IData) {A : List IData}
    (B : List IData) (h : q ∈ A.map IData.id) :
    insertBeforeD q nd (A ++ B) = insertBeforeD q nd A ++ B := by
  induction A with
  | nil => simp at h
  | cons x rest ih =>
      by_cases hx : x.id = q
      · simp [insertBeforeD, hx]
      · simp only [List.map_cons, List.mem_cons] at h
        rcases h with h | h
        · exact absurd h.symm hx
        · simp [insertBeforeD, hx, ih h]

theorem insertAfterD_cons_hit {p : String} (nd : IData) {x : IData}
    (B : List IData) (h : x.id = p) :
    insertAfterD p nd (x :: B) = x :: nd :: B := by
  simp [insertAfterD, h]

theorem insertAfterD_cons_miss {p : String} (nd : IData) {x : IData}
    (B : List IData) (h : ¬ x.id = p) :
    insertAfterD p nd (x :: B) = x :: insertAfterD p nd B := by
  simp [insertAfterD, h]

theorem insertBeforeD_cons_miss {q : String} (nd : IData) {x : IData}
    (B : List IData) (h : ¬ x.id = q) :
    insertBeforeD q nd (x :: B) = x :: insertBeforeD q nd B := by
  simp [insertBeforeD, h]

theorem insertBeforeD_cons_hit {q : String} (nd : IData) {x : IData}
    (B : List IData) (h : x.id = q) :
    insertBeforeD q nd (x :: B) = nd :: x :: B := by
  simp [insertBeforeD, h]

theorem insertAfterD_perm {p : String} (nd : IData) {l : List IData}
    (h : p ∈ l.map IData.id) : (insertAfterD p nd l).Perm (nd :: l) := by
  induction l with
  | nil => simp at h
  | cons x rest ih =>
      by_cases hx : x.id = p
      · simp [insertAfterD, hx]
        exact List.Perm.swap ..
      · simp only [List.map_cons, List.mem_cons] at h
        rcases h with h | h
        · exact absurd h.symm hx
        · simpa [insertAfterD, hx] using ((ih h).cons x).trans (List.Perm.swap ..)

theorem insertBeforeD_perm {q : String} (nd : IData) {l : List IData}
    (h : q ∈ l.map IData.id) : (insertBeforeD q nd l).Perm (nd :: l) := by
  induction l with
  | nil => simp at h
  | cons x rest ih =>
      by_cases hx : x.id = q
      · simp [insertBeforeD, hx]
      · simp only [List.map_cons, List.mem_cons] at h
        rcases h with h | h
        · exact absurd h.symm hx
        · simpa [insertBeforeD, hx] using ((ih h).cons x).trans (List.Perm.swap ..)

/-! ### Count correctness machinery (P3) -/

theorem presCnt_nil : presCnt [] = 0 := rfl

theorem presCnt_cons (x : IData) (l : List IData) :
    presCnt (x :: l) = (if x.isPresent then 1 else 0) + presCnt l := by
  by_cases h : x.isPresent <;> simp [presCnt, h, List.filter_cons, Nat.add_comm]

theorem presCnt_append (A B : List IData) :
    presCnt (A ++ B) = presCnt A + presCnt B := by
  simp [presCnt, List.filter_append]

namespace BTree

theorem countsOK_node_iff {l r : BTree} {e : BEntry} {c : Nat} :
    countsOK (node l e c r) = true ↔
      c = l.count + (if e.isPresent then 1 else 0) + r.count ∧
        countsOK l = true ∧ countsOK r = true := by
  simp [countsOK, Bool.and_eq_true, decide_eq_true_iff, and_assoc]

theorem count_eq_presCnt {t : BTree} (h : countsOK t = true) :
    t.count = presCnt t.dat := by
  induction t with
  | nil => rfl
  | node l e c r ihl ihr =>
      rcases countsOK_node_iff.mp h with ⟨hc, hl, hr⟩
      have hpe : (e.dat).isPresent = e.isPresent := rfl
      simp [count, dat_node, presCnt_append, presCnt_cons, hpe, ← ihl hl, ← ihr hr, hc]
      omega

theorem countsOK_mkCnt {l r : BTree} (e : BEntry)
    (hl : countsOK l = true) (hr : countsOK r = true) :
    countsOK (mkCnt l e r) = true ∧
      (mkCnt l e r).count = l.count + (if e.isPresent then 1 else 0) + r.count := by
  exact ⟨countsOK_node_iff.mpr ⟨rfl, hl, hr⟩, rfl⟩

theorem rotL_counts {l r : BTree} {e : BEntry} {c : Nat}
    (hc : c = l.count + (if e.isPresent then 1 else 0) + r.count)
    (hl : countsOK l = true) (hr : countsOK r = true) :
    countsOK (rotateLeft (node l e c r)) = true ∧
      (rotateLeft (node l e c r)).count = c := by
  cases r with
  | nil => exact ⟨countsOK_node_iff.mpr ⟨hc, hl, hr⟩, rfl⟩
  | node zl ze zc zr =>
      rcases countsOK_node_iff.mp hr with ⟨hzc, hzl, hzr⟩
      refine ⟨?_, ?_⟩
      · exact (countsOK_mkCnt _ ((countsOK_mkCnt _ hl hzl).1) hzr).1
      · simp only [rotateLeft, mkCnt, count]
        subst hc hzc
        cases e.isPresent <;> cases ze.isPresent <;> simp [count] <;> omega

theorem rotR_counts {l r : BTree} {e : BEntry} {c : Nat}
    (hc : c = l.count + (if e.isPresent then 1 else 0) + r.count)
    (hl : countsOK l = true) (hr : countsOK r = true) :
    countsOK (rotateRight (node l e c r)) = true ∧
      (rotateRight (node l e c r)).count = c := by
  cases l with
  | nil => exact ⟨countsOK_node_iff.mpr ⟨hc, hl, hr⟩, rfl⟩
  | node zl ze zc zr =>
      rcases countsOK_node_iff.mp hl with ⟨hzc, hzl, hzr⟩
      refine ⟨?_, ?_⟩
      · exact (countsOK_mkCnt _ hzl ((countsOK_mkCnt _ hzr hr).1)).1
      · simp only [rotateRight, mkCnt, count]
        subst hc hzc
        cases e.isPresent <;> cases ze.isPresent <;> simp [count] <;> omega

theorem rotRL_counts {l r : BTree} {e : BEntry} {c : Nat}
    (hc : c = l.count + (if e.isPresent then 1 else 0) + r.count)
    (hl : countsOK l = true) (hr : countsOK r = true) :
    countsOK (rotateRightLeft (node l e c r)) = true ∧
      (rotateRightLeft (node l e c r)).count = c := by
  cases r with
  | nil => exact ⟨countsOK_node_iff.mpr ⟨hc, hl, hr⟩, rfl⟩
  | node z ze zc zr =>
      cases z with
      | nil => exact ⟨countsOK_node_iff.mpr ⟨hc, hl, hr⟩, rfl⟩
      | node yl ye yc yr =>
          rcases countsOK_node_iff.mp hr with ⟨hzc, hy, hzr⟩
          rcases countsOK_node_iff.mp hy with ⟨hyc, hyl, hyr⟩
          refine ⟨?_, ?_⟩
          · exact (countsOK_mkCnt _ ((countsOK_mkCnt _ hl hyl).1)
              ((countsOK_mkCnt _ hyr hzr).1)).1
          · simp only [rotateRightLeft, mkCnt, count]
            subst hc hzc hyc
            cases e.isPresent <;> cases ze.isPresent <;> cases ye.isPresent <;>
              simp [count] <;> omega

theorem rotLR_counts {l r : BTree} {e : BEntry} {c : Nat}
    (hc : c = l.count + (if e.isPresent then 1 else 0) + r.count)
    (hl : countsOK l = true) (hr : countsOK r = true) :
    countsOK (rotateLeftRight (node l e c r)) = true ∧
      (rotateLeftRight (node l e c r)).count = c := by
  cases l with
  | nil => exact ⟨countsOK_node_iff.mpr ⟨hc, hl, hr⟩, rfl⟩
  | node zl ze zc z =>
      cases z with
      | nil => exact ⟨countsOK_node_iff.mpr ⟨hc, hl, hr⟩, rfl⟩
      | node yl ye yc yr =>
          rcases countsOK_node_iff.mp hl with ⟨hzc, hzl, hy⟩
          rcases countsOK_node_iff.mp hy with ⟨hyc, hyl, hyr⟩
          refine ⟨?_, ?_⟩
          · exact (countsOK_mkCnt _ ((countsOK_mkCnt _ hzl hyl).1)
              ((countsOK_mkCnt _ hyr hr).1)).1
          · simp only [rotateLeftRight, mkCnt, count]
            subst hc hzc hyc
            cases e.isPresent <;> cases ze.isPresent <;> cases ye.isPresent <;>
              simp [count] <;> omega

theorem combine_counts {zR : Bool} {sub : BTree × Bool} {l r : BTree}
    {e : BEntry} {c : Nat}
    (hc : c = l.count + (if e.isPresent then 1 else 0) + r.count)
    (hl : countsOK l = true) (hr : countsOK r = true)
    (hs : countsOK sub.1 = true)
    (hsc : sub.1.count = (if zR then r.count else l.count) + 1) :
    countsOK (combine zR sub l e c r).1 = true ∧
      (combine zR sub l e c r).1.count = c + 1 := by
  have hpe : ∀ x : Int, ({ e with bF := x } : BEntry).isPresent = e.isPresent :=
    fun _ => rfl
  cases zR with
  | true =>
      have hc1 : c + 1 = l.count + (if e.isPresent then 1 else 0) + sub.1.count := by
        simp at hsc; omega
      cases h2 : sub.2 with
      | false =>
          simp only [combine, h2, eq_self_iff_true, if_true,
            Bool.false_eq_true, if_false]
          exact ⟨countsOK_node_iff.mpr ⟨hc1, hl, hs⟩, rfl⟩
      | true =>
          simp only [combine, h2, eq_self_iff_true, if_true,
            Bool.false_eq_true, if_false]
          split_ifs
          · exact rotRL_counts hc1 hl hs
          · exact rotL_counts hc1 hl hs
          · refine ⟨countsOK_node_iff.mpr ⟨?_, hl, hs⟩, rfl⟩
            simpa [hpe] using hc1
          · refine ⟨countsOK_node_iff.mpr ⟨?_, hl, hs⟩, rfl⟩
            simpa [hpe] using hc1
  | false =>
      have hc1 : c + 1 = sub.1.count + (if e.isPresent then 1 else 0) + r.count := by
        simp at hsc; omega
      cases h2 : sub.2 with
      | false =>
          simp only [combine, h2, eq_self_iff_true, if_true,
            Bool.false_eq_true, if_false]
          exact ⟨countsOK_node_iff.mpr ⟨hc1, hs, hr⟩, rfl⟩
      | true =>
          simp only [combine, h2, eq_self_iff_true, if_true,
            Bool.false_eq_true, if_false]
          split_ifs
          · exact rotLR_counts hc1 hs hr
          · exact rotR_counts hc1 hs hr
          · refine ⟨countsOK_node_iff.mpr ⟨?_, hs, hr⟩, rfl⟩
            simpa [hpe] using hc1
          · refine ⟨countsOK_node_iff.mpr ⟨?_, hs, hr⟩, rfl⟩
            simpa [hpe] using hc1

theorem attachLeftmost_counts {nd : IData} (hp : nd.isPresent = true) :
    ∀ {t : BTree}, countsOK t = true →
      countsOK (attachLeftmost nd t).1 = true ∧
        (attachLeftmost nd t).1.count = t.count + 1 := by
  intro t
  induction t with
  | nil =>
      intro _
      refine ⟨countsOK_node_iff.mpr ⟨?_, rfl, rfl⟩, rfl⟩
      simp [count, hp]
  | node l e c r ihl ihr =>
      intro h
      rcases countsOK_node_iff.mp h with ⟨hc, hl, hr⟩
      cases l with
      | nil =>
          have hfresh : countsOK (freshLeaf nd) = true := by
            apply countsOK_node_iff.mpr
            refine ⟨?_, rfl, rfl⟩
            simp [count, hp]
          exact combine_counts hc rfl hr hfresh (by simp [count, freshLeaf])
      | node ll le lc lr =>
          rcases ihl hl with ⟨h1, h2⟩
          exact combine_counts hc hl hr h1 (by simp [h2])

theorem attachRightmost_counts {nd : IData} (hp : nd.isPresent = true) :
    ∀ {t : BTree}, countsOK t = true →
      countsOK (attachRightmost nd t).1 = true ∧
        (attachRightmost nd t).1.count = t.count + 1 := by
  intro t
  induction t with
  | nil =>
      intro _
      refine ⟨countsOK_node_iff.mpr ⟨?_, rfl, rfl⟩, rfl⟩
      simp [count, hp]
  | node l e c r ihl ihr =>
      intro h
      rcases countsOK_node_iff.mp h with ⟨hc, hl, hr⟩
      cases r with
      | nil =>
          have hfresh : countsOK (freshLeaf nd) = true := by
            apply countsOK_node_iff.mpr
            refine ⟨?_, rfl, rfl⟩
            simp [count, hp]
          exact combine_counts hc hl rfl hfresh (by simp [count, freshLeaf])
      | node rl re rc rr =>
          rcases ihr hr with ⟨h1, h2⟩
          exact combine_counts hc hl hr h1 (by simp [h2])

theorem nodup_parts {l r : BTree} {e : BEntry} {c : Nat}
    (hn : (node l e c r).ids.Nodup) :
    l.ids.Nodup ∧ r.ids.Nodup ∧ e.id ∉ l.ids ∧ e.id ∉ r.ids ∧
      ∀ a ∈ l.ids, a ≠ e.id ∧ a ∉ r.ids := by
  rw [ids_node] at hn
  rcases List.nodup_append.mp hn with ⟨h1, h2, h3⟩
  rcases List.nodup_cons.mp h2 with ⟨h4, h5⟩
  refine ⟨h1, h5, fun hx => (h3 hx) (by simp), h4, fun a ha => ?_⟩
  have h6 := h3 ha
  simp only [List.mem_cons, not_or] at h6
  exact ⟨fun hx => h6 (Or.inl hx), fun hx => h6 (Or.inr hx)⟩

theorem attachAfter_spec {p : String} {nd : IData} (hp : nd.isPresent = true) :
    ∀ {t : BTree}, p ∈ t.ids → t.ids.Nodup → countsOK t = true →
      (t.attachAfter p nd).1.dat = insertAfterD p nd t.dat ∧
        countsOK (t.attachAfter p nd).1 = true ∧
        (t.attachAfter p nd).1.count = t.count + 1 := by
  intro t
  induction t with
  | nil => intro hmem; simp [ids_nil] at hmem
  | node l e c r ihl ihr =>
      intro hmem hn hok
      rcases countsOK_node_iff.mp hok with ⟨hc, hl, hr⟩
      rcases nodup_parts hn with ⟨hnl, hnr, hel, her, hdisj⟩
      by_cases he : e.id = p
      · have hplm : p ∉ l.dat.map IData.id := by
          rw [← ids_eq_map_dat]; exact he ▸ hel
        have hAA : (node l e c r).attachAfter p nd =
            combine true (attachLeftmost nd r) l e c r := by
          simp [attachAfter, he]
        rw [hAA]
        have hsub := attachLeftmost_counts hp hr
        have hcc := combine_counts hc hl hr hsub.1
          (show (attachLeftmost nd r).1.count = (if true then r.count else l.count) + 1
            from by simp [hsub.2])
        refine ⟨?_, hcc.1, by simpa [count] using hcc.2⟩
        simp only [dat_combine, if_true, dat_attachLeftmost, dat_node]
        rw [insertAfterD_append_right _ _ hplm,
          insertAfterD_cons_hit _ _ (show (e.dat).id = p from he)]
      · by_cases hil : p ∈ l.ids
        · rcases ihl hil hnl hl with ⟨hd, hok1, hcnt1⟩
          have hplm : p ∈ l.dat.map IData.id := by rw [← ids_eq_map_dat]; exact hil
          have hAA : (node l e c r).attachAfter p nd =
              combine false (attachAfter p nd l) l e c r := by
            simp [attachAfter, he, hil]
          rw [hAA]
          have hcc := combine_counts hc hl hr hok1
            (show (attachAfter p nd l).1.count = (if false then r.count else l.count) + 1
              from by simp [hcnt1])
          refine ⟨?_, hcc.1, by simpa [count] using hcc.2⟩
          simp only [dat_combine, Bool.false_eq_true, if_false, dat_node, hd]
          rw [insertAfterD_append_left _ _ hplm]
        · have hir : p ∈ r.ids := by
            rw [ids_node] at hmem
            simp only [List.mem_append, List.mem_cons] at hmem
            rcases hmem with h | h | h
            · exact absurd h hil
            · exact absurd h.symm he
            · exact h
          rcases ihr hir hnr hr with ⟨hd, hok1, hcnt1⟩
          have hplm : p ∉ l.dat.map IData.id := by
            rw [← ids_eq_map_dat]; exact hil
          have hAA : (node l e c r).attachAfter p nd =
              combine true (attachAfter p nd r) l e c r := by
            simp [attachAfter, he, hil]
          rw [hAA]
          have hcc := combine_counts hc hl hr hok1
            (show (attachAfter p nd r).1.count = (if true then r.count else l.count) + 1
              from by simp [hcnt1])
          refine ⟨?_, hcc.1, by simpa [count] using hcc.2⟩
          simp only [dat_combine, if_true, dat_node, hd]
          rw [insertAfterD_append_right _ _ hplm,
            insertAfterD_cons_miss _ _ (show ¬(e.dat).id = p from he)]

theorem attachBefore_spec {q : String} {nd : IData} (hp : nd.isPresent = true) :
    ∀ {t : BTree}, q ∈ t.ids → t.ids.Nodup → countsOK t = true →
      (t.attachBefore q nd).1.dat = insertBeforeD q nd t.dat ∧
        countsOK (t.attachBefore q nd).1 = true ∧
        (t.attachBefore q nd).1.count = t.count + 1 := by
  intro t
  induction t with
  | nil => intro hmem; simp [ids_nil] at hmem
  | node l e c r ihl ihr =>
      intro hmem hn hok
      rcases countsOK_node_iff.mp hok with ⟨hc, hl, hr⟩
      rcases nodup_parts hn with ⟨hnl, hnr, hel, her, hdisj⟩
      by_cases he : e.id = q
      · have hplm : q ∉ l.dat.map IData.id := by
          rw [← ids_eq_map_dat]; exact he ▸ hel
        have hAA : (node l e c r).attachBefore q nd =
            combine false (attachRightmost nd l) l e c r := by
          simp [attachBefore, he]
        rw [hAA]
        have hsub := attachRightmost_counts hp hl
        have hcc := combine_counts hc hl hr hsub.1
          (show (attachRightmost nd l).1.count = (if false then r.count else l.count) + 1
            from by simp [hsub.2])
        refine ⟨?_, hcc.1, by simpa [count] using hcc.2⟩
        simp only [dat_combine, Bool.false_eq_true, if_false, dat_attachRightmost,
          dat_node]
        rw [insertBeforeD_append_right _ _ hplm,
          insertBeforeD_cons_hit _ _ (show (e.dat).id = q from he)]
        simp
      · by_cases hil : q ∈ l.ids
        · rcases ihl hil hnl hl with ⟨hd, hok1, hcnt1⟩
          have hplm : q ∈ l.dat.map IData.id := by rw [← ids_eq_map_dat]; exact hil
          have hAA : (node l e c r).attachBefore q nd =
              combine false (attachBefore q nd l) l e c r := by
            simp [attachBefore, he, hil]
          rw [hAA]
          have hcc := combine_counts hc hl hr hok1
            (show (attachBefore q nd l).1.count = (if false then r.count else l.count) + 1
              from by simp [hcnt1])
          refine ⟨?_, hcc.1, by simpa [count] using hcc.2⟩
          simp only [dat_combine, Bool.false_eq_true, if_false, dat_node, hd]
          rw [insertBeforeD_append_left _ _ hplm]
        · have hir : q ∈ r.ids := by
            rw [ids_node] at hmem
            simp only [List.mem_append, List.mem_cons] at hmem
            rcases hmem with h | h | h
            · exact absurd h hil
            · exact absurd h.symm he
            · exact h
          rcases ihr hir hnr hr with ⟨hd, hok1, hcnt1⟩
          have hplm : q ∉ l.dat.map IData.id := by
            rw [← ids_eq_map_dat]; exact hil
          have hAA : (node l e c r).attachBefore q nd =
              combine true (attachBefore q nd r) l e c r := by
            simp [attachBefore, he, hil]
          rw [hAA]
          have hcc := combine_counts hc hl hr hok1
            (show (attachBefore q nd r).1.count = (if true then r.count else l.count) + 1
              from by simp [hcnt1])
          refine ⟨?_, hcc.1, by simpa [count] using hcc.2⟩
          simp only [dat_combine, if_true, dat_node, hd]
          rw [insertBeforeD_append_right _ _ hplm,
            insertBeforeD_cons_miss _ _ (show ¬(e.dat).id = q from he)]

/-! ### Index translation (P6) -/

theorem nodeToIndexF_isSome_iff (i : String) (t : BTree) :
    (t.nodeToIndexF i).isSome ↔ i ∈ t.ids := by
  induction t with
  | nil => simp [nodeToIndexF, ids_nil]
  | node l e c r ihl ihr =>
      simp only [nodeToIndexF, ids_node, List.mem_append, List.mem_cons]
      by_cases he : e.id = i
      · simp [he]
      · simp only [he, if_false]
        cases hl : l.nodeToIndexF i with
        | some x =>
            have : i ∈ l.ids := ihl.mp (by simp [hl])
            simp [this]
        | none =>
            have hnl : i ∉ l.ids := fun hm => by
              have := ihl.mpr hm; simp [hl] at this
            have he2 : ¬ i = e.id := fun hx => he hx.symm
            cases hrx : r.nodeToIndexF i with
            | some x => simp [hrx, ihr.mp (by simp [hrx])]
            | none =>
                have hnr : i ∉ r.ids := fun hm => by
                  have := ihr.mpr hm; simp [hrx] at this
                simp [hrx, hnl, he2, hnr]

theorem nodeToIndexF_eq_none_iff (i : String) (t : BTree) :
    t.nodeToIndexF i = none ↔ i ∉ t.ids := by
  rw [← nodeToIndexF_isSome_iff]
  cases t.nodeToIndexF i <;> simp

theorem indexToNodeAux_go_right {l : BTree} {e : BEntry} {c : Nat}
    {rl : BTree} {re : BEntry} {rc : Nat} {rr : BTree} {i : Nat}
    (hil : ¬ i < l.count)
    (hcnd : ¬ (e.isPresent = true ∧ i - l.count = 0))
    (hng : ¬ (node rl re rc rr).count <
      (if e.isPresent then i - l.count - 1 else i - l.count)) :
    indexToNodeAux (node l e c (node rl re rc rr)) i =
      indexToNodeAux (node rl re rc rr)
        (if e.isPresent then i - l.count - 1 else i - l.count) := by
  have hcnd2 : (e.isPresent && (i - l.count = 0 : Bool)) = false := by
    cases hb : e.isPresent with
    | false => simp [hb]
    | true =>
        simp only [hb, Bool.true_and, decide_eq_false_iff_not]
        exact fun h0 => hcnd ⟨hb, h0⟩
  conv_lhs => rw [show indexToNodeAux (node l e c (node rl re rc rr)) i =
    (if i < l.count then indexToNodeAux l i
     else
       if e.isPresent && (i - l.count = 0 : Bool) then .ok e
       else
         if (node rl re rc rr).count <
             (if e.isPresent then i - l.count - 1 else i - l.count) then
           .error "Internal error: failed to find valid index"
         else indexToNodeAux (node rl re rc rr)
           (if e.isPresent then i - l.count - 1 else i - l.count)) from rfl]
  rw [if_neg hil, hcnd2]
  simp only [Bool.false_eq_true, if_false]
  rw [if_neg hng]

theorem indexToNodeAux_spec :
    ∀ {t : BTree}, countsOK t = true → t.ids.Nodup →
      ∀ {i : Nat}, i < t.count →
        ∃ e, indexToNodeAux t i = .ok e ∧ e.isPresent = true ∧
          t.nodeToIndexF e.id = some (i, true) ∧
          (t.dat.filter fun d => d.isPresent)[i]? = some e.dat := by
  intro t
  induction t with
  | nil => intro _ _ i hi; simp [count] at hi
  | node l e c r ihl ihr =>
      intro hok hn i hi
      rcases countsOK_node_iff.mp hok with ⟨hc, hl, hr⟩
      rcases nodup_parts hn with ⟨hnl, hnr, hel, her, hdisj⟩
      have hlc : l.count = (l.dat.filter fun d => d.isPresent).length := by
        rw [count_eq_presCnt hl]; rfl
      rw [show (node l e c r).count = c from rfl] at hi
      by_cases hil : i < l.count
      · rcases ihl hl hnl hil with ⟨e1, h1, h2, h3, h4⟩
        have he1 : e1.id ∈ l.ids := (nodeToIndexF_isSome_iff _ _).mp (by simp [h3])
        have hne : ¬ e.id = e1.id := fun hx => hel (hx ▸ he1)
        refine ⟨e1, ?_, h2, ?_, ?_⟩
        · simp [indexToNodeAux, hil, h1]
        · simp [nodeToIndexF, hne, h3]
        · rw [dat_node]
          rw [List.filter_append]
          rw [List.getElem?_append_left (by omega)]
          exact h4
      · -- i ≥ l.count
        by_cases hmid : e.isPresent = true ∧ i - l.count = 0
        · have hieq : i = l.count := by omega
          refine ⟨e, ?_, hmid.1, ?_, ?_⟩
          · simp [indexToNodeAux, hil, hmid.1, hmid.2]
          · simp [nodeToIndexF, hieq, hmid.1]
          · rw [dat_node, List.filter_append, List.getElem?_append_right (by omega)]
            have hbd : e.dat.isPresent = true := hmid.1
            simp [List.filter_cons, hbd, hieq, ← hlc]
        · -- go right
          cases hb : e.isPresent with
          | false =>
            -- e is a tombstone
            have hcv : c = l.count + r.count := by
              rw [hb] at hc; simpa using hc
            have hiv : (if e.isPresent then i - l.count - 1 else i - l.count) =
                i - l.count := by rw [hb]; simp
            have hir : i - l.count < r.count := by omega
            rcases ihr hr hnr hir with ⟨e1, h1, h2, h3, h4⟩
            have he1 : e1.id ∈ r.ids := (nodeToIndexF_isSome_iff _ _).mp (by simp [h3])
            have hne : ¬ e.id = e1.id := fun hx => her (hx ▸ he1)
            have hnel : e1.id ∉ l.ids := fun hx => (hdisj _ hx).2 he1
            have hfl : l.nodeToIndexF e1.id = none :=
              (nodeToIndexF_eq_none_iff _ _).mpr hnel
            refine ⟨e1, ?_, h2, ?_, ?_⟩
            · cases r with
              | nil => simp [count] at hir
              | node rl re rc rr =>
                  rw [indexToNodeAux_go_right hil hmid (by rw [hiv]; omega), hiv]
                  exact h1
            · simp only [nodeToIndexF, hne, if_false, hfl, h3, Option.map_some]
              rw [hb]
              simp only [Bool.false_eq_true, if_false, Option.map_some', Option.map_some,
                Option.some_inj, Prod.mk.injEq]
              exact ⟨by omega, trivial⟩
            · rw [dat_node, List.filter_append, List.getElem?_append_right (by omega)]
              have hbd : e.dat.isPresent = false := hb
              simp only [List.filter_cons, hbd, Bool.false_eq_true, if_false]
              rw [show i - (l.dat.filter fun d => d.isPresent).length = i - l.count from by
                omega]
              exact h4
          | true =>
            -- e is present, successor strictly to the right
            have hne0 : ¬ (i - l.count = 0) := fun h0 => hmid ⟨hb, h0⟩
            have hcv : c = l.count + 1 + r.count := by
              rw [hb] at hc; simpa using hc
            have hiv : (if e.isPresent then i - l.count - 1 else i - l.count) =
                i - l.count - 1 := by rw [hb]; simp
            have hir : i - l.count - 1 < r.count := by omega
            rcases ihr hr hnr hir with ⟨e1, h1, h2, h3, h4⟩
            have he1 : e1.id ∈ r.ids := (nodeToIndexF_isSome_iff _ _).mp (by simp [h3])
            have hne : ¬ e.id = e1.id := fun hx => her (hx ▸ he1)
            have hnel : e1.id ∉ l.ids := fun hx => (hdisj _ hx).2 he1
            have hfl : l.nodeToIndexF e1.id = none :=
              (nodeToIndexF_eq_none_iff _ _).mpr hnel
            refine ⟨e1, ?_, h2, ?_, ?_⟩
            · cases r with
              | nil => simp [count] at hir
              | node rl re rc rr =>
                  rw [indexToNodeAux_go_right hil hmid (by rw [hiv]; omega), hiv]
                  exact h1
            · simp only [nodeToIndexF, hne, if_false, hfl, h3, Option.map_some]
              rw [hb]
              simp only [if_true, Option.map_some', Option.map_some, Option.some_inj, Prod.mk.injEq]
              exact ⟨by omega, trivial⟩
            · rw [dat_node, List.filter_append, List.getElem?_append_right (by omega)]
              have hbd : e.dat.isPresent = true := hb
              simp only [List.filter_cons, hbd, if_true]
              rw [show i - (l.dat.filter fun d => d.isPresent).length =
                  (i - l.count - 1) + 1 from by omega]
              simpa using h4

theorem indexToNodeF_oob {t : BTree} {i : Nat} (hi : t.count ≤ i) :
    t.indexToNodeF i = .error "index out of bounds" := by
  simp [indexToNodeF, hi]

theorem indexToNodeF_ok {t : BTree} (hok : countsOK t = true) (hn : t.ids.Nodup)
    {i : Nat} (hi : i < t.count) :
    ∃ e, t.indexToNodeF i = .ok e ∧ e.isPresent = true ∧
      t.nodeToIndexF e.id = some (i, true) ∧
      (t.dat.filter fun d => d.isPresent)[i]? = some e.dat := by
  rw [show t.indexToNodeF i = indexToNodeAux t i from by
    simp [indexToNodeF, Nat.not_le.mpr hi]]
  exact indexToNodeAux_spec hok hn hi

/-! ### `toString` traversal (P1/C10 support) -/

theorem toVals_eq {t : BTree} (h : countsOK t = true) :
    toVals t = (t.dat.filter fun d => d.isPresent).map (fun d => d.value) := by
  induction t with
  | nil => rfl
  | node l e c r ihl ihr =>
      rcases countsOK_node_iff.mp h with ⟨hc, hl, hr⟩
      have hLpart : (if l.count ≠ 0 then toVals l else []) =
          (l.dat.filter fun d => d.isPresent).map (fun d => d.value) := by
        by_cases h0 : l.count = 0
        · have hlen : (l.dat.filter fun d => d.isPresent).length = 0 := by
            have h1 := count_eq_presCnt hl
            rw [show presCnt l.dat = (l.dat.filter fun d => d.isPresent).length from rfl] at h1
            omega
          simp [h0, List.length_eq_zero.mp hlen]
        · simp [h0, ihl hl]
      have hRpart : (if r.count ≠ 0 then toVals r else []) =
          (r.dat.filter fun d => d.isPresent).map (fun d => d.value) := by
        by_cases h0 : r.count = 0
        · have hlen : (r.dat.filter fun d => d.isPresent).length = 0 := by
            have h1 := count_eq_presCnt hr
            rw [show presCnt r.dat = (r.dat.filter fun d => d.isPresent).length from rfl] at h1
            omega
          simp [h0, List.length_eq_zero.mp hlen]
        · simp [h0, ihr hr]
      rw [show toVals (node l e c r) =
          (if l.count ≠ 0 then toVals l else []) ++
            (if e.isPresent then [e.value] else []) ++
            (if r.count ≠ 0 then toVals r else []) from rfl]
      rw [hLpart, hRpart, dat_node, List.filter_append, List.map_append,
        List.filter_cons]
      cases hb : e.isPresent with
      | false =>
          have hbd : e.dat.isPresent = false := hb
          simp [hbd, List.append_assoc]
      | true =>
          have hbd : e.dat.isPresent = true := hb
          have hval : e.dat.value = e.value := rfl
          simp [hbd, hval, List.append_assoc]

/-! ### `nextNode` is the inorder successor (C7 support) -/

theorem leftmostEntry_dat {t : BTree} (h : t ≠ nil) :
    t.dat.head? = some (nextNodeF.leftmostEntry t).dat := by
  induction t with
  | nil => exact absurd rfl h
  | node l e c r ihl ihr =>
      cases l with
      | nil => simp [dat_node, dat_nil, nextNodeF.leftmostEntry]
      | node ll le lc lr =>
          rw [dat_node, List.head?_append_of_ne_nil _ (by simp [dat_node])]
          rw [show nextNodeF.leftmostEntry (node (node ll le lc lr) e c r) =
            nextNodeF.leftmostEntry (node ll le lc lr) from rfl]
          exact ihl (by simp)

theorem nextNodeF_not_mem {i : String} {t : BTree} (h : i ∉ t.ids) :
    t.nextNodeF i = none := by
  induction t with
  | nil => rfl
  | node l e c r ihl ihr =>
      rw [ids_node] at h
      simp only [List.mem_append, List.mem_cons, not_or] at h
      have he : ¬ e.id = i := fun hx => h.2.1 hx.symm
      simp [nextNodeF, he, h.1, h.2.2, ihr h.2.2]

end BTree

theorem succD_not_mem {i : String} {l : List IData} (h : i ∉ l.map IData.id) :
    succD l i = none := by
  induction l with
  | nil => rfl
  | cons x rest ih =>
      simp only [List.map_cons, List.mem_cons, not_or] at h
      have hx : ¬ x.id = i := fun hh => h.1 hh.symm
      simp [succD, hx, ih h.2]

theorem succD_append_not_mem {i : String} {A : List IData} (B : List IData)
    (h : i ∉ A.map IData.id) : succD (A ++ B) i = succD B i := by
  induction A with
  | nil => rfl
  | cons x rest ih =>
      simp only [List.map_cons, List.mem_cons, not_or] at h
      have hx : ¬ x.id = i := fun hh => h.1 hh.symm
      simp [succD, hx, ih h.2]

theorem succD_append_mem {i : String} {A : List IData} (B : List IData)
    (h : i ∈ A.map IData.id) :
    succD (A ++ B) i =
      match succD A i with
      | some x => some x
      | none => B.head? := by
  induction A with
  | nil => simp at h
  | cons x rest ih =>
      by_cases hx : x.id = i
      · simp only [List.cons_append, succD, hx, if_true]
        cases rest with
        | nil => simp [succD]
        | cons y ys => simp [succD]
      · simp only [List.map_cons, List.mem_cons] at h
        rcases h with h | h
        · exact absurd h.symm hx
        · simp only [List.cons_append, succD, hx, if_false]
          exact ih h

namespace BTree

theorem nextNodeF_dat {i : String} :
    ∀ {t : BTree}, t.ids.Nodup → i ∈ t.ids →
      (t.nextNodeF i).map BEntry.dat = succD t.dat i := by
  intro t
  induction t with
  | nil => intro _ hi; simp [ids_nil] at hi
  | node l e c r ihl ihr =>
      intro hn hi
      rcases nodup_parts hn with ⟨hnl, hnr, hel, her, hdisj⟩
      have hidsl : l.ids = l.dat.map IData.id := ids_eq_map_dat l
      by_cases he : e.id = i
      · have hil : i ∉ l.ids := he ▸ hel
        have hilm : i ∉ l.dat.map IData.id := hidsl ▸ hil
        rw [dat_node, succD_append_not_mem _ hilm]
        rw [show succD (e.dat :: r.dat) i = r.dat.head? from by
          simp [succD, show (e.dat).id = i from he]]
        cases r with
        | nil => simp [nextNodeF, he, dat_nil]
        | node rl re rc rr =>
            rw [show (node l e c (node rl re rc rr)).nextNodeF i =
              some (nextNodeF.leftmostEntry (node rl re rc rr)) from by
              simp [nextNodeF, he]]
            rw [show Option.map BEntry.dat
              (some (nextNodeF.leftmostEntry (node rl re rc rr))) =
              some (nextNodeF.leftmostEntry (node rl re rc rr)).dat from rfl]
            exact (leftmostEntry_dat (by simp)).symm
      · by_cases hil : i ∈ l.ids
        · have hilm : i ∈ l.dat.map IData.id := hidsl ▸ hil
          rw [dat_node, succD_append_mem _ hilm, ← ihl hnl hil]
          cases hlx : l.nextNodeF i with
          | some x => simp [nextNodeF, he, hil, hlx]
          | none => simp [nextNodeF, he, hil, hlx]
        · have hir : i ∈ r.ids := by
            rw [ids_node] at hi
            simp only [List.mem_append, List.mem_cons] at hi
            rcases hi with h | h | h
            · exact absurd h hil
            · exact absurd h.symm he
            · exact h
          have hilm : i ∉ l.dat.map IData.id := hidsl ▸ hil
          rw [dat_node, succD_append_not_mem _ hilm]
          have hed : ¬ (e.dat).id = i := he
          rw [show succD (e.dat :: r.dat) i = succD r.dat i from by
            simp [succD, hed]]
          rw [show (node l e c r).nextNodeF i = r.nextNodeF i from by
            simp [nextNodeF, he, hil]]
          exact ihr hnr hir

end BTree

/-! ### String length of a join -/

theorem length_foldl_append (l : List String) :
    ∀ acc : String, (l.foldl (fun r s => r ++ s) acc).length =
      acc.length + (l.map String.length).sum := by
  induction l with
  | nil => intro acc; simp
  | cons s rest ih =>
      intro acc
      simp only [List.foldl_cons, ih, String.length_append, List.map_cons,
        List.sum_cons]
      omega

theorem length_join (l : List String) :
    (String.join l).length = (l.map String.length).sum := by
  rw [show String.join l = l.foldl (fun r s => r ++ s) "" from rfl]
  simpa using length_foldl_append l ""

/-! ## Interleaving-tree machinery -/

namespace ITree

theorem canonL_append (A B : List ITree) :
    canonL (A ++ B) = canonL A ++ canonL B := by
  induction A with
  | nil => rfl
  | cons c cs ih => simp [canonL, ih]

theorem allIdsL_append (A B : List ITree) :
    allIdsL (A ++ B) = allIdsL A ++ allIdsL B := by
  induction A with
  | nil => rfl
  | cons c cs ih => simp [allIdsL, ih]

theorem canon_ne_nil (t : ITree) : t.canon ≠ [] := by
  cases t with
  | node d lc rc => simp [canon]

theorem canon_fresh (nd : IData) : (node nd [] []).canon = [nd] := rfl

theorem canon_map_id : ∀ t : ITree, t.canon.map IData.id = t.allIds := by
  apply my_ind
  intro d lc rc ihl ihr
  have hl : (canonL lc).map IData.id = allIdsL lc := by
    induction lc with
    | nil => rfl
    | cons c cs ih =>
        simp only [canonL, allIdsL, List.map_append]
        rw [ihl c (by simp), ih (fun x hx => ihl x (by simp [hx]))]
  have hr : (canonL rc).map IData.id = allIdsL rc := by
    induction rc with
    | nil => rfl
    | cons c cs ih =>
        simp only [canonL, allIdsL, List.map_append]
        rw [ihr c (by simp), ih (fun x hx => ihr x (by simp [hx]))]
  simp [canon, allIds, hl, hr]

theorem mem_allIds_of_mem_lcs {d : IData} {lc rc : List ITree}
    {c : ITree} (hc : c ∈ lc ++ rc) {a : String} (ha : a ∈ c.allIds) :
    a ∈ (node d lc rc).allIds := by
  simp only [allIds, List.mem_append, List.mem_cons]
  rcases List.mem_append.mp hc with h | h
  · left
    rw [allIdsL_eq]
    exact List.mem_flatten.mpr ⟨c.allIds, List.mem_map_of_mem _ h, ha⟩
  · right; right
    rw [allIdsL_eq]
    exact List.mem_flatten.mpr ⟨c.allIds, List.mem_map_of_mem _ h, ha⟩

theorem splice_not_mem {pid : String} {side : Bool} {nd : IData} :
    ∀ {t : ITree}, pid ∉ t.allIds → t.splice pid side nd = t := by
  have main : ∀ t : ITree, pid ∉ t.allIds → t.splice pid side nd = t := by
    apply my_ind
    intro d lc rc ihl ihr hmem
    have hd : ¬ d.id = pid := by
      intro hx
      exact hmem (by simp [allIds, hx])
    have hmapl : lc.map (splice pid side nd) = lc := by
      have h1 : lc.map (splice pid side nd) = lc.map id :=
        List.map_congr_left fun c hc =>
          ihl c hc (fun ha => hmem (mem_allIds_of_mem_lcs (by simp [hc]) ha))
      simpa using h1
    have hmapr : rc.map (splice pid side nd) = rc := by
      have h1 : rc.map (splice pid side nd) = rc.map id :=
        List.map_congr_left fun c hc =>
          ihr c hc (fun ha => hmem (mem_allIds_of_mem_lcs (by simp [hc]) ha))
      simpa using h1
    rw [splice, if_neg hd, spliceL_eq, spliceL_eq, hmapl, hmapr]
  exact fun {t} => main t

/-- The node reached by following first left children, together with its
properties: it is a node of the tree, it has no left children, its id is
`leftmostDesc`, and its data heads the canonical traversal. -/
theorem leftmost_spec : ∀ t : ITree, ∃ n : ITree, IsNode t n ∧
    n.lcs = [] ∧ n.data.id = t.leftmostDesc ∧ t.canon.head? = some n.data := by
  apply my_ind
  intro d lc rc ihl ihr
  cases lc with
  | nil =>
      exact ⟨node d [] rc, IsNode.refl _, rfl, rfl, by simp [canon, canonL, data]⟩
  | cons c cs =>
      rcases ihl c (by simp) with ⟨n, hn, hlcs, hid, hhead⟩
      refine ⟨n, IsNode.child (by simp [lcs, rcs]) hn, hlcs, ?_, ?_⟩
      · rw [hid]; rfl
      · rw [show (node d (c :: cs) rc).canon =
          c.canon ++ (canonL cs ++ d :: canonL rc) from by simp [canon, canonL]]
        rw [List.head?_append_of_ne_nil _ (canon_ne_nil c)]
        exact hhead

theorem rightmostDescL_eq_getLast :
    ∀ (cs : List ITree) (c : ITree),
      rightmostDescL (c :: cs) = ((c :: cs).getLast (by simp)).rightmostDesc := by
  intro cs
  induction cs with
  | nil => intro c; rfl
  | cons c2 cs2 ih =>
      intro c
      exact ih c2

/-- Mirror of `leftmost_spec`. -/
theorem rightmost_spec : ∀ t : ITree, ∃ n : ITree, IsNode t n ∧
    n.rcs = [] ∧ n.data.id = t.rightmostDesc ∧ t.canon.getLast? = some n.data := by
  apply my_ind
  intro d lc rc ihl ihr
  cases rc with
  | nil =>
      refine ⟨node d lc [], IsNode.refl _, rfl, rfl, ?_⟩
      simp [canon, canonL, List.getLast?_append_cons, data]
  | cons c cs =>
      have hne : (c :: cs) ≠ [] := by simp
      have hsplit : canonL (c :: cs) =
          canonL ((c :: cs).dropLast) ++ ((c :: cs).getLast hne).canon := by
        conv_lhs => rw [← List.dropLast_append_getLast hne]
        rw [canonL_append]
        simp [canonL]
      have hlastmem : (c :: cs).getLast hne ∈ (c :: cs) := List.getLast_mem hne
      rcases ihr _ hlastmem with ⟨n, hn, hrcs, hid, hlastc⟩
      refine ⟨n, IsNode.child ?_ hn, hrcs, ?_, ?_⟩
      · exact List.mem_append.mpr (Or.inr hlastmem)
      · rw [hid, show (node d lc (c :: cs)).rightmostDesc =
          rightmostDescL (c :: cs) from rfl, rightmostDescL_eq_getLast]
      · rw [show (node d lc (c :: cs)).canon =
          canonL lc ++ d :: canonL (c :: cs) from rfl, hsplit]
        rw [show canonL lc ++ d ::
            (canonL ((c :: cs).dropLast) ++ ((c :: cs).getLast hne).canon) =
            (canonL lc ++ d :: canonL ((c :: cs).dropLast)) ++
              ((c :: cs).getLast hne).canon from by simp]
        rw [List.getLast?_append_of_ne_nil _ (canon_ne_nil _)]
        exact hlastc

theorem IsNode.trans {t u n : ITree} (h1 : IsNode t u) (h2 : IsNode u n) :
    IsNode t n := by
  induction h1 with
  | refl => exact h2
  | child hc _ ih => exact IsNode.child hc (ih h2)

theorem mem_allIds_self (t : ITree) : t.data.id ∈ t.allIds := by
  cases t with
  | node d lc rc => simp [allIds, data]

theorem IsNode.mem_allIds {t n : ITree} (h : IsNode t n) {a : String}
    (ha : a ∈ n.allIds) : a ∈ t.allIds := by
  induction h with
  | refl => exact ha
  | @child t c n hc _ ih =>
      cases t with
      | node d lc rc => exact mem_allIds_of_mem_lcs hc (ih ha)

theorem findNodeL_eq_some {i : String} :
    ∀ {l : List ITree} {n : ITree}, findNodeL i l = some n →
      ∃ c ∈ l, findNode i c = some n := by
  intro l
  induction l with
  | nil => intro n h; simp [findNodeL] at h
  | cons c cs ih =>
      intro n h
      rw [findNodeL] at h
      cases hc : findNode i c with
      | some m =>
          rw [hc] at h
          exact ⟨c, by simp, hc.trans h⟩
      | none =>
          rw [hc] at h
          rcases ih h with ⟨c2, hc2, h2⟩
          exact ⟨c2, by simp [hc2], h2⟩

theorem findNode_sound {i : String} :
    ∀ {t : ITree} {n : ITree}, t.findNode i = some n →
      IsNode t n ∧ n.data.id = i := by
  have main : ∀ t : ITree, ∀ {n : ITree}, t.findNode i = some n →
      IsNode t n ∧ n.data.id = i := by
    apply my_ind
    intro d lc rc ihl ihr n h
    rw [findNode] at h
    by_cases hd : d.id = i
    · rw [if_pos hd] at h
      obtain rfl : node d lc rc = n := by simpa using h
      exact ⟨IsNode.refl _, hd⟩
    · rw [if_neg hd] at h
      have hsome : ∃ c ∈ lc ++ rc, findNode i c = some n := by
        cases hl : findNodeL i lc with
        | some m =>
            rw [hl] at h
            rcases findNodeL_eq_some hl with ⟨c, hc, hcf⟩
            exact ⟨c, by simp [hc], hcf.trans h⟩
        | none =>
            rw [hl] at h
            rcases findNodeL_eq_some h with ⟨c, hc, hcf⟩
            exact ⟨c, by simp [hc], hcf⟩
      rcases hsome with ⟨c, hc, hcf⟩
      rcases List.mem_append.mp hc with hcl | hcr
      · rcases ihl c hcl hcf with ⟨h1, h2⟩
        exact ⟨IsNode.child (by simpa [lcs, rcs] using hc) h1, h2⟩
      · rcases ihr c hcr hcf with ⟨h1, h2⟩
        exact ⟨IsNode.child (by simpa [lcs, rcs] using hc) h1, h2⟩
  exact fun {t n} => main t

theorem findNodeL_isSome_iff {i : String} {l : List ITree}
    (hall : ∀ c ∈ l, ((c.findNode i).isSome ↔ i ∈ c.allIds)) :
    ((findNodeL i l).isSome ↔ i ∈ allIdsL l) := by
  induction l with
  | nil => simp [findNodeL, allIdsL]
  | cons c cs ih =>
      rw [findNodeL, allIdsL]
      have ih2 := ih (fun c2 hc2 => hall c2 (by simp [hc2]))
      cases hc : findNode i c with
      | some m =>
          have h1 : i ∈ c.allIds := (hall c (by simp)).mp (by simp [hc])
          simp [h1]
      | none =>
          have hnc : i ∉ c.allIds := fun hm => by
            have := (hall c (by simp)).mpr hm; simp [hc] at this
          simp [hc, hnc, ih2]

theorem findNode_isSome_iff {i : String} :
    ∀ t : ITree, ((t.findNode i).isSome ↔ i ∈ t.allIds) := by
  apply my_ind
  intro d lc rc ihl ihr
  rw [findNode]
  by_cases hd : d.id = i
  · simp [hd, allIds]
  · rw [if_neg hd]
    have hlc : ((findNodeL i lc).isSome ↔ i ∈ allIdsL lc) :=
      findNodeL_isSome_iff ihl
    have hrc : ((findNodeL i rc).isSome ↔ i ∈ allIdsL rc) :=
      findNodeL_isSome_iff ihr
    rw [allIds]
    have hd2 : ¬ i = d.id := fun hx => hd hx.symm
    cases hl : findNodeL i lc with
    | some m =>
        have h1 : i ∈ allIdsL lc := hlc.mp (by simp [hl])
        simp [h1]
    | none =>
        have hnl : i ∉ allIdsL lc := fun hm => by
          have := hlc.mpr hm; simp [hl] at this
        simp [hl, hnl, hd2, hrc]

theorem findNode_eq_none_iff {i : String} (t : ITree) :
    t.findNode i = none ↔ i ∉ t.allIds := by
  rw [← findNode_isSome_iff]
  cases t.findNode i <;> simp

theorem mem_allIdsL {a : String} :
    ∀ {l : List ITree} {c : ITree}, c ∈ l → a ∈ c.allIds → a ∈ allIdsL l := by
  intro l
  induction l with
  | nil => intro c hc; simp at hc
  | cons c0 cs ih =>
      intro c hc ha
      rw [allIdsL, List.mem_append]
      rcases List.mem_cons.mp hc with rfl | hc2
      · exact Or.inl ha
      · exact Or.inr (ih hc2 ha)

theorem allIdsL_nodup_mem {l : List ITree} (hn : (allIdsL l).Nodup) {c : ITree}
    (hc : c ∈ l) : c.allIds.Nodup := by
  induction l with
  | nil => simp at hc
  | cons c0 cs ih =>
      rw [allIdsL] at hn
      rcases List.mem_cons.mp hc with rfl | hc2
      · exact (List.nodup_append.mp hn).1
      · exact ih (List.nodup_append.mp hn).2.1 hc2

theorem findNodeL_unique {i : String} :
    ∀ {l : List ITree}, (allIdsL l).Nodup → ∀ {c n : ITree}, c ∈ l →
      findNode i c = some n → findNodeL i l = some n := by
  intro l
  induction l with
  | nil => intro _ c n hc; simp at hc
  | cons c0 cs ih =>
      intro hn c n hc hf
      rw [allIdsL] at hn
      rcases List.nodup_append.mp hn with ⟨hn1, hn2, hdisj⟩
      rcases List.mem_cons.mp hc with rfl | hc2
      · rw [findNodeL, hf]
      · have hi : i ∈ c.allIds := by
          have := (findNode_isSome_iff (i := i) c).mp (by simp [hf])
          exact this
        have hics : i ∈ allIdsL cs := mem_allIdsL hc2 hi
        have hnc0 : i ∉ c0.allIds := fun hm => hdisj hm hics
        have h0 : findNode i c0 = none := by
          rw [← findNode_isSome_iff] at hnc0
          cases h : findNode i c0 <;> simp [h] at hnc0 ⊢
        rw [findNodeL, h0]
        exact ih hn2 hc2 hf

theorem nodup_children {d : IData} {lc rc : List ITree}
    (hn : (node d lc rc).allIds.Nodup) :
    (allIdsL lc).Nodup ∧ (allIdsL rc).Nodup ∧ d.id ∉ allIdsL lc ∧
      d.id ∉ allIdsL rc ∧ ∀ a ∈ allIdsL lc, a ∉ allIdsL rc := by
  rw [allIds] at hn
  rcases List.nodup_append.mp hn with ⟨h1, h2, h3⟩
  rcases List.nodup_cons.mp h2 with ⟨h4, h5⟩
  refine ⟨h1, h5, fun hx => (h3 hx) (by simp), h4, fun a ha hb => (h3 ha) (by simp [hb])⟩

theorem findNode_complete :
    ∀ {t n : ITree}, t.allIds.Nodup → IsNode t n →
      t.findNode n.data.id = some n := by
  intro t n hn h
  induction h with
  | refl =>
      rename_i u
      cases u with
      | node d lc rc => simp [findNode, data]
  | @child t c n hc h ih =>
      cases t with
      | node d lc rc =>
          rw [lcs, rcs] at hc
          rcases nodup_children hn with ⟨hn1, hn2, hd1, hd2, hdisj⟩
          have hcn : c.allIds.Nodup := by
            rcases List.mem_append.mp hc with h2 | h2
            · exact allIdsL_nodup_mem hn1 h2
            · exact allIdsL_nodup_mem hn2 h2
          have hfc : c.findNode n.data.id = some n := ih hcn
          have hmem : n.data.id ∈ c.allIds :=
            IsNode.mem_allIds h (mem_allIds_self n)
          have hd : ¬ d.id = n.data.id := by
            intro hx
            rcases List.mem_append.mp hc with h2 | h2
            · exact hd1 (hx ▸ mem_allIdsL h2 hmem)
            · exact hd2 (hx ▸ mem_allIdsL h2 hmem)
          rw [findNode, if_neg hd]
          rcases List.mem_append.mp hc with h2 | h2
          · rw [findNodeL_unique hn1 h2 hfc]
          · have hnl : n.data.id ∉ allIdsL lc := by
              intro hx
              exact (hdisj _ hx) (mem_allIdsL h2 hmem)
            have h0 : findNodeL n.data.id lc = none := by
              have := findNodeL_isSome_iff (i := n.data.id)
                (l := lc) (fun c2 _ => findNode_isSome_iff c2)
              cases hy : findNodeL n.data.id lc with
              | none => rfl
              | some m =>
                  rw [hy] at this
                  exact absurd (this.mp (by simp)) hnl
            rw [h0]
            exact findNodeL_unique hn2 h2 hfc

theorem IsNode.canon_contig {t n : ITree} (h : IsNode t n) :
    ∃ A B, t.canon = A ++ n.canon ++ B := by
  induction h with
  | refl => exact ⟨[], [], by simp⟩
  | @child t c n hc _ ih =>
      rcases ih with ⟨A, B, hAB⟩
      cases t with
      | node d lc rc =>
          rw [lcs, rcs] at hc
          rcases List.mem_append.mp hc with h2 | h2
          · rcases List.append_of_mem h2 with ⟨pre, post, rfl⟩
            refine ⟨canonL pre ++ A, B ++ canonL post ++ d :: canonL rc, ?_⟩
            rw [show (node d (pre ++ c :: post) rc).canon =
              canonL (pre ++ c :: post) ++ d :: canonL rc from rfl]
            rw [canonL_append, show canonL (c :: post) = c.canon ++ canonL post
              from rfl, hAB]
            simp
          · rcases List.append_of_mem h2 with ⟨pre, post, rfl⟩
            refine ⟨canonL lc ++ d :: canonL pre ++ A, B ++ canonL post, ?_⟩
            rw [show (node d lc (pre ++ c :: post)).canon =
              canonL lc ++ d :: canonL (pre ++ c :: post) from rfl]
            rw [canonL_append, show canonL (c :: post) = c.canon ++ canonL post
              from rfl, hAB]
            simp

theorem idLt_trichotomy (a b : String) : idLt a b ∨ a = b ∨ idLt b a := by
  rcases lt_trichotomy a.data b.data with h | h | h
  · exact Or.inl h
  · exact Or.inr (Or.inl (String.ext h))
  · exact Or.inr (Or.inr h)

theorem idLt_trans {a b c : String} (h1 : idLt a b) (h2 : idLt b c) :
    idLt a c := lt_trans h1 h2

theorem idLt_asymm {a b : String} (h : idLt a b) : ¬ idLt b a := lt_asymm h

theorem mem_allIdsL_iff {a : String} :
    ∀ {l : List ITree}, a ∈ allIdsL l ↔ ∃ c ∈ l, a ∈ c.allIds := by
  intro l
  induction l with
  | nil => simp [allIdsL]
  | cons c cs ih =>
      rw [allIdsL, List.mem_append, ih]
      constructor
      · rintro (h | ⟨c2, hc2, h2⟩)
        · exact ⟨c, by simp, h⟩
        · exact ⟨c2, by simp [hc2], h2⟩
      · rintro ⟨c2, hc2, h2⟩
        rcases List.mem_cons.mp hc2 with rfl | hc3
        · exact Or.inl h2
        · exact Or.inr ⟨c2, hc3, h2⟩

theorem mem_canonL {x : IData} :
    ∀ {l : List ITree} {c : ITree}, c ∈ l → x ∈ c.canon → x ∈ canonL l := by
  intro l
  induction l with
  | nil => intro c hc; simp at hc
  | cons c0 cs ih =>
      intro c hc hx
      rw [canonL, List.mem_append]
      rcases List.mem_cons.mp hc with rfl | hc2
      · exact Or.inl hx
      · exact Or.inr (ih hc2 hx)

theorem IsNode_inv {t n : ITree} (h : IsNode t n) :
    n = t ∨ ∃ c ∈ t.lcs ++ t.rcs, IsNode c n := by
  cases h with
  | refl => exact Or.inl rfl
  | child hc h2 => exact Or.inr ⟨_, hc, h2⟩

theorem insertSib_eq (nd : IData) :
    ∀ l : List ITree,
      insertSib nd l =
        l.take (l.findIdx fun c => decide (idLt nd.id c.data.id)) ++
          node nd [] [] ::
            l.drop (l.findIdx fun c => decide (idLt nd.id c.data.id)) := by
  intro l
  induction l with
  | nil => rfl
  | cons c rest ih =>
      rw [insertSib]
      by_cases h : idLt nd.id c.data.id
      · rw [if_pos h, List.findIdx_cons]
        simp [h]
      · rw [if_neg h, List.findIdx_cons,
          show decide (idLt nd.id c.data.id) = false from decide_eq_false h]
        simp only [cond_false, List.take_succ_cons, List.drop_succ_cons,
          List.cons_append, ih]

theorem splice_data {pid : String} {side : Bool} {nd : IData} (t : ITree) :
    (t.splice pid side nd).data = t.data := by
  cases t with
  | node d lc rc =>
      rw [splice]
      by_cases h : d.id = pid
      · rw [if_pos h]; cases side <;> simp [data]
      · rw [if_neg h]; rfl

theorem tomb_data {i : String} (t : ITree) :
    (t.tomb i).data =
      (if t.data.id = i then { t.data with isPresent := false } else t.data) := by
  cases t with
  | node d lc rc => rw [tomb]; rfl

theorem tomb_data_id {i : String} (t : ITree) :
    (t.tomb i).data.id = t.data.id := by
  rw [tomb_data]
  by_cases h : t.data.id = i <;> simp [h]

theorem allIds_tomb {i : String} : ∀ t : ITree, (t.tomb i).allIds = t.allIds := by
  apply my_ind
  intro d lc rc ihl ihr
  have hl : allIdsL (tombL i lc) = allIdsL lc := by
    induction lc with
    | nil => rfl
    | cons c cs ih =>
        rw [tombL, allIdsL, allIdsL, ihl c (by simp),
          ih (fun c2 hc2 => ihl c2 (by simp [hc2]))]
  have hr : allIdsL (tombL i rc) = allIdsL rc := by
    induction rc with
    | nil => rfl
    | cons c cs ih =>
        rw [tombL, allIdsL, allIdsL, ihr c (by simp),
          ih (fun c2 hc2 => ihr c2 (by simp [hc2]))]
  rw [tomb, allIds, allIds, hl, hr]
  by_cases h : d.id = i <;> simp [h]

theorem canon_tomb {i : String} :
    ∀ t : ITree, (t.tomb i).canon =
      t.canon.map (fun d => if d.id = i then { d with isPresent := false } else d) := by
  apply my_ind
  intro d lc rc ihl ihr
  have hl : canonL (tombL i lc) =
      (canonL lc).map (fun d => if d.id = i then { d with isPresent := false } else d) := by
    induction lc with
    | nil => rfl
    | cons c cs ih =>
        rw [tombL, canonL, canonL, List.map_append, ihl c (by simp),
          ih (fun c2 hc2 => ihl c2 (by simp [hc2]))]
  have hr : canonL (tombL i rc) =
      (canonL rc).map (fun d => if d.id = i then { d with isPresent := false } else d) := by
    induction rc with
    | nil => rfl
    | cons c cs ih =>
        rw [tombL, canonL, canonL, List.map_append, ihr c (by simp),
          ih (fun c2 hc2 => ihr c2 (by simp [hc2]))]
  rw [tomb, canon, canon, List.map_append, List.map_cons, hl, hr]

theorem tomb_eq_self {i : String} :
    ∀ t : ITree, (∀ d ∈ t.canon, d.id = i → d.isPresent = false) →
      t.tomb i = t := by
  apply my_ind
  intro d lc rc ihl ihr hall
  have hd : (if d.id = i then { d with isPresent := false } else d) = d := by
    by_cases h : d.id = i
    · have := hall d (by simp [canon]) h
      rw [if_pos h]
      cases d with
      | mk di dv dp => simp at this ⊢; exact this
    · rw [if_neg h]
  have hlc : tombL i lc = lc := by
    rw [tombL_eq]
    have h1 : lc.map (tomb i) = lc.map id := List.map_congr_left fun c hc =>
      ihl c hc fun x hx hxi =>
        hall x (by rw [canon]; exact List.mem_append.mpr (Or.inl (mem_canonL hc hx))) hxi
    simpa using h1
  have hrc : tombL i rc = rc := by
    rw [tombL_eq]
    have h1 : rc.map (tomb i) = rc.map id := List.map_congr_left fun c hc =>
      ihr c hc fun x hx hxi =>
        hall x (by
          rw [canon]
          exact List.mem_append.mpr (Or.inr (List.mem_cons.mpr
            (Or.inr (mem_canonL hc hx))))) hxi
    simpa using h1
  rw [tomb, hd, hlc, hrc]

theorem tomb_not_mem {i : String} {t : ITree} (h : i ∉ t.allIds) :
    t.tomb i = t := by
  apply tomb_eq_self
  intro d hd hdi
  exact absurd (by rw [← hdi, ← canon_map_id]; exact List.mem_map_of_mem _ hd) h

theorem findNodeL_map {a : String} {g : ITree → ITree} :
    ∀ {l : List ITree}, (∀ c ∈ l, findNode a (g c) = (findNode a c).map g) →
      findNodeL a (l.map g) = (findNodeL a l).map g := by
  intro l
  induction l with
  | nil => intro _; rfl
  | cons c cs ih =>
      intro hall
      rw [List.map_cons, findNodeL, findNodeL, hall c (by simp)]
      cases hc : findNode a c with
      | some n => rfl
      | none =>
          simp only [Option.map_none]
          exact ih (fun c2 hc2 => hall c2 (by simp [hc2]))

theorem findNodeL_append (a : String) :
    ∀ A B : List ITree, findNodeL a (A ++ B) =
      match findNodeL a A with
      | some n => some n
      | none => findNodeL a B := by
  intro A B
  induction A with
  | nil => rfl
  | cons c cs ih =>
      rw [List.cons_append, findNodeL, findNodeL]
      cases hc : findNode a c with
      | some n => rfl
      | none => exact ih

theorem findNode_tomb {i a : String} :
    ∀ t : ITree, (t.tomb i).findNode a = (t.findNode a).map (tomb i) := by
  apply my_ind
  intro d lc rc ihl ihr
  rw [tomb, findNode, findNode]
  have hcond : (if d.id = i then { d with isPresent := false } else d).id = d.id := by
    by_cases h : d.id = i <;> simp [h]
  by_cases hda : d.id = a
  · rw [hcond, if_pos hda, if_pos hda]
    rfl
  · rw [hcond, if_neg hda, if_neg hda, tombL_eq, tombL_eq,
      findNodeL_map ihl, findNodeL_map ihr]
    cases hl : findNodeL a lc with
    | some n => simp
    | none => simp

theorem allIds_splice_mono {pid : String} {side : Bool} {nd : IData} {a : String} :
    ∀ t : ITree, a ∈ t.allIds → a ∈ (t.splice pid side nd).allIds := by
  apply my_ind
  intro d lc rc ihl ihr ha
  rw [splice]
  by_cases h : d.id = pid
  · rw [if_pos h]
    have htd : ∀ l : List ITree, allIdsL (insertSib nd l) =
        allIdsL (l.take (l.findIdx fun c => decide (idLt nd.id c.data.id))) ++
          nd.id :: allIdsL (l.drop (l.findIdx fun c => decide (idLt nd.id c.data.id))) := by
      intro l
      rw [insertSib_eq, allIdsL_append, allIdsL, allIds, allIdsL]
      rfl
    cases side
    · simp only [Bool.false_eq_true, if_false, allIds, htd rc]
      rw [allIds] at ha
      simp only [List.mem_append, List.mem_cons] at ha ⊢
      rcases ha with h1 | h1 | h1
      · exact Or.inl h1
      · exact Or.inr (Or.inl h1)
      · rw [show allIdsL rc =
          allIdsL (rc.take (rc.findIdx fun c => decide (idLt nd.id c.data.id))) ++
            allIdsL (rc.drop (rc.findIdx fun c => decide (idLt nd.id c.data.id)))
          from by rw [← allIdsL_append, List.take_append_drop]] at h1
        rcases List.mem_append.mp h1 with h2 | h2
        · exact Or.inr (Or.inr (Or.inl h2))
        · exact Or.inr (Or.inr (Or.inr (Or.inr h2)))
    · simp only [if_true, allIds, htd lc]
      rw [allIds] at ha
      simp only [List.mem_append, List.mem_cons] at ha ⊢
      rcases ha with h1 | h1
      · rw [show allIdsL lc =
          allIdsL (lc.take (lc.findIdx fun c => decide (idLt nd.id c.data.id))) ++
            allIdsL (lc.drop (lc.findIdx fun c => decide (idLt nd.id c.data.id)))
          from by rw [← allIdsL_append, List.take_append_drop]] at h1
        rcases List.mem_append.mp h1 with h2 | h2
        · exact Or.inl (Or.inl h2)
        · exact Or.inl (Or.inr (Or.inr h2))
      · exact Or.inr h1
  · rw [if_neg h, spliceL_eq, spliceL_eq, allIds]
    rw [allIds] at ha
    simp only [List.mem_append, List.mem_cons] at ha ⊢
    rcases ha with h1 | h1 | h1
    · rcases mem_allIdsL_iff.mp h1 with ⟨c, hc, hac⟩
      exact Or.inl (mem_allIdsL_iff.mpr
        ⟨splice pid side nd c, List.mem_map_of_mem _ hc, ihl c hc hac⟩)
    · exact Or.inr (Or.inl h1)
    · rcases mem_allIdsL_iff.mp h1 with ⟨c, hc, hac⟩
      exact Or.inr (Or.inr (mem_allIdsL_iff.mpr
        ⟨splice pid side nd c, List.mem_map_of_mem _ hc, ihr c hc hac⟩))

theorem allIds_splice_sub {pid : String} {side : Bool} {nd : IData} {a : String} :
    ∀ t : ITree, a ∈ (t.splice pid side nd).allIds → a = nd.id ∨ a ∈ t.allIds := by
  apply my_ind
  intro d lc rc ihl ihr ha
  rw [splice] at ha
  by_cases h : d.id = pid
  · rw [if_pos h] at ha
    have hins : ∀ l : List ITree, a ∈ allIdsL (insertSib nd l) →
        a = nd.id ∨ a ∈ allIdsL l := by
      intro l hin
      rw [insertSib_eq, allIdsL_append, allIdsL] at hin
      have hsplit : allIdsL l =
          allIdsL (l.take (l.findIdx fun c => decide (idLt nd.id c.data.id))) ++
            allIdsL (l.drop (l.findIdx fun c => decide (idLt nd.id c.data.id))) := by
        rw [← allIdsL_append, List.take_append_drop]
      rcases List.mem_append.mp hin with h1 | h1
      · exact Or.inr (by rw [hsplit]; exact List.mem_append.mpr (Or.inl h1))
      · rcases List.mem_append.mp h1 with h2 | h2
        · exact Or.inl (by simpa [allIds, allIdsL] using h2)
        · exact Or.inr (by rw [hsplit]; exact List.mem_append.mpr (Or.inr h2))
    cases side
    · simp only [Bool.false_eq_true, if_false, allIds, List.mem_append,
        List.mem_cons] at ha
      rw [allIds]
      simp only [List.mem_append, List.mem_cons]
      rcases ha with h1 | h1 | h1
      · exact Or.inr (Or.inl h1)
      · exact Or.inr (Or.inr (Or.inl h1))
      · rcases hins rc h1 with h2 | h2
        · exact Or.inl h2
        · exact Or.inr (Or.inr (Or.inr h2))
    · simp only [if_true, allIds, List.mem_append, List.mem_cons] at ha
      rw [allIds]
      simp only [List.mem_append, List.mem_cons]
      rcases ha with h1 | h1
      · rcases hins lc h1 with h2 | h2
        · exact Or.inl h2
        · exact Or.inr (Or.inl h2)
      · exact Or.inr (Or.inr h1)
  · rw [if_neg h, spliceL_eq, spliceL_eq, allIds] at ha
    rw [allIds]
    simp only [List.mem_append, List.mem_cons] at ha ⊢
    rcases ha with h1 | h1 | h1
    · rcases mem_allIdsL_iff.mp h1 with ⟨c2, hc2, hac⟩
      rcases List.mem_map.mp hc2 with ⟨c, hc, rfl⟩
      rcases ihl c hc hac with h2 | h2
      · exact Or.inl h2
      · exact Or.inr (Or.inl (mem_allIdsL_iff.mpr ⟨c, hc, h2⟩))
    · exact Or.inr (Or.inr (Or.inl h1))
    · rcases mem_allIdsL_iff.mp h1 with ⟨c2, hc2, hac⟩
      rcases List.mem_map.mp hc2 with ⟨c, hc, rfl⟩
      rcases ihr c hc hac with h2 | h2
      · exact Or.inl h2
      · exact Or.inr (Or.inr (Or.inr (mem_allIdsL_iff.mpr ⟨c, hc, h2⟩)))

theorem canonL_map_id : ∀ l : List ITree, (canonL l).map IData.id = allIdsL l := by
  intro l
  induction l with
  | nil => rfl
  | cons c cs ih => rw [canonL, allIdsL, List.map_append, canon_map_id, ih]

theorem nodup_disjoint_left {l : List ITree} (hn : (allIdsL l).Nodup)
    {A B : List ITree} {c : ITree} (hdec : l = A ++ c :: B) {a : String}
    (ha : a ∈ c.allIds) : a ∉ allIdsL A := by
  subst hdec
  rw [allIdsL_append, allIdsL] at hn
  intro hmem
  rcases List.nodup_append.mp hn with ⟨h1, h2, hdisj⟩
  exact hdisj hmem (List.mem_append.mpr (Or.inl ha))

theorem nodup_disjoint_right {l : List ITree} (hn : (allIdsL l).Nodup)
    {A B : List ITree} {c : ITree} (hdec : l = A ++ c :: B) {a : String}
    (ha : a ∈ c.allIds) : a ∉ allIdsL B := by
  subst hdec
  rw [allIdsL_append, allIdsL] at hn
  rcases List.nodup_append.mp hn with ⟨h1, h2, hdisj⟩
  rcases List.nodup_append.mp h2 with ⟨h3, h4, hdisj2⟩
  exact fun hb => hdisj2 ha hb

theorem leftmostDesc_mem (t : ITree) : t.leftmostDesc ∈ t.allIds := by
  rcases leftmost_spec t with ⟨n, hn, _, hid, _⟩
  exact hid ▸ hn.mem_allIds (mem_allIds_self n)

theorem rightmostDesc_mem (t : ITree) : t.rightmostDesc ∈ t.allIds := by
  rcases rightmost_spec t with ⟨n, hn, _, hid, _⟩
  exact hid ▸ hn.mem_allIds (mem_allIds_self n)

/-- Lift a canon-level description of a splice at the parent node to the
whole tree: inside a tree with distinct ids, the splice rewrites the
parent's subtree in place, and an insertion function that localizes over
appends carries the description through the surrounding context. -/
theorem splice_canon_lift {pid q : String} {side : Bool} {nd : IData}
    {dp : IData} {lcp rcp : List ITree} {F : List IData → List IData}
    (hFr : ∀ A B : List IData, q ∉ A.map IData.id → F (A ++ B) = A ++ F B)
    (hFl : ∀ A B : List IData, q ∈ A.map IData.id → F (A ++ B) = F A ++ B)
    (hdp : dp.id = pid)
    (hq : q ∈ (node dp lcp rcp).allIds)
    (hroot : (node dp lcp rcp).allIds.Nodup →
      ((node dp lcp rcp).splice pid side nd).canon = F (node dp lcp rcp).canon) :
    ∀ t : ITree, t.allIds.Nodup → IsNode t (node dp lcp rcp) →
      (t.splice pid side nd).canon = F t.canon := by
  apply my_ind
  intro d lc rc ihl ihr hn hpar
  by_cases hd : d.id = pid
  · -- the root is the parent node
    have heq : node dp lcp rcp = node d lc rc := by
      rcases IsNode_inv hpar with h | ⟨c0, hc0, h0⟩
      · exact h
      · exfalso
        have hpidc : pid ∈ c0.allIds :=
          h0.mem_allIds (hdp ▸ mem_allIds_self (node dp lcp rcp))
        rcases nodup_children hn with ⟨hn1, hn2, hd1, hd2, hdisj⟩
        rw [lcs, rcs] at hc0
        rcases List.mem_append.mp hc0 with h2 | h2
        · exact hd1 (hd ▸ mem_allIdsL h2 hpidc)
        · exact hd2 (hd ▸ mem_allIdsL h2 hpidc)
    rw [← heq] at hn ⊢
    exact hroot hn
  · -- the parent node lies inside exactly one child
    have hne : ¬ node dp lcp rcp = node d lc rc := by
      intro h
      cases h
      exact hd hdp
    rcases IsNode_inv hpar with h | ⟨c0, hc0, h0⟩
    · exact absurd h hne
    rw [lcs, rcs] at hc0
    have hpidc0 : pid ∈ c0.allIds :=
      h0.mem_allIds (hdp ▸ mem_allIds_self (node dp lcp rcp))
    have hqc0 : q ∈ c0.allIds := h0.mem_allIds hq
    rcases nodup_children hn with ⟨hn1, hn2, hd1, hd2, hdisj⟩
    rw [show (node d lc rc).splice pid side nd =
      node d (spliceL pid side nd lc) (spliceL pid side nd rc) from by
      rw [splice, if_neg hd], spliceL_eq, spliceL_eq]
    rcases List.mem_append.mp hc0 with hmem | hmem
    · -- parent inside a left child
      rcases List.append_of_mem hmem with ⟨pre, post, rfl⟩
      have hnc0 : c0.allIds.Nodup := allIdsL_nodup_mem hn1 hmem
      have hih : (c0.splice pid side nd).canon = F c0.canon :=
        ihl c0 hmem hnc0 h0
      have hpre : pre.map (splice pid side nd) = pre := by
        have h1 : pre.map (splice pid side nd) = pre.map id :=
          List.map_congr_left fun c hc => splice_not_mem fun hmm =>
            (nodup_disjoint_left hn1 rfl hpidc0) (mem_allIdsL hc hmm)
        simpa using h1
      have hpost : post.map (splice pid side nd) = post := by
        have h1 : post.map (splice pid side nd) = post.map id :=
          List.map_congr_left fun c hc => splice_not_mem fun hmm =>
            (nodup_disjoint_right hn1 rfl hpidc0) (mem_allIdsL hc hmm)
        simpa using h1
      have hrc : rc.map (splice pid side nd) = rc := by
        have h1 : rc.map (splice pid side nd) = rc.map id :=
          List.map_congr_left fun c hc => splice_not_mem fun hmm =>
            (hdisj pid (mem_allIdsL hmem hpidc0)) (mem_allIdsL hc hmm)
        simpa using h1
      rw [List.map_append, List.map_cons, hpre, hpost, hrc]
      rw [show (node d (pre ++ c0.splice pid side nd :: post) rc).canon =
        canonL (pre ++ c0.splice pid side nd :: post) ++ d :: canonL rc from rfl]
      rw [canonL_append, show canonL (c0.splice pid side nd :: post) =
        (c0.splice pid side nd).canon ++ canonL post from rfl, hih]
      rw [show (node d (pre ++ c0 :: post) rc).canon =
        canonL (pre ++ c0 :: post) ++ d :: canonL rc from rfl]
      rw [canonL_append, show canonL (c0 :: post) = c0.canon ++ canonL post from rfl]
      have hq1 : q ∉ (canonL pre).map IData.id := by
        rw [canonL_map_id]
        exact nodup_disjoint_left hn1 rfl hqc0
      have hq2 : q ∈ (c0.canon).map IData.id := by
        rw [canon_map_id]; exact hqc0
      calc canonL pre ++ (F c0.canon ++ canonL post) ++ d :: canonL rc
          = canonL pre ++ F (c0.canon ++ (canonL post ++ d :: canonL rc)) := by
            rw [hFl _ _ hq2]; simp
        _ = F (canonL pre ++ (c0.canon ++ (canonL post ++ d :: canonL rc))) := by
            rw [hFr _ _ hq1]
        _ = F (canonL pre ++ (c0.canon ++ canonL post) ++ d :: canonL rc) := by
            simp
    · -- parent inside a right child
      rcases List.append_of_mem hmem with ⟨pre, post, rfl⟩
      have hnc0 : c0.allIds.Nodup := allIdsL_nodup_mem hn2 hmem
      have hih : (c0.splice pid side nd).canon = F c0.canon :=
        ihr c0 hmem hnc0 h0
      have hpre : pre.map (splice pid side nd) = pre := by
        have h1 : pre.map (splice pid side nd) = pre.map id :=
          List.map_congr_left fun c hc => splice_not_mem fun hmm =>
            (nodup_disjoint_left hn2 rfl hpidc0) (mem_allIdsL hc hmm)
        simpa using h1
      have hpost : post.map (splice pid side nd) = post := by
        have h1 : post.map (splice pid side nd) = post.map id :=
          List.map_congr_left fun c hc => splice_not_mem fun hmm =>
            (nodup_disjoint_right hn2 rfl hpidc0) (mem_allIdsL hc hmm)
        simpa using h1
      have hlc : lc.map (splice pid side nd) = lc := by
        have h1 : lc.map (splice pid side nd) = lc.map id :=
          List.map_congr_left fun c hc => splice_not_mem fun hmm =>
            (hdisj pid (mem_allIdsL hc hmm)) (mem_allIdsL hmem hpidc0)
        simpa using h1
      rw [List.map_append, List.map_cons, hpre, hpost, hlc]
      rw [show (node d lc (pre ++ c0.splice pid side nd :: post)).canon =
        canonL lc ++ d :: canonL (pre ++ c0.splice pid side nd :: post) from rfl]
      rw [canonL_append, show canonL (c0.splice pid side nd :: post) =
        (c0.splice pid side nd).canon ++ canonL post from rfl, hih]
      rw [show (node d lc (pre ++ c0 :: post)).canon =
        canonL lc ++ d :: canonL (pre ++ c0 :: post) from rfl]
      rw [canonL_append, show canonL (c0 :: post) = c0.canon ++ canonL post from rfl]
      have hq1 : q ∉ (canonL lc ++ d :: canonL pre).map IData.id := by
        rw [List.map_append, List.map_cons, canonL_map_id, canonL_map_id]
        intro hmm
        rcases List.mem_append.mp hmm with h1 | h1
        · exact hdisj q h1 (mem_allIdsL hmem hqc0)
        · rcases List.mem_cons.mp h1 with h2 | h2
          · exact hd2 (h2 ▸ mem_allIdsL hmem hqc0)
          · exact nodup_disjoint_left hn2 rfl hqc0 h2
      have hq2 : q ∈ (c0.canon).map IData.id := by
        rw [canon_map_id]; exact hqc0
      calc canonL lc ++ d :: (canonL pre ++ (F c0.canon ++ canonL post))
          = (canonL lc ++ d :: canonL pre) ++ F (c0.canon ++ canonL post) := by
            rw [hFl _ _ hq2]; simp
        _ = F ((canonL lc ++ d :: canonL pre) ++ (c0.canon ++ canonL post)) := by
            rw [hFr _ _ hq1]
        _ = F (canonL lc ++ d :: (canonL pre ++ (c0.canon ++ canonL post))) := by
            simp

/-- Inserting a left child that lands before sibling `c` places the new
data immediately before `c`'s leftmost descendant in the canonical
inorder. -/
theorem splice_canon_left_mid {pid : String} {nd : IData} {t : ITree}
    (hn : t.allIds.Nodup) {dp : IData} {lcp rcp : List ITree}
    (hpar : IsNode t (node dp lcp rcp)) (hdp : dp.id = pid)
    {A B : List ITree} {c : ITree} (hlcp : lcp = A ++ c :: B)
    (hins : insertSib nd lcp = A ++ node nd [] [] :: c :: B) :
    (t.splice pid true nd).canon = insertBeforeD c.leftmostDesc nd t.canon := by
  subst hlcp
  refine splice_canon_lift
    (fun A2 B2 h => insertBeforeD_append_right nd B2 h)
    (fun A2 B2 h => insertBeforeD_append_left nd B2 h)
    hdp ?_ ?_ t hn hpar
  · exact mem_allIds_of_mem_lcs
      (List.mem_append.mpr (Or.inl (by simp))) (leftmostDesc_mem c)
  · intro hnp
    have hsp : (node dp (A ++ c :: B) rcp).splice pid true nd =
        node dp (insertSib nd (A ++ c :: B)) rcp := by
      rw [splice, if_pos hdp]
      simp
    rw [hsp, hins]
    rcases leftmost_spec c with ⟨n, hnc, hlcs, hid, hhead⟩
    cases hcanon : c.canon with
    | nil => exact absurd hcanon (canon_ne_nil c)
    | cons e cr =>
        have he : e = n.data := by rw [hcanon] at hhead; simpa using hhead
        have heid : e.id = c.leftmostDesc := by rw [he, hid]
        have hq1 : c.leftmostDesc ∉ (canonL A).map IData.id := by
          rw [canonL_map_id]
          rcases nodup_children hnp with ⟨hn1, h2, h3, h4, h5⟩
          exact nodup_disjoint_left hn1 rfl (leftmostDesc_mem c)
        rw [show (node dp (A ++ node nd [] [] :: c :: B) rcp).canon =
          canonL (A ++ node nd [] [] :: c :: B) ++ dp :: canonL rcp from rfl]
        rw [show (node dp (A ++ c :: B) rcp).canon =
          canonL (A ++ c :: B) ++ dp :: canonL rcp from rfl]
        rw [canonL_append, canonL_append,
          show canonL (node nd [] [] :: c :: B) =
            canon (node nd [] []) ++ canonL (c :: B) from rfl,
          show canonL (c :: B) = c.canon ++ canonL B from rfl, canon_fresh, hcanon]
        simp only [List.append_assoc, List.cons_append, List.nil_append,
          List.singleton_append]
        rw [insertBeforeD_append_right nd _ hq1, insertBeforeD_cons_hit nd _ heid]

/-- Inserting a left child that lands after all existing left children
places the new data immediately before the parent in the canonical
inorder. -/
theorem splice_canon_left_end {pid : String} {nd : IData} {t : ITree}
    (hn : t.allIds.Nodup) {dp : IData} {lcp rcp : List ITree}
    (hpar : IsNode t (node dp lcp rcp)) (hdp : dp.id = pid)
    (hins : insertSib nd lcp = lcp ++ [node nd [] []]) :
    (t.splice pid true nd).canon = insertBeforeD pid nd t.canon := by
  refine splice_canon_lift
    (fun A2 B2 h => insertBeforeD_append_right nd B2 h)
    (fun A2 B2 h => insertBeforeD_append_left nd B2 h)
    hdp ?_ ?_ t hn hpar
  · exact hdp ▸ mem_allIds_self (node dp lcp rcp)
  · intro hnp
    have hsp : (node dp lcp rcp).splice pid true nd =
        node dp (insertSib nd lcp) rcp := by
      rw [splice, if_pos hdp]
      simp
    rw [hsp, hins]
    have hq1 : pid ∉ (canonL lcp).map IData.id := by
      rw [canonL_map_id]
      rcases nodup_children hnp with ⟨h1, h2, hd1, h4, h5⟩
      exact hdp ▸ hd1
    rw [show (node dp (lcp ++ [node nd [] []]) rcp).canon =
      canonL (lcp ++ [node nd [] []]) ++ dp :: canonL rcp from rfl]
    rw [show (node dp lcp rcp).canon = canonL lcp ++ dp :: canonL rcp from rfl]
    rw [canonL_append, show canonL [node nd [] []] = canon (node nd [] []) ++ canonL []
      from rfl, canon_fresh]
    simp only [List.append_assoc, List.cons_append, List.nil_append,
      List.singleton_append, List.append_nil]
    rw [insertBeforeD_append_right nd _ hq1,
      insertBeforeD_cons_hit nd _ (show dp.id = pid from hdp)]
    rfl

/-- Inserting a right child that lands before all existing right children
places the new data immediately after the parent in the canonical
inorder. -/
theorem splice_canon_right_start {pid : String} {nd : IData} {t : ITree}
    (hn : t.allIds.Nodup) {dp : IData} {lcp rcp : List ITree}
    (hpar : IsNode t (node dp lcp rcp)) (hdp : dp.id = pid)
    (hins : insertSib nd rcp = node nd [] [] :: rcp) :
    (t.splice pid false nd).canon = insertAfterD pid nd t.canon := by
  refine splice_canon_lift
    (fun A2 B2 h => insertAfterD_append_right nd B2 h)
    (fun A2 B2 h => insertAfterD_append_left nd B2 h)
    hdp ?_ ?_ t hn hpar
  · exact hdp ▸ mem_allIds_self (node dp lcp rcp)
  · intro hnp
    have hsp : (node dp lcp rcp).splice pid false nd =
        node dp lcp (insertSib nd rcp) := by
      rw [splice, if_pos hdp]
      simp
    rw [hsp, hins]
    have hq1 : pid ∉ (canonL lcp).map IData.id := by
      rw [canonL_map_id]
      rcases nodup_children hnp with ⟨h1, h2, hd1, h4, h5⟩
      exact hdp ▸ hd1
    rw [show (node dp lcp (node nd [] [] :: rcp)).canon =
      canonL lcp ++ dp :: canonL (node nd [] [] :: rcp) from rfl]
    rw [show (node dp lcp rcp).canon = canonL lcp ++ dp :: canonL rcp from rfl]
    rw [show canonL (node nd [] [] :: rcp) = canon (node nd [] []) ++ canonL rcp
      from rfl, canon_fresh]
    simp only [List.append_assoc, List.cons_append, List.nil_append,
      List.singleton_append]
    rw [insertAfterD_append_right nd _ hq1,
      insertAfterD_cons_hit nd _ (show dp.id = pid from hdp)]

/-- Inserting a right child that lands right after sibling `c` places the
new data immediately after `c`'s rightmost descendant in the canonical
inorder. -/
theorem splice_canon_right_mid {pid : String} {nd : IData} {t : ITree}
    (hn : t.allIds.Nodup) {dp : IData} {lcp rcp : List ITree}
    (hpar : IsNode t (node dp lcp rcp)) (hdp : dp.id = pid)
    {A B : List ITree} {c : ITree} (hrcp : rcp = A ++ c :: B)
    (hins : insertSib nd rcp = A ++ c :: node nd [] [] :: B) :
    (t.splice pid false nd).canon = insertAfterD c.rightmostDesc nd t.canon := by
  subst hrcp
  refine splice_canon_lift
    (fun A2 B2 h => insertAfterD_append_right nd B2 h)
    (fun A2 B2 h => insertAfterD_append_left nd B2 h)
    hdp ?_ ?_ t hn hpar
  · exact mem_allIds_of_mem_lcs
      (List.mem_append.mpr (Or.inr (by simp))) (rightmostDesc_mem c)
  · intro hnp
    have hsp : (node dp lcp (A ++ c :: B)).splice pid false nd =
        node dp lcp (insertSib nd (A ++ c :: B)) := by
      rw [splice, if_pos hdp]
      simp
    rw [hsp, hins]
    rcases rightmost_spec c with ⟨n, hnc, hrcs, hid, hlast⟩
    have hcanon : c.canon = c.canon.dropLast ++ [n.data] := by
      conv_lhs => rw [← List.dropLast_append_getLast (canon_ne_nil c)]
      rw [List.getLast?_eq_getLast _ (canon_ne_nil c)] at hlast
      rw [Option.some_inj.mp hlast]
    have heid : n.data.id = c.rightmostDesc := hid
    rcases nodup_children hnp with ⟨hn1, hn2, hd1, hd2, hdisj⟩
    have hqrc : c.rightmostDesc ∈ allIdsL (A ++ c :: B) :=
      mem_allIdsL (by simp) (rightmostDesc_mem c)
    have hq1 : c.rightmostDesc ∉ (canonL lcp).map IData.id := by
      rw [canonL_map_id]
      exact fun hmm => hdisj _ hmm hqrc
    have hqd : ¬ dp.id = c.rightmostDesc := by
      intro hx
      exact hd2 (hx ▸ hqrc)
    have hq2 : c.rightmostDesc ∉ (canonL A).map IData.id := by
      rw [canonL_map_id]
      exact nodup_disjoint_left hn2 rfl (rightmostDesc_mem c)
    have hq3 : c.rightmostDesc ∉ (c.canon.dropLast).map IData.id := by
      intro hmm
      have hcn : c.allIds.Nodup := allIdsL_nodup_mem hn2 (by simp)
      have hcd : (c.canon.map IData.id).Nodup := by rw [canon_map_id]; exact hcn
      rw [hcanon, List.map_append] at hcd
      rcases List.nodup_append.mp hcd with ⟨h1, h2, hdj⟩
      exact hdj hmm (by simp [heid])
    rw [show (node dp lcp (A ++ c :: node nd [] [] :: B)).canon =
      canonL lcp ++ dp :: canonL (A ++ c :: node nd [] [] :: B) from rfl]
    rw [show (node dp lcp (A ++ c :: B)).canon =
      canonL lcp ++ dp :: canonL (A ++ c :: B) from rfl]
    rw [canonL_append, canonL_append,
      show canonL (c :: node nd [] [] :: B) =
        c.canon ++ (canon (node nd [] []) ++ canonL B) from rfl,
      show canonL (c :: B) = c.canon ++ canonL B from rfl, canon_fresh, hcanon]
    simp only [List.append_assoc, List.cons_append, List.nil_append,
      List.singleton_append]
    rw [insertAfterD_append_right nd _ hq1, insertAfterD_cons_miss nd _ hqd,
      insertAfterD_append_right nd _ hq2, insertAfterD_append_right nd _ hq3,
      insertAfterD_cons_hit nd _ heid]

theorem findNodeL_none_of_not_mem {a : String} {l : List ITree}
    (h : a ∉ allIdsL l) : findNodeL a l = none := by
  cases hx : findNodeL a l with
  | none => rfl
  | some n =>
      exfalso
      apply h
      apply (findNodeL_isSome_iff (fun c _ => findNode_isSome_iff c)).mp
      rw [hx]
      rfl

theorem findNode_splice {pid a : String} {side : Bool} {nd : IData}
    (hna : ¬ a = nd.id) :
    ∀ t : ITree, t.allIds.Nodup →
      (t.splice pid side nd).findNode a = (t.findNode a).map (splice pid side nd) := by
  have hchild : ∀ (l : List ITree), pid ∉ allIdsL l →
      (findNodeL a l).map (splice pid side nd) = findNodeL a l := by
    intro l hout
    cases hfl : findNodeL a l with
    | none => rfl
    | some n =>
        rcases findNodeL_eq_some hfl with ⟨c, hc, hcf⟩
        rcases findNode_sound hcf with ⟨hIs, hid⟩
        have hpn : pid ∉ n.allIds := fun hm => hout (mem_allIdsL hc (hIs.mem_allIds hm))
        rw [Option.map_some', splice_not_mem hpn]
  apply my_ind
  intro d lc rc ihl ihr hn
  rcases nodup_children hn with ⟨hn1, hn2, hd1, hd2, hdisj⟩
  by_cases hd : d.id = pid
  · have hlcout : pid ∉ allIdsL lc := hd ▸ hd1
    have hrcout : pid ∉ allIdsL rc := hd ▸ hd2
    have hleaf : findNode a (node nd [] []) = none := by
      rw [findNode, if_neg (fun hx => hna hx.symm)]
      rfl
    have hinsL : ∀ l : List ITree, findNodeL a (insertSib nd l) = findNodeL a l := by
      intro l
      rw [insertSib_eq, findNodeL_append]
      conv_rhs => rw [← List.take_append_drop
        (l.findIdx fun c => decide (idLt nd.id c.data.id)) l]
      rw [findNodeL_append]
      cases ht : findNodeL a
          (l.take (l.findIdx fun c => decide (idLt nd.id c.data.id))) with
      | some n => rfl
      | none => rw [findNodeL, hleaf]
    rw [splice, if_pos hd]
    cases side
    · rw [show (if (false : Bool) = true then node d (insertSib nd lc) rc
        else node d lc (insertSib nd rc)) = node d lc (insertSib nd rc) from by simp]
      rw [findNode, findNode]
      by_cases hda : d.id = a
      · rw [if_pos hda, if_pos hda, Option.map_some', splice, if_pos hd]
        exact rfl
      · rw [if_neg hda, if_neg hda, hinsL]
        cases hfl : findNodeL a lc with
        | some n =>
            have := hchild lc hlcout
            rw [hfl, Option.map_some'] at this
            simp [this]
        | none => exact (hchild rc hrcout).symm
    · rw [show (if (true : Bool) = true then node d (insertSib nd lc) rc
        else node d lc (insertSib nd rc)) = node d (insertSib nd lc) rc from by simp]
      rw [findNode, findNode]
      by_cases hda : d.id = a
      · rw [if_pos hda, if_pos hda, Option.map_some', splice, if_pos hd]
        exact rfl
      · rw [if_neg hda, if_neg hda, hinsL]
        cases hfl : findNodeL a lc with
        | some n =>
            have := hchild lc hlcout
            rw [hfl, Option.map_some'] at this
            simp [this]
        | none => exact (hchild rc hrcout).symm
  · rw [splice, if_neg hd, spliceL_eq, spliceL_eq, findNode, findNode]
    by_cases hda : d.id = a
    · rw [if_pos hda, if_pos hda, Option.map_some', splice, if_neg hd,
        spliceL_eq, spliceL_eq]
    · rw [if_neg hda, if_neg hda,
        findNodeL_map (fun c hc => ihl c hc (allIdsL_nodup_mem hn1 hc)),
        findNodeL_map (fun c hc => ihr c hc (allIdsL_nodup_mem hn2 hc))]
      cases hfl : findNodeL a lc <;> simp

theorem findNode_splice_parent {pid : String} {side : Bool} {nd : IData}
    {t : ITree} {dp : IData} {lcp rcp : List ITree} (hn : t.allIds.Nodup)
    (hfind : t.findNode pid = some (node dp lcp rcp)) (hnd : ¬ pid = nd.id) :
    (t.splice pid side nd).findNode pid =
      some (if side then node dp (insertSib nd lcp) rcp
        else node dp lcp (insertSib nd rcp)) := by
  rw [findNode_splice hnd t hn, hfind, Option.map_some']
  rcases findNode_sound hfind with ⟨h1, hid⟩
  rw [splice, if_pos (show dp.id = pid from hid)]

theorem findNode_splice_fresh {pid : String} {side : Bool} {nd : IData} :
    ∀ t : ITree, t.allIds.Nodup → pid ∈ t.allIds → nd.id ∉ t.allIds →
      (t.splice pid side nd).findNode nd.id = some (node nd [] []) := by
  apply my_ind
  intro d lc rc ihl ihr hn hp hf
  have hdf : ¬ d.id = nd.id := fun hx => hf (hx ▸ mem_allIds_self (node d lc rc))
  have hfL : nd.id ∉ allIdsL lc := fun hm => hf (by
    rw [allIds]; exact List.mem_append.mpr (Or.inl hm))
  have hfR : nd.id ∉ allIdsL rc := fun hm => hf (by
    rw [allIds]; exact List.mem_append.mpr (Or.inr (List.mem_cons.mpr (Or.inr hm))))
  rcases nodup_children hn with ⟨hn1, hn2, hd1, hd2, hdisj⟩
  by_cases hd : d.id = pid
  · rw [splice, if_pos hd]
    have hkey : ∀ l : List ITree, nd.id ∉ allIdsL l →
        findNodeL nd.id (insertSib nd l) = some (node nd [] []) := by
      intro l hl
      rw [insertSib_eq, findNodeL_append]
      have htake : nd.id ∉ allIdsL
          (l.take (l.findIdx fun c => decide (idLt nd.id c.data.id))) := by
        intro hm
        apply hl
        rw [← List.take_append_drop
          (l.findIdx fun c => decide (idLt nd.id c.data.id)) l, allIdsL_append]
        exact List.mem_append.mpr (Or.inl hm)
      rw [findNodeL_none_of_not_mem htake, findNodeL,
        show findNode nd.id (node nd [] []) = some (node nd [] []) from by
          rw [findNode, if_pos rfl]]
    cases side
    · rw [show (if (false : Bool) = true then node d (insertSib nd lc) rc
        else node d lc (insertSib nd rc)) = node d lc (insertSib nd rc) from by simp]
      rw [findNode, if_neg hdf, findNodeL_none_of_not_mem hfL, hkey rc hfR]
    · rw [show (if (true : Bool) = true then node d (insertSib nd lc) rc
        else node d lc (insertSib nd rc)) = node d (insertSib nd lc) rc from by simp]
      rw [findNode, if_neg hdf, hkey lc hfL]
  · rw [splice, if_neg hd, spliceL_eq, spliceL_eq, findNode, if_neg hdf]
    have hkey2 : ∀ l : List ITree, (allIdsL l).Nodup → nd.id ∉ allIdsL l →
        pid ∈ allIdsL l →
        (∀ c ∈ l, c.allIds.Nodup → pid ∈ c.allIds → nd.id ∉ c.allIds →
          (splice pid side nd c).findNode nd.id = some (node nd [] [])) →
        findNodeL nd.id (l.map (splice pid side nd)) = some (node nd [] []) := by
      intro l hnl hndl hpl ihc
      rcases mem_allIdsL_iff.mp hpl with ⟨c0, hc0, hpc0⟩
      rcases List.append_of_mem hc0 with ⟨pre, post, rfl⟩
      have hpre : pre.map (splice pid side nd) = pre := by
        have h1 : pre.map (splice pid side nd) = pre.map id :=
          List.map_congr_left fun c hc => splice_not_mem fun hmm =>
            (nodup_disjoint_left hnl rfl hpc0) (mem_allIdsL hc hmm)
        simpa using h1
      rw [List.map_append, List.map_cons, hpre, findNodeL_append]
      have hprenone : findNodeL nd.id pre = none := by
        apply findNodeL_none_of_not_mem
        intro hm
        exact hndl (by rw [allIdsL_append]; exact List.mem_append.mpr (Or.inl hm))
      rw [hprenone, findNodeL]
      have hndc0 : nd.id ∉ c0.allIds := fun hm =>
        hndl (mem_allIdsL (by simp) hm)
      rw [ihc c0 (by simp) (allIdsL_nodup_mem hnl (by simp)) hpc0 hndc0]
    rw [allIds] at hp
    rcases List.mem_append.mp hp with hpl | hpr
    · rw [hkey2 lc hn1 hfL hpl (fun c hc h1 h2 h3 => ihl c hc h1 h2 h3)]
    · rcases List.mem_cons.mp hpr with hpd | hpr2
      · exact absurd hpd.symm hd
      · have hmapl : lc.map (splice pid side nd) = lc := by
          have h1 : lc.map (splice pid side nd) = lc.map id :=
            List.map_congr_left fun c hc => splice_not_mem fun hmm =>
              (hdisj pid (mem_allIdsL hc hmm)) hpr2
          simpa using h1
        rw [hmapl, findNodeL_none_of_not_mem hfL]
        rw [show (match (none : Option ITree) with
          | some n => some n
          | none => findNodeL nd.id (rc.map (splice pid side nd))) =
          findNodeL nd.id (rc.map (splice pid side nd)) from rfl]
        exact hkey2 rc hn2 hfR hpr2 (fun c hc h1 h2 h3 => ihr c hc h1 h2 h3)

theorem flc_splice_other {pid a : String} {side : Bool} {nd : IData} {t : ITree}
    (hn : t.allIds.Nodup) (hna : ¬ a = nd.id) (hap : ¬ a = pid) :
    (t.splice pid side nd).flc a = t.flc a := by
  rw [ITree.flc, ITree.flc, findNode_splice hna t hn]
  cases hf : t.findNode a with
  | none => rfl
  | some n =>
      rcases findNode_sound hf with ⟨hIs, hid⟩
      cases n with
      | node d2 lc2 rc2 =>
          have hda : d2.id = a := hid
          have hd2p : ¬ d2.id = pid := fun hx => hap (by rw [← hda, hx])
          rw [Option.map_some']
          show ((splice pid side nd (node d2 lc2 rc2)).lcs.head?.map
            fun c => c.data.id) = ((node d2 lc2 rc2).lcs.head?.map
            fun c => c.data.id)
          rw [splice, if_neg hd2p,
            show (node d2 (spliceL pid side nd lc2) (spliceL pid side nd rc2)).lcs =
              spliceL pid side nd lc2 from rfl,
            show (node d2 lc2 rc2).lcs = lc2 from rfl, spliceL_eq]
          cases lc2 with
          | nil => rfl
          | cons c cs => simp [splice_data]

theorem lrc_splice_other {pid a : String} {side : Bool} {nd : IData} {t : ITree}
    (hn : t.allIds.Nodup) (hna : ¬ a = nd.id) (hap : ¬ a = pid) :
    (t.splice pid side nd).lrc a = t.lrc a := by
  rw [ITree.lrc, ITree.lrc, findNode_splice hna t hn]
  cases hf : t.findNode a with
  | none => rfl
  | some n =>
      rcases findNode_sound hf with ⟨hIs, hid⟩
      cases n with
      | node d2 lc2 rc2 =>
          have hda : d2.id = a := hid
          have hd2p : ¬ d2.id = pid := fun hx => hap (by rw [← hda, hx])
          rw [Option.map_some']
          show ((splice pid side nd (node d2 lc2 rc2)).rcs.getLast?.map
            fun c => c.data.id) = ((node d2 lc2 rc2).rcs.getLast?.map
            fun c => c.data.id)
          rw [splice, if_neg hd2p,
            show (node d2 (spliceL pid side nd lc2) (spliceL pid side nd rc2)).rcs =
              spliceL pid side nd rc2 from rfl,
            show (node d2 lc2 rc2).rcs = rc2 from rfl, spliceL_eq,
            List.getLast?_map]
          cases rc2.getLast? with
          | none => rfl
          | some c => simp [splice_data]

theorem flc_splice_fresh {pid : String} {side : Bool} {nd : IData} {t : ITree}
    (hn : t.allIds.Nodup) (hp : pid ∈ t.allIds) (hf : nd.id ∉ t.allIds) :
    (t.splice pid side nd).flc nd.id = none := by
  rw [ITree.flc, findNode_splice_fresh t hn hp hf]
  rfl

theorem lrc_splice_fresh {pid : String} {side : Bool} {nd : IData} {t : ITree}
    (hn : t.allIds.Nodup) (hp : pid ∈ t.allIds) (hf : nd.id ∉ t.allIds) :
    (t.splice pid side nd).lrc nd.id = none := by
  rw [ITree.lrc, findNode_splice_fresh t hn hp hf]
  rfl

theorem flc_tomb {i a : String} (t : ITree) : (t.tomb i).flc a = t.flc a := by
  rw [ITree.flc, ITree.flc, findNode_tomb]
  cases hf : t.findNode a with
  | none => rfl
  | some n =>
      cases n with
      | node d2 lc2 rc2 =>
          rw [Option.map_some']
          show ((tomb i (node d2 lc2 rc2)).lcs.head?.map fun c => c.data.id) =
            ((node d2 lc2 rc2).lcs.head?.map fun c => c.data.id)
          rw [tomb, show (node (if d2.id = i then { d2 with isPresent := false }
            else d2) (tombL i lc2) (tombL i rc2)).lcs = tombL i lc2 from rfl,
            show (node d2 lc2 rc2).lcs = lc2 from rfl, tombL_eq]
          cases lc2 with
          | nil => rfl
          | cons c cs => simp [tomb_data_id]

theorem lrc_tomb {i a : String} (t : ITree) : (t.tomb i).lrc a = t.lrc a := by
  rw [ITree.lrc, ITree.lrc, findNode_tomb]
  cases hf : t.findNode a with
  | none => rfl
  | some n =>
      cases n with
      | node d2 lc2 rc2 =>
          rw [Option.map_some']
          show ((tomb i (node d2 lc2 rc2)).rcs.getLast?.map fun c => c.data.id) =
            ((node d2 lc2 rc2).rcs.getLast?.map fun c => c.data.id)
          rw [tomb, show (node (if d2.id = i then { d2 with isPresent := false }
            else d2) (tombL i lc2) (tombL i rc2)).rcs = tombL i rc2 from rfl,
            show (node d2 lc2 rc2).rcs = rc2 from rfl, tombL_eq,
            List.getLast?_map]
          cases rc2.getLast? with
          | none => rfl
          | some c => simp [tomb_data_id]

end ITree

/-! ## Chain walking: `getEnd` under the SALM invariant -/

theorem Reaches.unique {f : String → Option String} {v u1 : String}
    (h1 : Reaches f v u1) : ∀ {u2 : String}, Reaches f v u2 → u1 = u2 := by
  induction h1 with
  | done hv =>
      intro u2 h2
      cases h2 with
      | done h => rfl
      | step hw h3 => rw [hv] at hw; cases hw
  | step hw h1 ih =>
      intro u2 h2
      cases h2 with
      | done hv => rw [hv] at hw; cases hw
      | step hw2 h3 =>
          rw [hw] at hw2
          injection hw2 with he
          exact ih (he ▸ h3)

theorem chain_reaches {f : String → Option String} :
    ∀ (R : List String) (v : String),
      List.Chain' (fun a b => f a = some b) (v :: R) →
      f ((v :: R).getLast (by simp)) = none →
      Reaches f v ((v :: R).getLast (by simp)) := by
  intro R
  induction R with
  | nil => intro v h1 h2; exact Reaches.done h2
  | cons w R2 ih =>
      intro v h1 h2
      have hvw : f v = some w := (List.chain'_cons.mp h1).1
      have h12 : List.Chain' (fun a b => f a = some b) (w :: R2) :=
        (List.chain'_cons.mp h1).2
      have hlast : (v :: w :: R2).getLast (by simp) =
          (w :: R2).getLast (by simp) := rfl
      rw [hlast] at h2 ⊢
      exact Reaches.step hvw (ih w h12 h2)

theorem reaches_of_mem_chain {f : String → Option String} {L : List String}
    (hc : ChainOf f L) {v : String} (hv : v ∈ L) :
    ∀ hne : L ≠ [], Reaches f v (L.getLast hne) := by
  intro hne
  rcases List.append_of_mem hv with ⟨P, R, rfl⟩
  have hchain : List.Chain' (fun a b => f a = some b) (v :: R) :=
    hc.2.1.suffix ⟨P, rfl⟩
  have hglast : (P ++ v :: R).getLast hne = (v :: R).getLast (by simp) :=
    List.getLast_append_of_ne_nil (by simp)
  rw [hglast]
  apply chain_reaches R v hchain
  rw [← hglast]
  exact hc.2.2 hne

theorem getEnd_of_reaches {f : String → Option String} {ids : List String}
    {S : Salm} (hinv : SalmInv f ids S) {v u : String} (hv : v ∈ ids)
    (hr : Reaches f v u) : S.getEnd v = some u := by
  have hvf : v ∈ S.flatten := hinv.1.mem_iff.mpr hv
  rcases List.mem_flatten.mp hvf with ⟨L, hL, hvL⟩
  have hsome : (S.find? fun L2 => L2.contains v).isSome := by
    rw [List.find?_isSome]
    exact ⟨L, hL, by simpa using hvL⟩
  cases hfind : S.find? (fun L2 => L2.contains v) with
  | none => rw [hfind] at hsome; cases hsome
  | some L2 =>
      have hL2S : L2 ∈ S := List.mem_of_find?_eq_some hfind
      have hvL2 : v ∈ L2 := by
        have := List.find?_some hfind
        simpa using this
      have hcL2 : ChainOf f L2 := hinv.2 L2 hL2S
      have hne : L2 ≠ [] := hcL2.1
      have hreach := reaches_of_mem_chain hcL2 hvL2 hne
      have hu : u = L2.getLast hne := hr.unique hreach
      rw [Salm.getEnd, hfind]
      show L2.getLast? = some u
      rw [List.getLast?_eq_getLast _ hne, hu]

/-! ## The child-successor walks of the interleaving tree -/

theorem reaches_flc {t : ITree} (hn : t.allIds.Nodup) :
    ∀ n : ITree, ITree.IsNode t n →
      Reaches t.flc n.data.id n.leftmostDesc := by
  apply ITree.my_ind
  intro d lc rc ihl ihr hIs
  cases lc with
  | nil =>
      apply Reaches.done
      rw [ITree.flc, ITree.findNode_complete hn hIs]
      rfl
  | cons c cs =>
      have hstep : t.flc (ITree.node d (c :: cs) rc).data.id = some c.data.id := by
        rw [ITree.flc, ITree.findNode_complete hn hIs]
        rfl
      have hIsc : ITree.IsNode t c := hIs.trans
        (ITree.IsNode.child (by
          rw [ITree.lcs, ITree.rcs]
          exact List.mem_append.mpr (Or.inl (by simp))) (ITree.IsNode.refl c))
      exact Reaches.step hstep (ihl c (by simp) hIsc)

theorem reaches_lrc {t : ITree} (hn : t.allIds.Nodup) :
    ∀ n : ITree, ITree.IsNode t n →
      Reaches t.lrc n.data.id n.rightmostDesc := by
  apply ITree.my_ind
  intro d lc rc ihl ihr hIs
  cases rc with
  | nil =>
      apply Reaches.done
      rw [ITree.lrc, ITree.findNode_complete hn hIs]
      rfl
  | cons c cs =>
      have hlastmem : (c :: cs).getLast (by simp) ∈ (c :: cs) :=
        List.getLast_mem (by simp)
      have hstep : t.lrc (ITree.node d lc (c :: cs)).data.id =
          some (((c :: cs).getLast (by simp)).data.id) := by
        rw [ITree.lrc, ITree.findNode_complete hn hIs]
        show ((c :: cs).getLast?.map fun c2 => c2.data.id) = _
        rw [List.getLast?_eq_getLast _ (by simp)]
        rfl
      have hIsc : ITree.IsNode t ((c :: cs).getLast (by simp)) := hIs.trans
        (ITree.IsNode.child (by
          rw [ITree.lcs, ITree.rcs]
          exact List.mem_append.mpr (Or.inr hlastmem)) (ITree.IsNode.refl _))
      have hrd : (ITree.node d lc (c :: cs)).rightmostDesc =
          ((c :: cs).getLast (by simp)).rightmostDesc := by
        rw [show (ITree.node d lc (c :: cs)).rightmostDesc =
          ITree.rightmostDescL (c :: cs) from rfl,
          ITree.rightmostDescL_eq_getLast]
      rw [hrd]
      exact Reaches.step hstep (ihr _ hlastmem hIsc)


/-! ## SALM invariant preservation under `create`, `append` and `split` -/

theorem chain'_congr_dropLast {f f2 : String → Option String} :
    ∀ {L : List String}, (∀ a ∈ L.dropLast, f2 a = f a) →
      List.Chain' (fun a b => f a = some b) L →
      List.Chain' (fun a b => f2 a = some b) L := by
  intro L
  induction L with
  | nil => intro _ _; simp
  | cons x rest ih =>
      intro hag h
      cases rest with
      | nil => simp
      | cons y rest2 =>
          rw [List.chain'_cons] at h ⊢
          refine ⟨?_, ih ?_ h.2⟩
          · rw [hag x (by rw [show (x :: y :: rest2).dropLast =
              x :: (y :: rest2).dropLast from rfl]; simp)]
            exact h.1
          · intro a ha
            exact hag a (by rw [show (x :: y :: rest2).dropLast =
              x :: (y :: rest2).dropLast from rfl]; simp [ha])

theorem salm_locate {e : String} :
    ∀ S : Salm, e ∈ S.flatten →
      ∃ S1 L S2, S = S1 ++ L :: S2 ∧ e ∈ L ∧ ∀ L2 ∈ S1, e ∉ L2 := by
  intro S
  induction S with
  | nil => intro h; simp at h
  | cons L0 rest ih =>
      intro h
      by_cases he : e ∈ L0
      · exact ⟨[], L0, rest, rfl, he, by simp⟩
      · have h2 : e ∈ rest.flatten := by
          rw [List.flatten_cons] at h
          rcases List.mem_append.mp h with h | h
          · exact absurd h he
          · exact h
        rcases ih h2 with ⟨S1, L, S2, rfl, hL, hout⟩
        refine ⟨L0 :: S1, L, S2, rfl, hL, ?_⟩
        intro L2 hm
        rcases List.mem_cons.mp hm with rfl | hm2
        · exact he
        · exact hout L2 hm2

theorem salm_append_eq {e v : String} :
    ∀ (S1 : Salm) (L : List String) (S2 : Salm),
      (∀ L2 ∈ S1, e ∉ L2) → e ∈ L →
      Salm.append (S1 ++ L :: S2) e v = S1 ++ (L ++ [v]) :: S2 := by
  intro S1
  induction S1 with
  | nil =>
      intro L S2 _ he
      rw [List.nil_append, Salm.append, if_pos he, List.nil_append]
  | cons L0 S12 ih =>
      intro L S2 hout he
      rw [List.cons_append, Salm.append, if_neg (hout L0 (by simp)),
        ih L S2 (fun L2 h => hout L2 (by simp [h])) he, List.cons_append]

theorem salm_split_eq {v : String} :
    ∀ (S1 : Salm) (L : List String) (S2 : Salm),
      (∀ L2 ∈ S1, v ∉ L2) → v ∈ L →
      Salm.split (S1 ++ L :: S2) v =
        S1 ++ L.take (L.indexOf v + 1) :: L.drop (L.indexOf v + 1) :: S2 := by
  intro S1
  induction S1 with
  | nil =>
      intro L S2 _ he
      rw [List.nil_append, Salm.split, if_pos he, List.nil_append]
  | cons L0 S12 ih =>
      intro L S2 hout he
      rw [List.cons_append, Salm.split, if_neg (hout L0 (by simp)),
        ih L S2 (fun L2 h => hout L2 (by simp [h])) he, List.cons_append]

theorem flatten_nodup_unique {S1 : Salm} {L : List String} {S2 : Salm}
    (hn : ((S1 ++ L :: S2).flatten).Nodup) {a : String} (ha : a ∈ L) :
    ∀ L2 ∈ S1 ++ S2, a ∉ L2 := by
  rw [List.flatten_append, List.flatten_cons] at hn
  intro L2 hm hal2
  rcases List.nodup_append.mp hn with ⟨h1, h2, hdisj⟩
  rcases List.mem_append.mp hm with h | h
  · exact hdisj (List.mem_flatten.mpr ⟨L2, h, hal2⟩)
      (List.mem_append.mpr (Or.inl ha))
  · rcases List.nodup_append.mp h2 with ⟨h3, h4, hdisj2⟩
    exact hdisj2 ha (List.mem_flatten.mpr ⟨L2, h, hal2⟩)

theorem chainOf_last_of_none {f : String → Option String} {L : List String}
    (hc : ChainOf f L) {p : String} (hp : p ∈ L) (hfp : f p = none) :
    ∀ hne : L ≠ [], L.getLast hne = p := by
  intro hne
  rcases List.append_of_mem hp with ⟨P, R, rfl⟩
  cases R with
  | nil =>
      rw [List.getLast_append_of_ne_nil (by simp)]
      rfl
  | cons r R2 =>
      exfalso
      have hch : List.Chain' (fun a b => f a = some b) (p :: r :: R2) :=
        hc.2.1.suffix ⟨P, rfl⟩
      have h1 := (List.chain'_cons.mp hch).1
      rw [hfp] at h1
      cases h1

theorem chainOf_next_of_some {f : String → Option String} {L : List String}
    (hc : ChainOf f L) {p c0 : String} (hp : p ∈ L) (hfp : f p = some c0) :
    ∃ P R, L = P ++ p :: c0 :: R := by
  rcases List.append_of_mem hp with ⟨P, R, rfl⟩
  cases R with
  | nil =>
      exfalso
      have h0 := hc.2.2 (by simp)
      rw [List.getLast_append_of_ne_nil (by simp),
        show ([p] : List String).getLast (by simp) = p from rfl, hfp] at h0
      cases h0
  | cons r R2 =>
      have hch : List.Chain' (fun a b => f a = some b) (p :: r :: R2) :=
        hc.2.1.suffix ⟨P, rfl⟩
      have h1 := (List.chain'_cons.mp hch).1
      rw [hfp] at h1
      injection h1 with h1
      exact ⟨P, R2, by rw [h1]⟩

theorem salmInv_create {f f2 : String → Option String} {ids ids2 : List String}
    {S : Salm} {v : String} (hinv : SalmInv f ids S)
    (hperm : ids2.Perm (v :: ids))
    (hv : f2 v = none) (hagree : ∀ a ∈ ids, f2 a = f a) :
    SalmInv f2 ids2 (S.create v) := by
  have hmemids : ∀ L ∈ S, ∀ a ∈ L, a ∈ ids := fun L hL a ha =>
    hinv.1.mem_iff.mp (List.mem_flatten.mpr ⟨L, hL, ha⟩)
  constructor
  · rw [show (Salm.create S v).flatten = v :: S.flatten from by
      simp [Salm.create]]
    exact (hinv.1.cons v).trans hperm.symm
  · intro L hL
    rcases List.mem_cons.mp hL with rfl | hL2
    · refine ⟨by simp, by simp, fun h => ?_⟩
      rw [show ([v] : List String).getLast h = v from rfl]
      exact hv
    · have hc := hinv.2 L hL2
      refine ⟨hc.1, ?_, fun h => ?_⟩
      · exact chain'_congr_dropLast
          (fun a ha => hagree a (hmemids L hL2 a (List.mem_of_mem_dropLast ha)))
          hc.2.1
      · rw [hagree _ (hmemids L hL2 _ (List.getLast_mem h))]
        exact hc.2.2 h

theorem salmInv_append {f f2 : String → Option String} {ids ids2 : List String}
    {S : Salm} {p v : String} (hinv : SalmInv f ids S) (hn : ids.Nodup)
    (hperm : ids2.Perm (v :: ids)) (hp : p ∈ ids)
    (hfp : f p = none) (hf2p : f2 p = some v) (hf2v : f2 v = none)
    (hagree : ∀ a ∈ ids, ¬ a = p → f2 a = f a) :
    SalmInv f2 ids2 (S.append p v) := by
  have hmemids : ∀ L ∈ S, ∀ a ∈ L, a ∈ ids := fun L hL a ha =>
    hinv.1.mem_iff.mp (List.mem_flatten.mpr ⟨L, hL, ha⟩)
  have hflat_nodup : S.flatten.Nodup := hinv.1.nodup_iff.mpr hn
  have hpf : p ∈ S.flatten := hinv.1.mem_iff.mpr hp
  rcases salm_locate S hpf with ⟨S1, L, S2, hSdec, hpL, hout⟩
  subst hSdec
  rw [salm_append_eq S1 L S2 hout hpL]
  have hcL : ChainOf f L := hinv.2 L (by simp)
  have hne : L ≠ [] := hcL.1
  have hplast : L.getLast hne = p := chainOf_last_of_none hcL hpL hfp hne
  have hLnodup : L.Nodup := hflat_nodup.sublist (List.sublist_join_of_mem (by simp))
  have hLsub : ∀ a ∈ L, a ∈ ids := hmemids L (by simp)
  have hothers : ∀ L2 ∈ S1 ++ S2, p ∉ L2 := flatten_nodup_unique hflat_nodup hpL
  have hotherchain : ∀ L2 ∈ S1 ++ S2, ChainOf f2 L2 := by
    intro L2 hm
    have hL2S : L2 ∈ S1 ++ L :: S2 := by
      rcases List.mem_append.mp hm with h | h
      · exact List.mem_append.mpr (Or.inl h)
      · exact List.mem_append.mpr (Or.inr (List.mem_cons.mpr (Or.inr h)))
    have hc2 := hinv.2 L2 hL2S
    have hagree2 : ∀ a ∈ L2, f2 a = f a := fun a ha =>
      hagree a (hmemids L2 hL2S a ha) (fun hx => hothers L2 hm (hx ▸ ha))
    refine ⟨hc2.1, ?_, fun h => ?_⟩
    · exact chain'_congr_dropLast
        (fun a ha => hagree2 a (List.mem_of_mem_dropLast ha)) hc2.2.1
    · rw [hagree2 _ (List.getLast_mem h)]
      exact hc2.2.2 h
  constructor
  · -- flatten is a permutation of the new id set
    have hflat1 : (S1 ++ (L ++ [v]) :: S2).flatten =
        (S1.flatten ++ L) ++ v :: S2.flatten := by
      rw [List.flatten_append, List.flatten_cons]
      simp
    have hflat2 : (S1 ++ L :: S2).flatten = (S1.flatten ++ L) ++ S2.flatten := by
      rw [List.flatten_append, List.flatten_cons]
      simp
    rw [hflat1]
    refine List.perm_middle.trans ?_
    refine (List.Perm.cons v ?_).trans hperm.symm
    rw [← hflat2]
    exact hinv.1
  · intro L2 hL2
    rcases List.mem_append.mp hL2 with h | h
    · exact hotherchain L2 (List.mem_append.mpr (Or.inl h))
    · rcases List.mem_cons.mp h with rfl | h2
      · -- the appended chain
        refine ⟨by simp, ?_, fun h => ?_⟩
        · rw [List.chain'_append]
          refine ⟨?_, by simp, ?_⟩
          · apply chain'_congr_dropLast ?_ hcL.2.1
            intro a ha
            have haL : a ∈ L := List.mem_of_mem_dropLast ha
            have hap : ¬ a = p := by
              intro hx
              subst hx
              rw [← hplast] at ha
              have hdec : L = L.dropLast ++ [L.getLast hne] :=
                (List.dropLast_append_getLast hne).symm
              rcases List.nodup_append.mp (hdec ▸ hLnodup) with ⟨h1, h2, hdisj⟩
              exact hdisj ha (by simp)
            exact hagree a (hLsub a haL) hap
          · intro x hx y hy
            rw [List.getLast?_eq_getLast _ hne] at hx
            simp at hx hy
            rw [← hx, ← hy, hplast]
            exact hf2p
        · rw [List.getLast_append_of_ne_nil (by simp),
            show ([v] : List String).getLast (by simp) = v from rfl]
          exact hf2v
      · exact hotherchain L2 (List.mem_append.mpr (Or.inr h2))

theorem salmInv_split_append {f f2 : String → Option String}
    {ids ids2 : List String} {S : Salm} {p v c0 : String}
    (hinv : SalmInv f ids S) (hn : ids.Nodup)
    (hperm : ids2.Perm (v :: ids)) (hp : p ∈ ids)
    (hfp : f p = some c0) (hf2p : f2 p = some v) (hf2v : f2 v = none)
    (hagree : ∀ a ∈ ids, ¬ a = p → f2 a = f a) :
    SalmInv f2 ids2 ((S.split p).append p v) := by
  have hmemids : ∀ L ∈ S, ∀ a ∈ L, a ∈ ids := fun L hL a ha =>
    hinv.1.mem_iff.mp (List.mem_flatten.mpr ⟨L, hL, ha⟩)
  have hflat_nodup : S.flatten.Nodup := hinv.1.nodup_iff.mpr hn
  have hpf : p ∈ S.flatten := hinv.1.mem_iff.mpr hp
  rcases salm_locate S hpf with ⟨S1, L, S2, hSdec, hpL, hout⟩
  subst hSdec
  have hcL : ChainOf f L := hinv.2 L (by simp)
  have hne : L ≠ [] := hcL.1
  have hLnodup : L.Nodup := hflat_nodup.sublist (List.sublist_join_of_mem (by simp))
  have hLsub : ∀ a ∈ L, a ∈ ids := hmemids L (by simp)
  rcases chainOf_next_of_some hcL hpL hfp with ⟨P, R, hLdec⟩
  have hpnotP : p ∉ P := by
    intro hmm
    rw [hLdec] at hLnodup
    rcases List.nodup_append.mp hLnodup with ⟨h1, h2, hdisj⟩
    exact hdisj hmm (by simp)
  have hidx : L.indexOf p = P.length := by
    rw [hLdec, List.indexOf_append_of_not_mem hpnotP, List.indexOf_cons_self]
    omega
  have htake : L.take (L.indexOf p + 1) = P ++ [p] := by
    rw [hidx, hLdec, show P.length + 1 = P.length + 1 from rfl,
      List.take_append 1]
    rfl
  have hdrop : L.drop (L.indexOf p + 1) = c0 :: R := by
    rw [hidx, hLdec, List.drop_append 1]
    rfl
  rw [salm_split_eq S1 L S2 hout hpL, htake, hdrop]
  have happ : Salm.append (S1 ++ (P ++ [p]) :: (c0 :: R) :: S2) p v =
      S1 ++ ((P ++ [p]) ++ [v]) :: (c0 :: R) :: S2 :=
    salm_append_eq S1 (P ++ [p]) ((c0 :: R) :: S2) hout (by simp)
  rw [happ]
  have hothers : ∀ L2 ∈ S1 ++ S2, p ∉ L2 := flatten_nodup_unique hflat_nodup hpL
  have hotherchain : ∀ L2 ∈ S1 ++ S2, ChainOf f2 L2 := by
    intro L2 hm
    have hL2S : L2 ∈ S1 ++ L :: S2 := by
      rcases List.mem_append.mp hm with h | h
      · exact List.mem_append.mpr (Or.inl h)
      · exact List.mem_append.mpr (Or.inr (List.mem_cons.mpr (Or.inr h)))
    have hc2 := hinv.2 L2 hL2S
    have hagree2 : ∀ a ∈ L2, f2 a = f a := fun a ha =>
      hagree a (hmemids L2 hL2S a ha) (fun hx => hothers L2 hm (hx ▸ ha))
    refine ⟨hc2.1, ?_, fun h => ?_⟩
    · exact chain'_congr_dropLast
        (fun a ha => hagree2 a (List.mem_of_mem_dropLast ha)) hc2.2.1
    · rw [hagree2 _ (List.getLast_mem h)]
      exact hc2.2.2 h
  have hcRsub : ∀ a ∈ c0 :: R, a ∈ ids := by
    intro a ha
    exact hLsub a (by rw [hLdec]; simp [List.mem_cons.mp ha])
  have hcRnotp : ∀ a ∈ c0 :: R, ¬ a = p := by
    intro a ha hx
    subst hx
    rw [hLdec] at hLnodup
    rcases List.nodup_append.mp hLnodup with ⟨h1, h2, hdisj⟩
    rcases List.nodup_cons.mp h2 with ⟨h3, h4⟩
    exact h3 ha
  constructor
  · -- flatten permutation
    have hflat1 : (S1 ++ ((P ++ [p]) ++ [v]) :: (c0 :: R) :: S2).flatten =
        (S1.flatten ++ (P ++ [p])) ++ v :: (c0 :: R ++ S2.flatten) := by
      simp
    have hflat2 : (S1 ++ L :: S2).flatten =
        (S1.flatten ++ (P ++ [p])) ++ (c0 :: R ++ S2.flatten) := by
      rw [hLdec]
      simp
    rw [hflat1]
    refine List.perm_middle.trans ?_
    refine (List.Perm.cons v ?_).trans hperm.symm
    rw [← hflat2]
    exact hinv.1
  · intro L2 hL2
    rcases List.mem_append.mp hL2 with h | h
    · exact hotherchain L2 (List.mem_append.mpr (Or.inl h))
    · rcases List.mem_cons.mp h with rfl | h2
      · -- the chain [start, .., p, v]
        refine ⟨by simp, ?_, fun h => ?_⟩
        · rw [List.chain'_append]
          refine ⟨?_, by simp, ?_⟩
          · have h8 : (P ++ [p]) ++ c0 :: R = L := by rw [hLdec]; simp
            have h9 : L.take (P ++ [p]).length = P ++ [p] := by
              rw [← h8, List.take_left]
            have h10 : List.Chain' (fun a b => f a = some b) (P ++ [p]) := by
              rw [← h9]
              exact List.Chain'.take hcL.2.1 (P ++ [p]).length
            apply chain'_congr_dropLast ?_ h10
            intro a ha
            rw [List.dropLast_concat] at ha
            have hap : ¬ a = p := fun hx => hpnotP (hx ▸ ha)
            exact hagree a (hLsub a (by rw [hLdec]; simp [ha])) hap
          · intro x hx y hy
            rw [List.getLast?_eq_getLast _ (by simp),
              List.getLast_append_of_ne_nil (by simp),
              show ([p] : List String).getLast (by simp) = p from rfl] at hx
            simp at hx hy
            rw [← hx, ← hy]
            exact hf2p
        · rw [List.getLast_append_of_ne_nil (by simp),
            show ([v] : List String).getLast (by simp) = v from rfl]
          exact hf2v
      · rcases List.mem_cons.mp h2 with rfl | h3
        · -- the split-off tail chain
          have hchR : List.Chain' (fun a b => f a = some b) (c0 :: R) :=
            hcL.2.1.suffix ⟨P ++ [p], by rw [hLdec]; simp⟩
          refine ⟨by simp, ?_, fun h => ?_⟩
          · exact chain'_congr_dropLast
              (fun a ha => hagree a (hcRsub a (List.mem_of_mem_dropLast ha))
                (hcRnotp a (List.mem_of_mem_dropLast ha))) hchR
          · have hlasteq : (c0 :: R).getLast h = L.getLast hne := by
              have h1 : L.getLast? = (c0 :: R).getLast? := by
                rw [hLdec, List.getLast?_append_of_ne_nil _ (by simp)]
                rfl
              rw [List.getLast?_eq_getLast _ hne,
                List.getLast?_eq_getLast _ (by simp)] at h1
              exact (Option.some_inj.mp h1).symm
            rw [hagree _ (hcRsub _ (List.getLast_mem h))
              (hcRnotp _ (List.getLast_mem h)), hlasteq]
            exact hcL.2.2 hne
        · exact hotherchain L2 (List.mem_append.mpr (Or.inr h3))


/-! ## Balanced-index tombstoning -/

namespace BTree

theorem find?_mem_dat {i : String} :
    ∀ {t : BTree} {e : BEntry}, t.find? i = some e → e.dat ∈ t.dat := by
  intro t
  induction t with
  | nil => intro e h; cases h
  | node l e0 c r ihl ihr =>
      intro e h
      rw [find?] at h
      rw [dat_node, List.mem_append, List.mem_cons]
      cases hl : l.find? i with
      | some x =>
          rw [hl] at h
          injection h with h
          exact Or.inl (h ▸ ihl hl)
      | none =>
          rw [hl] at h
          by_cases he : e0.id = i
          · rw [if_pos he] at h
            injection h with h
            exact Or.inr (Or.inl (by rw [h]))
          · rw [if_neg he] at h
            exact Or.inr (Or.inr (ihr h))

theorem map_flip_of_not_mem {i : String} {l : List IData}
    (h : i ∉ l.map IData.id) :
    l.map (fun d => if d.id = i then { d with isPresent := false } else d) = l := by
  have h1 : l.map (fun d => if d.id = i then { d with isPresent := false } else d) =
      l.map id := by
    apply List.map_congr_left
    intro d hd
    rw [if_neg (fun hx => h (by rw [← hx]; exact List.mem_map_of_mem _ hd))]
    rfl
  simpa using h1

theorem dat_tomb {i : String} :
    ∀ {t : BTree}, t.ids.Nodup →
      (t.tomb i).dat =
        t.dat.map (fun d => if d.id = i then { d with isPresent := false } else d) := by
  intro t
  induction t with
  | nil => intro _; rfl
  | node l e c r ihl ihr =>
      intro hn
      rcases nodup_parts hn with ⟨hnl, hnr, hel, her, hdisj⟩
      have hmapl : i ∉ l.ids → l.dat.map
          (fun d => if d.id = i then { d with isPresent := false } else d) = l.dat := by
        intro hm
        exact map_flip_of_not_mem (by rw [← ids_eq_map_dat]; exact hm)
      have hmapr : i ∉ r.ids → r.dat.map
          (fun d => if d.id = i then { d with isPresent := false } else d) = r.dat := by
        intro hm
        exact map_flip_of_not_mem (by rw [← ids_eq_map_dat]; exact hm)
      rw [tomb]
      by_cases he : e.id = i
      · rw [if_pos he, dat_node l { e with isPresent := false } (c - 1) r,
          dat_node l e c r, List.map_append, List.map_cons,
          hmapl (he ▸ hel), hmapr (he ▸ her),
          if_pos (show (e.dat).id = i from he)]
        rfl
      · rw [if_neg he]
        by_cases hil : i ∈ l.ids
        · rw [if_pos hil, dat_node (tomb i l) e (c - 1) r,
            dat_node l e c r, List.map_append, List.map_cons,
            ihl hnl, hmapr (fun hm => (hdisj i hil).2 hm),
            if_neg (show ¬ (e.dat).id = i from he)]
        · rw [if_neg hil]
          by_cases hir : i ∈ r.ids
          · rw [if_pos hir, dat_node l e (c - 1) (tomb i r),
              dat_node l e c r, List.map_append, List.map_cons,
              ihr hnr, hmapl hil, if_neg (show ¬ (e.dat).id = i from he)]
          · rw [if_neg hir, dat_node l e c r, List.map_append, List.map_cons,
              hmapl hil, hmapr hir, if_neg (show ¬ (e.dat).id = i from he)]

theorem count_pos_of_mem_present {t : BTree} (hok : countsOK t = true)
    {e : BEntry} {i : String} (hf : t.find? i = some e)
    (hp : e.isPresent = true) : 1 ≤ t.count := by
  have hmem : e.dat ∈ t.dat := find?_mem_dat hf
  have h1 : e.dat ∈ t.dat.filter (fun d => d.isPresent) :=
    List.mem_filter.mpr ⟨hmem, hp⟩
  have h2 : 1 ≤ presCnt t.dat := by
    rw [show presCnt t.dat = (t.dat.filter fun d => d.isPresent).length from rfl]
    exact List.length_pos.mpr (List.ne_nil_of_mem h1)
  rw [count_eq_presCnt hok]
  exact h2

theorem countsOK_tomb {i : String} :
    ∀ {t : BTree}, countsOK t = true → t.ids.Nodup →
      ∀ {e : BEntry}, t.find? i = some e → e.isPresent = true →
        countsOK (t.tomb i) = true ∧ (t.tomb i).count = t.count - 1 := by
  intro t
  induction t with
  | nil => intro _ _ e h; cases h
  | node l e0 c r ihl ihr =>
      intro hok hn e hf hp
      rcases countsOK_node_iff.mp hok with ⟨hc, hl, hr⟩
      rcases nodup_parts hn with ⟨hnl, hnr, hel, her, hdisj⟩
      rw [find?] at hf
      cases hfl : l.find? i with
      | some x =>
          rw [hfl] at hf
          injection hf with hf
          subst hf
          have hil : i ∈ l.ids := (find?_isSome_iff i l).mp (by simp [hfl])
          have hei : ¬ e0.id = i := fun hx => (hx ▸ hel) hil
          rcases ihl hl hnl hfl hp with ⟨hok2, hcnt2⟩
          have hlpos : 1 ≤ l.count := count_pos_of_mem_present hl hfl hp
          rw [tomb, if_neg hei, if_pos hil]
          constructor
          · rw [countsOK_node_iff]
            refine ⟨?_, hok2, hr⟩
            rw [hcnt2]
            omega
          · rw [count, count]
      | none =>
          rw [hfl] at hf
          have hnil : i ∉ l.ids := by
            rw [← find?_eq_none_iff]
            exact hfl
          by_cases he : e0.id = i
          · rw [if_pos he] at hf
            injection hf with hf
            subst hf
            rw [tomb, if_pos he]
            rw [hp] at hc
            simp only [eq_self_iff_true, if_true] at hc
            constructor
            · rw [countsOK_node_iff]
              refine ⟨?_, hl, hr⟩
              simp only [show ({ e0 with isPresent := false } : BEntry).isPresent =
                false from rfl, Bool.false_eq_true, if_false]
              omega
            · rw [count, count]
          · rw [if_neg he] at hf
            have hf2 : find? i r = some e := hf
            have hir : i ∈ r.ids := (find?_isSome_iff i r).mp (by rw [hf2]; rfl)
            rcases ihr hr hnr hf2 hp with ⟨hok2, hcnt2⟩
            have hrpos : 1 ≤ r.count := count_pos_of_mem_present hr hf2 hp
            rw [tomb, if_neg he, if_neg hnil, if_pos hir]
            constructor
            · rw [countsOK_node_iff]
              refine ⟨?_, hl, hok2⟩
              rw [hcnt2]
              omega
            · rw [count, count]

end BTree

/-! ## Small bridges used by the step-preservation proof -/

theorem findIdx_map_comp {α β : Type} (f : α → β) (p : β → Bool) :
    ∀ l : List α, (l.map f).findIdx p = l.findIdx (fun a => p (f a)) := by
  intro l
  induction l with
  | nil => rfl
  | cons x rest ih => rw [List.map_cons, List.findIdx_cons, List.findIdx_cons, ih]

theorem head?_take_pos {α : Type} {l : List α} {i : Nat} (h : 0 < i) :
    (l.take i).head? = l.head? := by
  cases l with
  | nil => simp
  | cons x rest =>
      cases i with
      | zero => omega
      | succ k => rfl

theorem ids_eq_allIds {s : State} (h : s.btree.dat = s.itree.canon) :
    s.btree.ids = s.itree.allIds := by
  rw [BTree.ids_eq_map_dat, h, ITree.canon_map_id]

theorem IData_mk_id (a b : String) (c : Bool) :
    ({ id := a, value := b, isPresent := c } : IData).id = a := rfl


/-! ## The master invariant holds initially and is preserved -/

theorem WF_init : WF State.init := by
  refine ⟨?_, ?_, ?_, ?_, ?_, ?_⟩
  · decide
  · rfl
  · rfl
  · refine ⟨?_, ?_⟩
    · exact List.Perm.refl _
    · intro L hL
      have hL2 : L = [""] := by
        rcases List.mem_cons.mp hL with h | h
        · exact h
        · simp at h
      subst hL2
      refine ⟨by simp, by simp, fun h => rfl⟩
  · refine ⟨?_, ?_⟩
    · exact List.Perm.refl _
    · intro L hL
      have hL2 : L = [""] := by
        rcases List.mem_cons.mp hL with h | h
        · exact h
        · simp at h
      subst hL2
      refine ⟨by simp, by simp, fun h => rfl⟩
  · intro d hd hp
    have : d = { id := "", value := "", isPresent := false } := by
      rcases List.mem_cons.mp hd with h | h
      · exact h
      · exact absurd h (List.not_mem_nil d)
    rw [this] at hp
    cases hp

theorem WF_step_del {s : State} {i : String} (hwf : WF s)
    (hv : i ∈ s.itree.allIds) : WF (step s (.del i)) := by
  rcases hwf with ⟨hnodup, hagree, hcounts, hsalmL, hsalmR, hpres⟩
  have hids : s.btree.ids = s.itree.allIds := ids_eq_allIds hagree
  have hbn : s.btree.ids.Nodup := by rw [hids]; exact hnodup
  have hsome : (s.btree.find? i).isSome :=
    (BTree.find?_isSome_iff i s.btree).mpr (hids ▸ hv)
  show WF (applyDelete s i).1
  cases hfind : s.btree.find? i with
  | none => rw [hfind] at hsome; cases hsome
  | some e =>
      have hstep : applyDelete s i =
          (if e.isPresent then
            ({ itree := s.itree.tomb i, btree := s.btree.tomb i,
               leftS := s.leftS, rightS := s.rightS },
             [Ev.del (((s.btree.nodeToIndexF i).map Prod.fst).getD 0) e.value])
          else (s, [])) := by
        rw [applyDelete, hfind]
      rw [hstep]
      by_cases hep : e.isPresent = true
      · rw [if_pos hep]
        refine ⟨?_, ?_, ?_, ?_, ?_, ?_⟩
        · show (s.itree.tomb i).allIds.Nodup
          rw [ITree.allIds_tomb]
          exact hnodup
        · show (s.btree.tomb i).dat = (s.itree.tomb i).canon
          rw [BTree.dat_tomb hbn, ITree.canon_tomb, hagree]
        · show (s.btree.tomb i).countsOK = true
          exact (BTree.countsOK_tomb hcounts hbn hfind hep).1
        · show SalmInv (s.itree.tomb i).flc (s.itree.tomb i).allIds s.leftS
          rw [show (s.itree.tomb i).flc = s.itree.flc from
            funext fun a => ITree.flc_tomb s.itree, ITree.allIds_tomb]
          exact hsalmL
        · show SalmInv (s.itree.tomb i).lrc (s.itree.tomb i).allIds s.rightS
          rw [show (s.itree.tomb i).lrc = s.itree.lrc from
            funext fun a => ITree.lrc_tomb s.itree, ITree.allIds_tomb]
          exact hsalmR
        · show PresVals (s.itree.tomb i).canon
          rw [ITree.canon_tomb]
          intro d hd hp
          rcases List.mem_map.mp hd with ⟨d0, hd0, rfl⟩
          by_cases hdi : d0.id = i
          · rw [if_pos hdi] at hp
            cases hp
          · rw [if_neg hdi] at hp ⊢
            exact hpres d0 hd0 hp
      · rw [if_neg hep]
        exact ⟨hnodup, hagree, hcounts, hsalmL, hsalmR, hpres⟩


/-! ## Helper characterizations for the insert step -/

namespace ITree

theorem flc_at {t : ITree} {pid : String} {dp : IData} {lcp rcp : List ITree}
    (hfind : t.findNode pid = some (node dp lcp rcp)) :
    t.flc pid = (lcp.head?).map (fun c => c.data.id) := by
  rw [ITree.flc, hfind]
  rfl

theorem lrc_at {t : ITree} {pid : String} {dp : IData} {lcp rcp : List ITree}
    (hfind : t.findNode pid = some (node dp lcp rcp)) :
    t.lrc pid = (rcp.getLast?).map (fun c => c.data.id) := by
  rw [ITree.lrc, hfind]
  rfl

theorem flc_splice_at_true {t : ITree} {pid : String} {nd : IData}
    {dp : IData} {lcp rcp : List ITree} (hn : t.allIds.Nodup)
    (hfind : t.findNode pid = some (node dp lcp rcp)) (hnd : ¬ pid = nd.id) :
    (t.splice pid true nd).flc pid =
      ((insertSib nd lcp).head?).map (fun c => c.data.id) := by
  rw [ITree.flc, findNode_splice_parent hn hfind hnd]
  rfl

theorem lrc_splice_at_true {t : ITree} {pid : String} {nd : IData}
    {dp : IData} {lcp rcp : List ITree} (hn : t.allIds.Nodup)
    (hfind : t.findNode pid = some (node dp lcp rcp)) (hnd : ¬ pid = nd.id) :
    (t.splice pid true nd).lrc pid = (rcp.getLast?).map (fun c => c.data.id) := by
  rw [ITree.lrc, findNode_splice_parent hn hfind hnd]
  rfl

theorem flc_splice_at_false {t : ITree} {pid : String} {nd : IData}
    {dp : IData} {lcp rcp : List ITree} (hn : t.allIds.Nodup)
    (hfind : t.findNode pid = some (node dp lcp rcp)) (hnd : ¬ pid = nd.id) :
    (t.splice pid false nd).flc pid = (lcp.head?).map (fun c => c.data.id) := by
  rw [ITree.flc, findNode_splice_parent hn hfind hnd]
  rfl

theorem lrc_splice_at_false {t : ITree} {pid : String} {nd : IData}
    {dp : IData} {lcp rcp : List ITree} (hn : t.allIds.Nodup)
    (hfind : t.findNode pid = some (node dp lcp rcp)) (hnd : ¬ pid = nd.id) :
    (t.splice pid false nd).lrc pid =
      ((insertSib nd rcp).getLast?).map (fun c => c.data.id) := by
  rw [ITree.lrc, findNode_splice_parent hn hfind hnd]
  rfl

theorem insertSib_head_zero {nd : IData} {l : List ITree}
    (h : l.findIdx (fun c => decide (idLt nd.id c.data.id)) = 0) :
    (insertSib nd l).head? = some (node nd [] []) := by
  rw [insertSib_eq, h]
  rfl

theorem insertSib_head_pos {nd : IData} {l : List ITree}
    (h : 0 < l.findIdx (fun c => decide (idLt nd.id c.data.id))) :
    (insertSib nd l).head? = l.head? := by
  have hlne : l ≠ [] := by
    intro hx
    subst hx
    have h0 : List.findIdx (fun c => decide (idLt nd.id c.data.id))
        ([] : List ITree) = 0 := rfl
    omega
  rw [insertSib_eq, List.head?_append_of_ne_nil]
  · exact head?_take_pos h
  · rw [Ne, List.take_eq_nil_iff]
    push_neg
    exact ⟨by omega, hlne⟩

theorem insertSib_at_zero {nd : IData} {l : List ITree}
    (h : l.findIdx (fun c => decide (idLt nd.id c.data.id)) = 0) :
    insertSib nd l = node nd [] [] :: l := by
  rw [insertSib_eq, h]
  rfl

theorem insertSib_at_end {nd : IData} {l : List ITree}
    (h : l.findIdx (fun c => decide (idLt nd.id c.data.id)) = l.length) :
    insertSib nd l = l ++ [node nd [] []] := by
  rw [insertSib_eq, h, List.take_length, List.drop_length]

theorem insertSib_getLast_lt {nd : IData} {l : List ITree}
    (h : l.findIdx (fun c => decide (idLt nd.id c.data.id)) < l.length) :
    (insertSib nd l).getLast? = l.getLast? := by
  have hd : l.drop (l.findIdx (fun c => decide (idLt nd.id c.data.id))) ≠ [] := by
    rw [Ne, List.drop_eq_nil_iff]
    omega
  rw [insertSib_eq, List.getLast?_append_of_ne_nil _ (by simp),
    show ∀ (x : ITree) (A : List ITree), A ≠ [] → (x :: A).getLast? = A.getLast?
      from ?_, ← List.getLast?_append_of_ne_nil
        (l.take (l.findIdx (fun c => decide (idLt nd.id c.data.id)))) hd,
    List.take_append_drop]
  · exact hd
  · intro x A hA
    cases A with
    | nil => exact absurd rfl hA
    | cons b t => rfl

end ITree

/-- Core preserved components for an insert whose balanced attach goes
before anchor `q` (a left-child insert). -/
theorem WF_parts_before {s : State}
    (hnodup : s.itree.allIds.Nodup) (hagree : s.btree.dat = s.itree.canon)
    (hcounts : s.btree.countsOK = true) (hpres : PresVals s.itree.canon)
    {pid q : String} {side : Bool} {nd : IData}
    (hndp : nd.isPresent = true) (hndv : nd.value.length = 1)
    (hfresh : nd.id ∉ s.itree.allIds) (hq : q ∈ s.itree.allIds)
    (hcanon : (s.itree.splice pid side nd).canon =
      insertBeforeD q nd s.itree.canon) :
    (s.itree.splice pid side nd).allIds.Perm (nd.id :: s.itree.allIds) ∧
    (s.itree.splice pid side nd).allIds.Nodup ∧
    (s.btree.attachBefore q nd).1.dat = (s.itree.splice pid side nd).canon ∧
    (s.btree.attachBefore q nd).1.countsOK = true ∧
    PresVals (s.itree.splice pid side nd).canon := by
  have hbn : s.btree.ids.Nodup := by rw [ids_eq_allIds hagree]; exact hnodup
  have hqc : q ∈ (s.itree.canon).map IData.id := by
    rw [ITree.canon_map_id]; exact hq
  have hperm0 : (insertBeforeD q nd s.itree.canon).Perm (nd :: s.itree.canon) :=
    insertBeforeD_perm nd hqc
  have hperm : (s.itree.splice pid side nd).allIds.Perm (nd.id :: s.itree.allIds) := by
    rw [← ITree.canon_map_id, hcanon, ← ITree.canon_map_id]
    exact hperm0.map IData.id
  have hspec := BTree.attachBefore_spec hndp (t := s.btree)
    (by rw [ids_eq_allIds hagree]; exact hq) hbn hcounts
  refine ⟨hperm, ?_, ?_, hspec.2.1, ?_⟩
  · rw [hperm.nodup_iff]
    exact List.nodup_cons.mpr ⟨hfresh, hnodup⟩
  · rw [hspec.1, hagree, hcanon]
  · intro d hd hp
    rw [hcanon] at hd
    rcases List.mem_cons.mp (hperm0.mem_iff.mp hd) with h | h
    · rw [h]
      exact hndv
    · exact hpres d h hp

/-- Mirror of `WF_parts_before` for an attach after anchor `q`. -/
theorem WF_parts_after {s : State}
    (hnodup : s.itree.allIds.Nodup) (hagree : s.btree.dat = s.itree.canon)
    (hcounts : s.btree.countsOK = true) (hpres : PresVals s.itree.canon)
    {pid q : String} {side : Bool} {nd : IData}
    (hndp : nd.isPresent = true) (hndv : nd.value.length = 1)
    (hfresh : nd.id ∉ s.itree.allIds) (hq : q ∈ s.itree.allIds)
    (hcanon : (s.itree.splice pid side nd).canon =
      insertAfterD q nd s.itree.canon) :
    (s.itree.splice pid side nd).allIds.Perm (nd.id :: s.itree.allIds) ∧
    (s.itree.splice pid side nd).allIds.Nodup ∧
    (s.btree.attachAfter q nd).1.dat = (s.itree.splice pid side nd).canon ∧
    (s.btree.attachAfter q nd).1.countsOK = true ∧
    PresVals (s.itree.splice pid side nd).canon := by
  have hbn : s.btree.ids.Nodup := by rw [ids_eq_allIds hagree]; exact hnodup
  have hqc : q ∈ (s.itree.canon).map IData.id := by
    rw [ITree.canon_map_id]; exact hq
  have hperm0 : (insertAfterD q nd s.itree.canon).Perm (nd :: s.itree.canon) :=
    insertAfterD_perm nd hqc
  have hperm : (s.itree.splice pid side nd).allIds.Perm (nd.id :: s.itree.allIds) := by
    rw [← ITree.canon_map_id, hcanon, ← ITree.canon_map_id]
    exact hperm0.map IData.id
  have hspec := BTree.attachAfter_spec hndp (t := s.btree)
    (by rw [ids_eq_allIds hagree]; exact hq) hbn hcounts
  refine ⟨hperm, ?_, ?_, hspec.2.1, ?_⟩
  · rw [hperm.nodup_iff]
    exact List.nodup_cons.mpr ⟨hfresh, hnodup⟩
  · rw [hspec.1, hagree, hcanon]
  · intro d hd hp
    rw [hcanon] at hd
    rcases List.mem_cons.mp (hperm0.mem_iff.mp hd) with h | h
    · rw [h]
      exact hndv
    · exact hpres d h hp


theorem WF_step_ins_left {s : State} {mid mpid mval : String} (hwf : WF s)
    (hpar : mpid ∈ s.itree.allIds) (hfresh : mid ∉ s.itree.allIds)
    (hval : mval.length = 1) :
    WF (step s (.ins ⟨mid, mpid, true, mval⟩)) := by
  rcases hwf with ⟨hnodup, hagree, hcounts, hsalmL, hsalmR, hpres⟩
  have hfsome : (s.itree.findNode mpid).isSome :=
    (ITree.findNode_isSome_iff s.itree).mpr hpar
  cases hfind : s.itree.findNode mpid with
  | none => rw [hfind] at hfsome; cases hfsome
  | some parent =>
  cases parent with
  | node dp lcp rcp =>
  rcases ITree.findNode_sound hfind with ⟨hIsPar, hdpid⟩
  have hdp : dp.id = mpid := hdpid
  have hpidmid : ¬ mpid = mid := fun h => hfresh (h ▸ hpar)
  show WF (applyInsert s _).1
  simp only [applyInsert, hfind, if_true, not_true, if_false, ITree.lcs,
    ITree.rcs, findIdx_map_comp]
  have hle : (lcp.findIdx fun a => decide (idLt mid a.data.id)) ≤ lcp.length :=
    List.findIdx_le_length _
  have hlen : (List.insertIdx (lcp.findIdx fun a => decide (idLt mid a.data.id))
      mid (List.map (fun c => c.data.id) lcp)).length = lcp.length + 1 := by
    rw [List.length_insertIdx _ _ (by rw [List.length_map]; exact hle),
      List.length_map]
  simp only [hlen, Nat.add_sub_cancel]
  -- shared facts about the spliced tree
  have hfv : ITree.splice mpid true { id := mid, value := mval, isPresent := true }
      s.itree = s.itree.splice mpid true { id := mid, value := mval, isPresent := true } := rfl
  have hf2v : (s.itree.splice mpid true { id := mid, value := mval, isPresent := true }).flc mid = none :=
    ITree.flc_splice_fresh hnodup hpar hfresh
  have hflc_other : ∀ a ∈ s.itree.allIds, ¬ a = mpid →
      (s.itree.splice mpid true { id := mid, value := mval, isPresent := true }).flc a = s.itree.flc a :=
    fun a ha hne => ITree.flc_splice_other hnodup (fun h => hfresh (by rw [IData_mk_id] at h; exact h ▸ ha)) hne
  have hsalmR2 : (s.itree.splice mpid true { id := mid, value := mval, isPresent := true }).allIds.Perm (mid :: s.itree.allIds) →
      SalmInv (s.itree.splice mpid true { id := mid, value := mval, isPresent := true }).lrc
        (s.itree.splice mpid true { id := mid, value := mval, isPresent := true }).allIds (s.rightS.create mid) := by
    intro hperm
    apply salmInv_create hsalmR hperm
    · exact ITree.lrc_splice_fresh hnodup hpar hfresh
    · intro a ha
      by_cases hap : a = mpid
      · subst hap
        rw [ITree.lrc_splice_at_true hnodup hfind hpidmid, ITree.lrc_at hfind]
      · exact ITree.lrc_splice_other hnodup (fun h => hfresh (by rw [IData_mk_id] at h; exact h ▸ ha)) hap
  by_cases hend : (lcp.findIdx fun a => decide (idLt mid a.data.id)) = lcp.length
  · rw [if_pos hend]
    have hins : ITree.insertSib { id := mid, value := mval, isPresent := true }
        lcp = lcp ++ [ITree.node { id := mid, value := mval, isPresent := true } [] []] :=
      ITree.insertSib_at_end hend
    have hcanon := ITree.splice_canon_left_end hnodup hIsPar hdp hins
    have parts := WF_parts_before hnodup hagree hcounts hpres rfl hval hfresh
      hpar hcanon
    by_cases h0 : (lcp.findIdx fun a => decide (idLt mid a.data.id)) = 0
    · rw [if_pos h0]
      have hnil : lcp = [] := by
        rw [h0] at hend
        exact List.eq_nil_of_length_eq_zero hend.symm
      rw [if_neg (by simp [hnil])]
      refine ⟨parts.2.1, parts.2.2.1, parts.2.2.2.1, ?_, hsalmR2 parts.1,
        parts.2.2.2.2⟩
      -- leftS: a fresh chain extension by append
      refine salmInv_append hsalmL hnodup parts.1 hpar ?_ ?_ hf2v
        (fun a ha hne => hflc_other a ha hne)
      · rw [ITree.flc_at hfind, hnil]
        rfl
      · rw [ITree.flc_splice_at_true hnodup hfind hpidmid,
          ITree.insertSib_head_zero h0]
        rfl
    · rw [if_neg h0]
      refine ⟨parts.2.1, parts.2.2.1, parts.2.2.2.1, ?_, hsalmR2 parts.1,
        parts.2.2.2.2⟩
      -- leftS: direct singleton creation
      apply salmInv_create hsalmL parts.1 hf2v
      intro a ha
      by_cases hap : a = mpid
      · subst hap
        rw [ITree.flc_splice_at_true hnodup hfind hpidmid,
          ITree.insertSib_head_pos (Nat.pos_of_ne_zero h0), ITree.flc_at hfind]
      · exact hflc_other a ha hap
  · rw [if_neg hend]
    have hlt : (lcp.findIdx fun a => decide (idLt mid a.data.id)) < lcp.length :=
      lt_of_le_of_ne hle hend
    have hanchor : (List.insertIdx (lcp.findIdx fun a => decide (idLt mid
        a.data.id)) mid (List.map (fun c => c.data.id)
          lcp))[(lcp.findIdx fun a => decide (idLt mid a.data.id)) + 1]! =
        (lcp[(lcp.findIdx fun a => decide (idLt mid a.data.id))]).data.id := by
      rw [getElem!_pos _ _ (by rw [hlen]; omega)]
      have h2 := List.getElem_insertIdx_add_succ
        (List.map (fun c => c.data.id) lcp) mid
        (lcp.findIdx fun a => decide (idLt mid a.data.id)) 0
        (by rw [List.length_map]; omega)
      simp only [Nat.add_zero] at h2
      rw [h2, List.getElem_map]
    have hcmem : lcp[(lcp.findIdx fun a => decide (idLt mid a.data.id))] ∈ lcp :=
      List.getElem_mem hlt
    have hIsc : ITree.IsNode s.itree
        lcp[(lcp.findIdx fun a => decide (idLt mid a.data.id))] :=
      hIsPar.trans (ITree.IsNode.child (by
        rw [ITree.lcs, ITree.rcs]
        exact List.mem_append.mpr (Or.inl hcmem)) (ITree.IsNode.refl _))
    have hcin : (lcp[(lcp.findIdx fun a => decide (idLt mid
        a.data.id))]).data.id ∈ s.itree.allIds :=
      hIsc.mem_allIds (ITree.mem_allIds_self _)
    have hgetEnd : s.leftS.getEnd
        ((lcp[(lcp.findIdx fun a => decide (idLt mid a.data.id))]).data.id) =
        some ((lcp[(lcp.findIdx fun a => decide (idLt mid
          a.data.id))]).leftmostDesc) :=
      getEnd_of_reaches hsalmL hcin (reaches_flc hnodup _ hIsc)
    rw [hanchor, hgetEnd]
    have hdec : lcp = lcp.take (lcp.findIdx fun a => decide (idLt mid
        a.data.id)) ++ lcp[(lcp.findIdx fun a => decide (idLt mid a.data.id))] ::
        lcp.drop ((lcp.findIdx fun a => decide (idLt mid a.data.id)) + 1) := by
      conv_lhs => rw [← List.take_append_drop
        (lcp.findIdx fun a => decide (idLt mid a.data.id)) lcp]
      rw [List.drop_eq_getElem_cons hlt]
    have hins : ITree.insertSib { id := mid, value := mval, isPresent := true }
        lcp = lcp.take (lcp.findIdx fun a => decide (idLt mid a.data.id)) ++
        ITree.node { id := mid, value := mval, isPresent := true } [] [] ::
        lcp[(lcp.findIdx fun a => decide (idLt mid a.data.id))] ::
        lcp.drop ((lcp.findIdx fun a => decide (idLt mid a.data.id)) + 1) := by
      rw [ITree.insertSib_eq]
      simp only [IData_mk_id]
      rw [List.drop_eq_getElem_cons hlt]
    have hcanon := ITree.splice_canon_left_mid hnodup hIsPar hdp hdec hins
    have hqmem : (lcp[(lcp.findIdx fun a => decide (idLt mid
        a.data.id))]).leftmostDesc ∈ s.itree.allIds :=
      hIsc.mem_allIds (ITree.leftmostDesc_mem _)
    have parts := WF_parts_before hnodup hagree hcounts hpres rfl hval hfresh
      hqmem hcanon
    by_cases h0 : (lcp.findIdx fun a => decide (idLt mid a.data.id)) = 0
    · rw [if_pos h0, if_pos (by omega)]
      refine ⟨parts.2.1, parts.2.2.1, parts.2.2.2.1, ?_, hsalmR2 parts.1,
        parts.2.2.2.2⟩
      -- leftS: split the old chain at the parent, then append the new child
      have hlt0 : 0 < lcp.length := by omega
      have hheadq : lcp.head? = some lcp[0] := by
        cases lcp with
        | nil => simp at hlt0
        | cons c0 rest => rfl
      have hfp : s.itree.flc mpid = some (lcp[0]).data.id := by
        rw [ITree.flc_at hfind, hheadq]
        rfl
      have hf2p : (s.itree.splice mpid true { id := mid, value := mval, isPresent := true }).flc mpid = some mid := by
        rw [ITree.flc_splice_at_true hnodup hfind hpidmid,
          ITree.insertSib_head_zero h0]
        rfl
      exact salmInv_split_append hsalmL hnodup parts.1 hpar hfp hf2p hf2v
        (fun a ha hne => hflc_other a ha hne)
    · rw [if_neg h0]
      refine ⟨parts.2.1, parts.2.2.1, parts.2.2.2.1, ?_, hsalmR2 parts.1,
        parts.2.2.2.2⟩
      apply salmInv_create hsalmL parts.1 hf2v
      intro a ha
      by_cases hap : a = mpid
      · subst hap
        rw [ITree.flc_splice_at_true hnodup hfind hpidmid,
          ITree.insertSib_head_pos (Nat.pos_of_ne_zero h0), ITree.flc_at hfind]
      · exact hflc_other a ha hap


theorem WF_step_ins_right {s : State} {mid mpid mval : String} (hwf : WF s)
    (hpar : mpid ∈ s.itree.allIds) (hfresh : mid ∉ s.itree.allIds)
    (hval : mval.length = 1) :
    WF (step s (.ins ⟨mid, mpid, false, mval⟩)) := by
  rcases hwf with ⟨hnodup, hagree, hcounts, hsalmL, hsalmR, hpres⟩
  have hfsome : (s.itree.findNode mpid).isSome :=
    (ITree.findNode_isSome_iff s.itree).mpr hpar
  cases hfind : s.itree.findNode mpid with
  | none => rw [hfind] at hfsome; cases hfsome
  | some parent =>
  cases parent with
  | node dp lcp rcp =>
  rcases ITree.findNode_sound hfind with ⟨hIsPar, hdpid⟩
  have hdp : dp.id = mpid := hdpid
  have hpidmid : ¬ mpid = mid := fun h => hfresh (h ▸ hpar)
  show WF (applyInsert s _).1
  simp only [applyInsert, hfind, Bool.false_eq_true, if_false, not_false_iff,
    if_true, ITree.lcs, ITree.rcs, findIdx_map_comp]
  have hle : (rcp.findIdx fun a => decide (idLt mid a.data.id)) ≤ rcp.length :=
    List.findIdx_le_length _
  have hlen : (List.insertIdx (rcp.findIdx fun a => decide (idLt mid a.data.id))
      mid (List.map (fun c => c.data.id) rcp)).length = rcp.length + 1 := by
    rw [List.length_insertIdx _ _ (by rw [List.length_map]; exact hle),
      List.length_map]
  simp only [hlen, Nat.add_sub_cancel]
  -- shared facts about the spliced tree
  have hf2v : (s.itree.splice mpid false { id := mid, value := mval, isPresent := true }).lrc mid = none :=
    ITree.lrc_splice_fresh hnodup hpar hfresh
  have hlrc_other : ∀ a ∈ s.itree.allIds, ¬ a = mpid →
      (s.itree.splice mpid false { id := mid, value := mval, isPresent := true }).lrc a = s.itree.lrc a :=
    fun a ha hne => ITree.lrc_splice_other hnodup
      (fun h => hfresh (by rw [IData_mk_id] at h; exact h ▸ ha)) hne
  have hsalmL2 : (s.itree.splice mpid false { id := mid, value := mval, isPresent := true }).allIds.Perm (mid :: s.itree.allIds) →
      SalmInv (s.itree.splice mpid false { id := mid, value := mval, isPresent := true }).flc
        (s.itree.splice mpid false { id := mid, value := mval, isPresent := true }).allIds (s.leftS.create mid) := by
    intro hperm
    apply salmInv_create hsalmL hperm
    · exact ITree.flc_splice_fresh hnodup hpar hfresh
    · intro a ha
      by_cases hap : a = mpid
      · subst hap
        rw [ITree.flc_splice_at_false hnodup hfind hpidmid, ITree.flc_at hfind]
      · exact ITree.flc_splice_other hnodup
          (fun h => hfresh (by rw [IData_mk_id] at h; exact h ▸ ha)) hap
  by_cases h0 : (rcp.findIdx fun a => decide (idLt mid a.data.id)) = 0
  · rw [if_pos h0]
    have hins : ITree.insertSib { id := mid, value := mval, isPresent := true }
        rcp = ITree.node { id := mid, value := mval, isPresent := true } [] [] :: rcp :=
      ITree.insertSib_at_zero h0
    have hcanon := ITree.splice_canon_right_start hnodup hIsPar hdp hins
    have parts := WF_parts_after hnodup hagree hcounts hpres rfl hval hfresh
      hpar hcanon
    by_cases hend : (rcp.findIdx fun a => decide (idLt mid a.data.id)) = rcp.length
    · rw [if_pos hend]
      have hnil : rcp = [] := by
        rw [h0] at hend
        exact List.eq_nil_of_length_eq_zero hend.symm
      rw [if_neg (by simp [hnil])]
      refine ⟨parts.2.1, parts.2.2.1, parts.2.2.2.1, hsalmL2 parts.1, ?_,
        parts.2.2.2.2⟩
      refine salmInv_append hsalmR hnodup parts.1 hpar ?_ ?_ hf2v
        (fun a ha hne => hlrc_other a ha hne)
      · rw [ITree.lrc_at hfind, hnil]
        rfl
      · rw [ITree.lrc_splice_at_false hnodup hfind hpidmid, hins, hnil]
        rfl
    · rw [if_neg hend]
      have hlt : (rcp.findIdx fun a => decide (idLt mid a.data.id)) < rcp.length :=
        lt_of_le_of_ne hle hend
      refine ⟨parts.2.1, parts.2.2.1, parts.2.2.2.1, hsalmL2 parts.1, ?_,
        parts.2.2.2.2⟩
      apply salmInv_create hsalmR parts.1 hf2v
      intro a ha
      by_cases hap : a = mpid
      · subst hap
        rw [ITree.lrc_splice_at_false hnodup hfind hpidmid,
          ITree.insertSib_getLast_lt hlt, ITree.lrc_at hfind]
      · exact hlrc_other a ha hap
  · rw [if_neg h0]
    have hpos : 0 < (rcp.findIdx fun a => decide (idLt mid a.data.id)) :=
      Nat.pos_of_ne_zero h0
    have hlt1 : (rcp.findIdx fun a => decide (idLt mid a.data.id)) - 1 <
        rcp.length := by omega
    have hanchor : (List.insertIdx (rcp.findIdx fun a => decide (idLt mid
        a.data.id)) mid (List.map (fun c => c.data.id)
          rcp))[(rcp.findIdx fun a => decide (idLt mid a.data.id)) - 1]! =
        (rcp[(rcp.findIdx fun a => decide (idLt mid a.data.id)) - 1]).data.id := by
      rw [getElem!_pos _ _ (by rw [hlen]; omega)]
      rw [List.getElem_insertIdx_of_lt _ _ _ _ (by omega)
        (by rw [List.length_map]; omega), List.getElem_map]
    have hcmem : rcp[(rcp.findIdx fun a => decide (idLt mid a.data.id)) - 1] ∈ rcp :=
      List.getElem_mem hlt1
    have hIsc : ITree.IsNode s.itree
        rcp[(rcp.findIdx fun a => decide (idLt mid a.data.id)) - 1] :=
      hIsPar.trans (ITree.IsNode.child (by
        rw [ITree.lcs, ITree.rcs]
        exact List.mem_append.mpr (Or.inr hcmem)) (ITree.IsNode.refl _))
    have hcin : (rcp[(rcp.findIdx fun a => decide (idLt mid
        a.data.id)) - 1]).data.id ∈ s.itree.allIds :=
      hIsc.mem_allIds (ITree.mem_allIds_self _)
    have hgetEnd : s.rightS.getEnd
        ((rcp[(rcp.findIdx fun a => decide (idLt mid a.data.id)) - 1]).data.id) =
        some ((rcp[(rcp.findIdx fun a => decide (idLt mid
          a.data.id)) - 1]).rightmostDesc) :=
      getEnd_of_reaches hsalmR hcin (reaches_lrc hnodup _ hIsc)
    rw [hanchor, hgetEnd]
    have htk : rcp.take (rcp.findIdx fun a => decide (idLt mid a.data.id)) =
        rcp.take ((rcp.findIdx fun a => decide (idLt mid a.data.id)) - 1) ++
          [rcp[(rcp.findIdx fun a => decide (idLt mid a.data.id)) - 1]] := by
      have h1 : (rcp.findIdx fun a => decide (idLt mid a.data.id)) =
          ((rcp.findIdx fun a => decide (idLt mid a.data.id)) - 1) + 1 := by
        omega
      conv_lhs => rw [h1]
      rw [List.take_succ, List.getElem?_eq_getElem hlt1]
      rfl
    have hdec : rcp = rcp.take ((rcp.findIdx fun a => decide (idLt mid
        a.data.id)) - 1) ++ rcp[(rcp.findIdx fun a => decide (idLt mid
          a.data.id)) - 1] :: rcp.drop (rcp.findIdx fun a => decide (idLt mid
            a.data.id)) := by
      conv_lhs => rw [← List.take_append_drop
        (rcp.findIdx fun a => decide (idLt mid a.data.id)) rcp]
      rw [htk, List.append_assoc]
      rfl
    have hins : ITree.insertSib { id := mid, value := mval, isPresent := true }
        rcp = rcp.take ((rcp.findIdx fun a => decide (idLt mid a.data.id)) - 1) ++
        rcp[(rcp.findIdx fun a => decide (idLt mid a.data.id)) - 1] ::
        ITree.node { id := mid, value := mval, isPresent := true } [] [] ::
        rcp.drop (rcp.findIdx fun a => decide (idLt mid a.data.id)) := by
      rw [ITree.insertSib_eq]
      simp only [IData_mk_id]
      rw [htk, List.append_assoc]
      rfl
    have hcanon := ITree.splice_canon_right_mid hnodup hIsPar hdp hdec hins
    have hqmem : (rcp[(rcp.findIdx fun a => decide (idLt mid
        a.data.id)) - 1]).rightmostDesc ∈ s.itree.allIds :=
      hIsc.mem_allIds (ITree.rightmostDesc_mem _)
    have parts := WF_parts_after hnodup hagree hcounts hpres rfl hval hfresh
      hqmem hcanon
    by_cases hend : (rcp.findIdx fun a => decide (idLt mid a.data.id)) = rcp.length
    · rw [if_pos hend, if_pos (by omega)]
      refine ⟨parts.2.1, parts.2.2.1, parts.2.2.2.1, hsalmL2 parts.1, ?_,
        parts.2.2.2.2⟩
      have hne2 : rcp ≠ [] := by
        intro hx
        rw [hx] at hlt1
        simp at hlt1
      have hfp : s.itree.lrc mpid = some ((rcp.getLast hne2).data.id) := by
        rw [ITree.lrc_at hfind, List.getLast?_eq_getLast _ hne2]
        rfl
      have hf2p : (s.itree.splice mpid false { id := mid, value := mval, isPresent := true }).lrc mpid = some mid := by
        rw [ITree.lrc_splice_at_false hnodup hfind hpidmid,
          ITree.insertSib_at_end hend,
          List.getLast?_append_of_ne_nil _ (by simp)]
        rfl
      exact salmInv_split_append hsalmR hnodup parts.1 hpar hfp hf2p hf2v
        (fun a ha hne => hlrc_other a ha hne)
    · rw [if_neg hend]
      have hlt : (rcp.findIdx fun a => decide (idLt mid a.data.id)) < rcp.length :=
        lt_of_le_of_ne hle hend
      refine ⟨parts.2.1, parts.2.2.1, parts.2.2.2.1, hsalmL2 parts.1, ?_,
        parts.2.2.2.2⟩
      apply salmInv_create hsalmR parts.1 hf2v
      intro a ha
      by_cases hap : a = mpid
      · subst hap
        rw [ITree.lrc_splice_at_false hnodup hfind hpidmid,
          ITree.insertSib_getLast_lt hlt, ITree.lrc_at hfind]
      · exact hlrc_other a ha hap


/-- One delivered message preserves the master invariant. -/
theorem WF_step {s : State} {m : Msg} (hwf : WF s) (hv : validMsg s m) :
    WF (step s m) := by
  cases m with
  | ins im =>
      cases im with
      | mk mid mpid mside mval =>
          rcases hv with ⟨hpar, hfresh, hval⟩
          cases mside
          · exact WF_step_ins_right hwf hpar hfresh hval
          · exact WF_step_ins_left hwf hpar hfresh hval
  | del i => exact WF_step_del hwf hv

/-- Every reachable replica state satisfies the master invariant. -/
theorem Reachable.wf {s : State} (h : Reachable s) : WF s := by
  induction h with
  | init => exact WF_init
  | step hr hv ih => exact WF_step ih hv


/-- Reachability is closed under applying a causally valid sequence. -/
theorem Reachable.applySeq {s : State} (h : Reachable s) :
    ∀ {l : List Msg}, ValidSeq s l → Reachable (TextLogn.applySeq s l) := by
  intro l
  induction l generalizing s with
  | nil => intro _; exact h
  | cons m rest ih =>
      intro hv
      exact ih (h.step hv.1) hv.2

theorem ITree.IsNode.allIds_nodup {t n : ITree} (hn : t.allIds.Nodup)
    (h : ITree.IsNode t n) : n.allIds.Nodup := by
  induction h with
  | refl => exact hn
  | @child t c n hc h ih =>
      cases t with
      | node d lc rc =>
          rw [ITree.lcs, ITree.rcs] at hc
          rcases ITree.nodup_children hn with ⟨h1, h2, h3, h4, h5⟩
          rcases List.mem_append.mp hc with h6 | h6
          · exact ih (ITree.allIdsL_nodup_mem h1 h6)
          · exact ih (ITree.allIdsL_nodup_mem h2 h6)

/-! ## The `delete(i, k)` call contract (C8 support) -/

theorem getElem_pos_of_unique {α : Type} {A B : List α} {b : α} {j : Nat}
    (hA : b ∉ A) (hB : b ∉ B) (h : (A ++ b :: B)[j]? = some b) : j = A.length := by
  rcases Nat.lt_trichotomy j A.length with hlt | heq | hgt
  · rw [List.getElem?_append_left hlt] at h
    exact absurd (List.getElem?_mem h) hA
  · exact heq
  · rw [List.getElem?_append_right (Nat.le_of_lt hgt)] at h
    have hj1 : j - A.length = (j - A.length - 1) + 1 := by omega
    rw [hj1, List.getElem?_cons_succ] at h
    exact absurd (List.getElem?_mem h) hB

theorem BTree.toVals_length {t : BTree} (h : BTree.countsOK t = true) :
    t.toVals.length = t.count := by
  rw [BTree.toVals_eq h, List.length_map, BTree.count_eq_presCnt h]
  rfl

theorem deleteOneL_ok {s : State} (hs : Reachable s) {j : Nat} (hj : j < s.length) :
    ∃ s1, deleteOneL s j = .ok s1 ∧ Reachable s1 ∧ s1.length + 1 = s.length ∧
      s1.btree.toVals = s.btree.toVals.take j ++ s.btree.toVals.drop (j + 1) := by
  rcases hs.wf with ⟨hnodup, hagree, hcounts, hsL, hsR, hpres⟩
  have hbn : s.btree.ids.Nodup := by rw [ids_eq_allIds hagree]; exact hnodup
  rcases BTree.indexToNodeF_ok hcounts hbn hj with ⟨e, h1, hep, h3, hfj⟩
  have hmemF : e.dat ∈ s.btree.dat.filter (fun d => d.isPresent) :=
    List.getElem?_mem hfj
  have hmemD : e.dat ∈ s.btree.dat := List.mem_of_mem_filter hmemF
  have hidmem : e.id ∈ s.btree.ids := by
    rw [BTree.ids_eq_map_dat]
    exact List.mem_map_of_mem IData.id hmemD
  have hvalid : validMsg s (.del e.id) := by
    show e.id ∈ s.itree.allIds
    rw [← ids_eq_allIds hagree]
    exact hidmem
  have hdatnodup : (s.btree.dat.map IData.id).Nodup := by
    rw [← BTree.ids_eq_map_dat]; exact hbn
  have hfsome : (s.btree.find? e.id).isSome :=
    (BTree.find?_isSome_iff e.id s.btree).mpr hidmem
  cases hfind : s.btree.find? e.id with
  | none => rw [hfind] at hfsome; cases hfsome
  | some e' =>
      have he'dat : e'.dat ∈ s.btree.dat := BTree.find?_mem_dat hfind
      have he'id : e'.id = e.id := BTree.find?_id hfind
      have hee : e'.dat = e.dat :=
        List.inj_on_of_nodup_map hdatnodup he'dat hmemD he'id
      have hep' : e'.isPresent = true := by
        have h2 : e'.dat.isPresent = e.dat.isPresent := by rw [hee]
        exact h2.trans hep
      have h0 : applyDelete s e.id =
          (if e'.isPresent then
            ({ itree := s.itree.tomb e.id, btree := s.btree.tomb e.id,
               leftS := s.leftS, rightS := s.rightS },
             [Ev.del (((s.btree.nodeToIndexF e.id).map Prod.fst).getD 0) e'.value])
          else (s, [])) := by
        rw [applyDelete, hfind]
      rw [if_pos hep'] at h0
      have hs1 : step s (.del e.id) =
          { itree := s.itree.tomb e.id, btree := s.btree.tomb e.id,
            leftS := s.leftS, rightS := s.rightS } := by
        show (applyDelete s e.id).1 = _
        rw [h0]
      have hctomb := BTree.countsOK_tomb hcounts hbn hfind hep'
      refine ⟨step s (.del e.id), ?_, hs.step hvalid, ?_, ?_⟩
      · show deleteOneL s j = .ok (step s (.del e.id))
        rw [deleteOneL, h1]
      · rw [hs1]
        show (s.btree.tomb e.id).count + 1 = s.btree.count
        rw [hctomb.2]
        have hjc : j < s.btree.count := hj
        omega
      · rw [hs1]
        show (s.btree.tomb e.id).toVals = _
        rcases List.append_of_mem hmemD with ⟨P, Q, hPQ⟩
        have hmap : s.btree.dat.map IData.id =
            P.map IData.id ++ e.dat.id :: Q.map IData.id := by
          rw [hPQ]; simp
        have hnd2 : (P.map IData.id ++ e.dat.id :: Q.map IData.id).Nodup := by
          rw [← hmap]; exact hdatnodup
        rcases List.nodup_append.mp hnd2 with ⟨hndP, hndCQ, hdisj⟩
        have hPid : e.id ∉ P.map IData.id := fun hx =>
          hdisj hx (List.mem_cons_self _ _)
        have hQid : e.id ∉ Q.map IData.id := by
          have h4 : e.dat.id ∉ Q.map IData.id := (List.nodup_cons.mp hndCQ).1
          exact h4
        have hPne : ∀ d ∈ P, d.id ≠ e.id := fun d hd hx =>
          hPid (hx ▸ List.mem_map_of_mem IData.id hd)
        have hQne : ∀ d ∈ Q, d.id ≠ e.id := fun d hd hx =>
          hQid (hx ▸ List.mem_map_of_mem IData.id hd)
        have hflipP : P.map
            (fun d => if d.id = e.id then { d with isPresent := false } else d) = P :=
          BTree.map_flip_of_not_mem hPid
        have hflipQ : Q.map
            (fun d => if d.id = e.id then { d with isPresent := false } else d) = Q :=
          BTree.map_flip_of_not_mem hQid
        have hflipE : (if e.dat.id = e.id then { e.dat with isPresent := false }
            else e.dat) = { e.dat with isPresent := false } :=
          if_pos rfl
        have hdt : (s.btree.tomb e.id).dat =
            P ++ { e.dat with isPresent := false } :: Q := by
          rw [BTree.dat_tomb hbn, hPQ, List.map_append, List.map_cons, hflipP,
            hflipQ, hflipE]
        have hePF : e.dat ∉ P.filter (fun d => d.isPresent) := fun hx =>
          hPne e.dat (List.mem_of_mem_filter hx) rfl
        have heQF : e.dat ∉ Q.filter (fun d => d.isPresent) := fun hx =>
          hQne e.dat (List.mem_of_mem_filter hx) rfl
        have hepd : e.dat.isPresent = true := hep
        have hFdat : s.btree.dat.filter (fun d => d.isPresent) =
            P.filter (fun d => d.isPresent) ++
              e.dat :: Q.filter (fun d => d.isPresent) := by
          rw [hPQ, List.filter_append, List.filter_cons]
          simp [hepd]
        have hepd2 : ({ e.dat with isPresent := false } : IData).isPresent = false := rfl
        have hFtomb : (s.btree.tomb e.id).dat.filter (fun d => d.isPresent) =
            P.filter (fun d => d.isPresent) ++ Q.filter (fun d => d.isPresent) := by
          rw [hdt, List.filter_append, List.filter_cons]
          simp [hepd2]
        have hjP : j = (P.filter (fun d => d.isPresent)).length := by
          apply getElem_pos_of_unique hePF heQF
          rw [← hFdat]
          exact hfj
        have hTs : s.btree.toVals =
            (P.filter (fun d => d.isPresent)).map (fun d => d.value) ++
              e.dat.value ::
                (Q.filter (fun d => d.isPresent)).map (fun d => d.value) := by
          rw [BTree.toVals_eq hcounts, hFdat, List.map_append, List.map_cons]
        have hTt : (s.btree.tomb e.id).toVals =
            (P.filter (fun d => d.isPresent)).map (fun d => d.value) ++
              (Q.filter (fun d => d.isPresent)).map (fun d => d.value) := by
          rw [BTree.toVals_eq hctomb.1, hFtomb, List.map_append]
        have hlenP : ((P.filter (fun d => d.isPresent)).map
            (fun d => d.value)).length = j := by
          rw [List.length_map, ← hjP]
        have hlen1 : ((P.filter (fun d => d.isPresent)).map (fun d => d.value) ++
            [e.dat.value]).length = j + 1 := by
          rw [List.length_append, hlenP]
          rfl
        rw [hTt, hTs, List.take_left' hlenP, List.append_cons,
          List.drop_left' hlen1]

theorem deleteL_ok {i : Nat} : ∀ {k : Nat} {s : State}, Reachable s →
    i + k ≤ s.length →
      ∃ s1, deleteL s i k = .ok s1 ∧ Reachable s1 ∧ s1.length + k = s.length ∧
        s1.btree.toVals = s.btree.toVals.take i ++ s.btree.toVals.drop (i + k) := by
  intro k
  induction k with
  | zero =>
      intro s hs _
      exact ⟨s, rfl, hs, rfl, by rw [Nat.add_zero, List.take_append_drop]⟩
  | succ k ih =>
      intro s hs hik
      rw [show i + (k + 1) = i + k + 1 from rfl] at hik ⊢
      have hjk : i + k < s.length := by omega
      rcases deleteOneL_ok hs hjk with ⟨s1, hok, hr1, hlen1, hvals1⟩
      have hik1 : i + k ≤ s1.length := by omega
      rcases ih hr1 hik1 with ⟨s2, hok2, hr2, hlen2, hvals2⟩
      refine ⟨s2, ?_, hr2, by omega, ?_⟩
      · show (match deleteOneL s (i + k) with
            | .error e => .error e
            | .ok s1 => deleteL s1 i k) = Except.ok s2
        rw [hok]
        exact hok2
      · rw [hvals2, hvals1]
        have hcounts : s.btree.countsOK = true := hs.wf.2.2.1
        have hTlen : s.btree.toVals.length = s.btree.count :=
          BTree.toVals_length hcounts
        have hsl : s.length = s.btree.count := rfl
        have h1 : i ≤ (s.btree.toVals.take (i + k)).length := by
          rw [List.length_take]; omega
        have h2 : (s.btree.toVals.take (i + k)).length = i + k := by
          rw [List.length_take]; omega
        rw [List.take_append_of_le_length h1, List.take_take,
          Nat.min_eq_left (Nat.le_add_right i k), List.drop_left' h2]

theorem deleteL_oob {s : State} {i k : Nat} (hk : 1 ≤ k)
    (h : s.length < i + k) : deleteL s i k = .error "index out of bounds" := by
  cases k with
  | zero => omega
  | succ k =>
      have hc : s.btree.count ≤ i + k := by
        have h2 : s.btree.count < i + (k + 1) := h
        omega
      show (match deleteOneL s (i + k) with
          | .error e => .error e
          | .ok s1 => deleteL s1 i k) = Except.error "index out of bounds"
      rw [show deleteOneL s (i + k) = .error "index out of bounds" from by
        rw [deleteOneL, BTree.indexToNodeF_oob hc]]

/-! ## Commutation of concurrent ground-truth steps (C1 support) -/

theorem ITree.insertSib_comm {a b : IData} (hne : a.id ≠ b.id) :
    ∀ l : List ITree, insertSib a (insertSib b l) = insertSib b (insertSib a l) := by
  have hnil : ∀ nd : IData, insertSib nd [] = [node nd [] []] := fun _ => rfl
  have hcons : ∀ (nd : IData) (c : ITree) (l : List ITree),
      insertSib nd (c :: l) =
        if idLt nd.id c.data.id then node nd [] [] :: c :: l
        else c :: insertSib nd l := fun _ _ _ => rfl
  intro l
  induction l with
  | nil =>
      rw [hnil b, hnil a, hcons a (node b [] []) [], hcons b (node a [] []) []]
      rcases idLt_trichotomy a.id b.id with h | h | h
      · rw [if_pos (show idLt a.id (node b [] []).data.id from h),
          if_neg (show ¬ idLt b.id (node a [] []).data.id from idLt_asymm h),
          hnil b]
      · exact absurd h hne
      · rw [if_neg (show ¬ idLt a.id (node b [] []).data.id from idLt_asymm h),
          if_pos (show idLt b.id (node a [] []).data.id from h), hnil a]
  | cons c rest ih =>
      by_cases hbc : idLt b.id c.data.id <;> by_cases hac : idLt a.id c.data.id
      · rcases idLt_trichotomy a.id b.id with hab | hab | hab
        · rw [hcons b c rest, if_pos hbc, hcons a (node b [] []) (c :: rest),
            if_pos (show idLt a.id (node b [] []).data.id from hab),
            hcons a c rest, if_pos hac, hcons b (node a [] []) (c :: rest),
            if_neg (show ¬ idLt b.id (node a [] []).data.id from idLt_asymm hab),
            hcons b c rest, if_pos hbc]
        · exact absurd hab hne
        · rw [hcons b c rest, if_pos hbc, hcons a (node b [] []) (c :: rest),
            if_neg (show ¬ idLt a.id (node b [] []).data.id from idLt_asymm hab),
            hcons a c rest, if_pos hac, hcons b (node a [] []) (c :: rest),
            if_pos (show idLt b.id (node a [] []).data.id from hab)]
      · have hba : idLt b.id a.id := by
          rcases idLt_trichotomy a.id b.id with h | h | h
          · exact absurd (idLt_trans h hbc) hac
          · exact absurd h hne
          · exact h
        rw [hcons b c rest, if_pos hbc, hcons a (node b [] []) (c :: rest),
          if_neg (show ¬ idLt a.id (node b [] []).data.id from idLt_asymm hba),
          hcons a c rest, if_neg hac, hcons b c (insertSib a rest), if_pos hbc]
      · have hab : idLt a.id b.id := by
          rcases idLt_trichotomy b.id a.id with h | h | h
          · exact absurd (idLt_trans h hac) hbc
          · exact absurd h (fun hx => hne hx.symm)
          · exact h
        rw [hcons b c rest, if_neg hbc, hcons a c (insertSib b rest), if_pos hac,
          hcons a c rest, if_pos hac, hcons b (node a [] []) (c :: rest),
          if_neg (show ¬ idLt b.id (node a [] []).data.id from idLt_asymm hab),
          hcons b c rest, if_neg hbc]
      · rw [hcons b c rest, if_neg hbc, hcons a c rest, if_neg hac,
          hcons a c (insertSib b rest), hcons b c (insertSib a rest),
          if_neg hac, if_neg hbc, ih]

theorem ITree.tombL_insertSib {i : String} {nd : IData} (hne : nd.id ≠ i) :
    ∀ l : List ITree, tombL i (insertSib nd l) = insertSib nd (tombL i l) := by
  have hstep : ∀ (x : ITree) (l2 : List ITree), insertSib nd (x :: l2) =
      if idLt nd.id x.data.id then node nd [] [] :: x :: l2
      else x :: insertSib nd l2 := fun _ _ => rfl
  have htl : ∀ (x : ITree) (l2 : List ITree),
      tombL i (x :: l2) = tomb i x :: tombL i l2 := fun _ _ => rfl
  intro l
  induction l with
  | nil =>
      show [ITree.tomb i (ITree.node nd [] [])] = [ITree.node nd [] []]
      rw [tomb, if_neg hne]
      rfl
  | cons c rest ih =>
      by_cases h : idLt nd.id c.data.id
      · rw [hstep c rest, if_pos h, htl c rest, hstep (tomb i c) (tombL i rest),
          if_pos (show idLt nd.id (tomb i c).data.id from by
            rw [tomb_data_id]; exact h),
          htl (node nd [] []) (c :: rest), htl c rest, tomb, if_neg hne]
        rfl
      · rw [hstep c rest, if_neg h, htl c rest, hstep (tomb i c) (tombL i rest),
          if_neg (show ¬ idLt nd.id (tomb i c).data.id from by
            rw [tomb_data_id]; exact h),
          htl c (insertSib nd rest), ih]

theorem ITree.spliceL_insertSib {pid : String} {side : Bool} {nd nd1 : IData}
    (hne : nd1.id ≠ pid) :
    ∀ l : List ITree, spliceL pid side nd (insertSib nd1 l) =
      insertSib nd1 (spliceL pid side nd l) := by
  have hstep : ∀ (x : ITree) (l2 : List ITree), insertSib nd1 (x :: l2) =
      if idLt nd1.id x.data.id then node nd1 [] [] :: x :: l2
      else x :: insertSib nd1 l2 := fun _ _ => rfl
  have hsl : ∀ (x : ITree) (l2 : List ITree),
      spliceL pid side nd (x :: l2) =
        splice pid side nd x :: spliceL pid side nd l2 := fun _ _ => rfl
  intro l
  induction l with
  | nil =>
      show [ITree.splice pid side nd (ITree.node nd1 [] [])] = [ITree.node nd1 [] []]
      rw [splice, if_neg hne]
      rfl
  | cons c rest ih =>
      by_cases h : idLt nd1.id c.data.id
      · rw [hstep c rest, if_pos h, hsl c rest,
          hstep (splice pid side nd c) (spliceL pid side nd rest),
          if_pos (show idLt nd1.id (splice pid side nd c).data.id from by
            rw [splice_data]; exact h),
          hsl (node nd1 [] []) (c :: rest), hsl c rest, splice, if_neg hne]
        rfl
      · rw [hstep c rest, if_neg h, hsl c rest,
          hstep (splice pid side nd c) (spliceL pid side nd rest),
          if_neg (show ¬ idLt nd1.id (splice pid side nd c).data.id from by
            rw [splice_data]; exact h),
          hsl c (insertSib nd1 rest), ih]

theorem ITree.tomb_comm {i j : String} :
    ∀ t : ITree, (t.tomb j).tomb i = (t.tomb i).tomb j := by
  apply my_ind
  intro d lc rc ihl ihr
  have hL : ∀ l : List ITree, (∀ c ∈ l, (c.tomb j).tomb i = (c.tomb i).tomb j) →
      tombL i (tombL j l) = tombL j (tombL i l) := by
    intro l hl
    rw [tombL_eq, tombL_eq, tombL_eq, tombL_eq, List.map_map, List.map_map]
    exact List.map_congr_left fun c hc => hl c hc
  have e3 : ∀ (k : String) (d0 : IData) (l r : List ITree), tomb k (node d0 l r) =
      node (if d0.id = k then { d0 with isPresent := false } else d0)
        (tombL k l) (tombL k r) := fun _ _ _ _ => rfl
  have hd : (if (if d.id = j then ({ d with isPresent := false } : IData) else d).id = i
        then { (if d.id = j then ({ d with isPresent := false } : IData) else d) with
          isPresent := false }
        else (if d.id = j then ({ d with isPresent := false } : IData) else d)) =
      (if (if d.id = i then ({ d with isPresent := false } : IData) else d).id = j
        then { (if d.id = i then ({ d with isPresent := false } : IData) else d) with
          isPresent := false }
        else (if d.id = i then ({ d with isPresent := false } : IData) else d)) := by
    by_cases hi : d.id = i <;> by_cases hj : d.id = j
    · have hij : i = j := hi.symm.trans hj
      simp [hi, hj, hij]
    · have hij : ¬ i = j := fun h => hj (hi.trans h)
      simp [hi, hj, hij]
    · have hij : ¬ j = i := fun h => hi (hj.trans h)
      simp [hi, hj, hij]
    · simp [hi, hj]
  rw [e3 j d lc rc, e3 i _ (tombL j lc) (tombL j rc),
    e3 i d lc rc, e3 j _ (tombL i lc) (tombL i rc),
    hL lc ihl, hL rc ihr, hd]

theorem ITree.splice_tomb_comm {i pid : String} {side : Bool} {nd : IData}
    (hne : nd.id ≠ i) :
    ∀ t : ITree, (t.tomb i).splice pid side nd = (t.splice pid side nd).tomb i := by
  apply my_ind
  intro d lc rc ihl ihr
  have hfid : (if d.id = i then ({ d with isPresent := false } : IData) else d).id
      = d.id := by
    by_cases h : d.id = i <;> simp [h]
  have e3 : ∀ (d0 : IData) (l r : List ITree), tomb i (node d0 l r) =
      node (if d0.id = i then { d0 with isPresent := false } else d0)
        (tombL i l) (tombL i r) := fun _ _ _ => rfl
  have hLl : spliceL pid side nd (tombL i lc) = tombL i (spliceL pid side nd lc) := by
    rw [spliceL_eq, tombL_eq, tombL_eq, spliceL_eq, List.map_map, List.map_map]
    exact List.map_congr_left fun c hc => ihl c hc
  have hLr : spliceL pid side nd (tombL i rc) = tombL i (spliceL pid side nd rc) := by
    rw [spliceL_eq, tombL_eq, tombL_eq, spliceL_eq, List.map_map, List.map_map]
    exact List.map_congr_left fun c hc => ihr c hc
  cases side with
  | true =>
      have e2 : ∀ (d0 : IData) (l r : List ITree), splice pid true nd (node d0 l r) =
          if d0.id = pid then node d0 (insertSib nd l) r
          else node d0 (spliceL pid true nd l) (spliceL pid true nd r) :=
        fun _ _ _ => rfl
      rw [e3 d lc rc, e2, hfid, e2 d lc rc]
      by_cases hp : d.id = pid
      · rw [if_pos hp, if_pos hp, e3 d (insertSib nd lc) rc,
          tombL_insertSib hne lc]
      · rw [if_neg hp, if_neg hp,
          e3 d (spliceL pid true nd lc) (spliceL pid true nd rc), hLl, hLr]
  | false =>
      have e2 : ∀ (d0 : IData) (l r : List ITree), splice pid false nd (node d0 l r) =
          if d0.id = pid then node d0 l (insertSib nd r)
          else node d0 (spliceL pid false nd l) (spliceL pid false nd r) :=
        fun _ _ _ => rfl
      rw [e3 d lc rc, e2, hfid, e2 d lc rc]
      by_cases hp : d.id = pid
      · rw [if_pos hp, if_pos hp, e3 d lc (insertSib nd rc),
          tombL_insertSib hne rc]
      · rw [if_neg hp, if_neg hp,
          e3 d (spliceL pid false nd lc) (spliceL pid false nd rc), hLl, hLr]

theorem ITree.splice_splice_comm {p1 p2 : String} {s1 s2 : Bool} {n1 n2 : IData}
    (h12 : n1.id ≠ n2.id) (hp1 : p1 ≠ n2.id) (hp2 : p2 ≠ n1.id) :
    ∀ t : ITree, (t.splice p1 s1 n1).splice p2 s2 n2 =
      (t.splice p2 s2 n2).splice p1 s1 n1 := by
  have eT : ∀ (p : String) (n : IData) (d0 : IData) (l r : List ITree),
      splice p true n (node d0 l r) =
        if d0.id = p then node d0 (insertSib n l) r
        else node d0 (spliceL p true n l) (spliceL p true n r) :=
    fun _ _ _ _ _ => rfl
  have eF : ∀ (p : String) (n : IData) (d0 : IData) (l r : List ITree),
      splice p false n (node d0 l r) =
        if d0.id = p then node d0 l (insertSib n r)
        else node d0 (spliceL p false n l) (spliceL p false n r) :=
    fun _ _ _ _ _ => rfl
  have eG : ∀ (p : String) (s : Bool) (n : IData) (d0 : IData) (l r : List ITree),
      splice p s n (node d0 l r) =
        if d0.id = p then
          (if s then node d0 (insertSib n l) r else node d0 l (insertSib n r))
        else node d0 (spliceL p s n l) (spliceL p s n r) :=
    fun _ _ _ _ _ _ => rfl
  apply my_ind
  intro d lc rc ihl ihr
  have hLl : spliceL p2 s2 n2 (spliceL p1 s1 n1 lc) =
      spliceL p1 s1 n1 (spliceL p2 s2 n2 lc) := by
    rw [spliceL_eq, spliceL_eq, spliceL_eq, spliceL_eq, List.map_map, List.map_map]
    exact List.map_congr_left fun c hc => ihl c hc
  have hLr : spliceL p2 s2 n2 (spliceL p1 s1 n1 rc) =
      spliceL p1 s1 n1 (spliceL p2 s2 n2 rc) := by
    rw [spliceL_eq, spliceL_eq, spliceL_eq, spliceL_eq, List.map_map, List.map_map]
    exact List.map_congr_left fun c hc => ihr c hc
  by_cases h1 : d.id = p1 <;> by_cases h2 : d.id = p2
  · cases s1 with
    | true =>
        cases s2 with
        | true =>
            rw [eT p1 n1 d lc rc, if_pos h1, eT p2 n2 d (insertSib n1 lc) rc,
              if_pos h2, eT p2 n2 d lc rc, if_pos h2,
              eT p1 n1 d (insertSib n2 lc) rc, if_pos h1,
              insertSib_comm (Ne.symm h12) lc]
        | false =>
            rw [eT p1 n1 d lc rc, if_pos h1, eF p2 n2 d (insertSib n1 lc) rc,
              if_pos h2, eF p2 n2 d lc rc, if_pos h2,
              eT p1 n1 d lc (insertSib n2 rc), if_pos h1]
    | false =>
        cases s2 with
        | true =>
            rw [eF p1 n1 d lc rc, if_pos h1, eT p2 n2 d lc (insertSib n1 rc),
              if_pos h2, eT p2 n2 d lc rc, if_pos h2,
              eF p1 n1 d (insertSib n2 lc) rc, if_pos h1]
        | false =>
            rw [eF p1 n1 d lc rc, if_pos h1, eF p2 n2 d lc (insertSib n1 rc),
              if_pos h2, eF p2 n2 d lc rc, if_pos h2,
              eF p1 n1 d lc (insertSib n2 rc), if_pos h1,
              insertSib_comm (Ne.symm h12) rc]
  · cases s1 with
    | true =>
        rw [eT p1 n1 d lc rc, if_pos h1, eG p2 s2 n2 d (insertSib n1 lc) rc,
          if_neg h2, spliceL_insertSib (Ne.symm hp2) lc, eG p2 s2 n2 d lc rc,
          if_neg h2, eT p1 n1 d (spliceL p2 s2 n2 lc) (spliceL p2 s2 n2 rc),
          if_pos h1]
    | false =>
        rw [eF p1 n1 d lc rc, if_pos h1, eG p2 s2 n2 d lc (insertSib n1 rc),
          if_neg h2, spliceL_insertSib (Ne.symm hp2) rc, eG p2 s2 n2 d lc rc,
          if_neg h2, eF p1 n1 d (spliceL p2 s2 n2 lc) (spliceL p2 s2 n2 rc),
          if_pos h1]
  · cases s2 with
    | true =>
        rw [eG p1 s1 n1 d lc rc, if_neg h1,
          eT p2 n2 d (spliceL p1 s1 n1 lc) (spliceL p1 s1 n1 rc), if_pos h2,
          eT p2 n2 d lc rc, if_pos h2, eG p1 s1 n1 d (insertSib n2 lc) rc,
          if_neg h1, spliceL_insertSib (Ne.symm hp1) lc]
    | false =>
        rw [eG p1 s1 n1 d lc rc, if_neg h1,
          eF p2 n2 d (spliceL p1 s1 n1 lc) (spliceL p1 s1 n1 rc), if_pos h2,
          eF p2 n2 d lc rc, if_pos h2, eG p1 s1 n1 d lc (insertSib n2 rc),
          if_neg h1, spliceL_insertSib (Ne.symm hp1) rc]
  · rw [eG p1 s1 n1 d lc rc, if_neg h1,
      eG p2 s2 n2 d (spliceL p1 s1 n1 lc) (spliceL p1 s1 n1 rc), if_neg h2,
      eG p2 s2 n2 d lc rc, if_neg h2,
      eG p1 s1 n1 d (spliceL p2 s2 n2 lc) (spliceL p2 s2 n2 rc), if_neg h1,
      hLl, hLr]

theorem ITree.mem_allIds_splice_self {pid : String} {side : Bool} {nd : IData} :
    ∀ t : ITree, pid ∈ t.allIds → nd.id ∈ (t.splice pid side nd).allIds := by
  apply my_ind
  intro d lc rc ihl ihr hp
  have hins : ∀ l : List ITree, nd.id ∈ allIdsL (insertSib nd l) := by
    intro l
    apply mem_allIdsL_iff.mpr
    refine ⟨node nd [] [], ?_, ?_⟩
    · rw [insertSib_eq]
      exact List.mem_append.mpr (Or.inr (List.mem_cons_self _ _))
    · show nd.id ∈ allIds (node nd [] [])
      rw [allIds]
      exact List.mem_append.mpr (Or.inr (List.mem_cons_self _ _))
  rw [splice]
  by_cases h : d.id = pid
  · rw [if_pos h]
    cases side with
    | true =>
        rw [if_pos rfl, allIds]
        exact List.mem_append.mpr (Or.inl (hins lc))
    | false =>
        rw [if_neg (show ¬ false = true from by simp), allIds]
        exact List.mem_append.mpr (Or.inr (List.mem_cons.mpr (Or.inr (hins rc))))
  · rw [if_neg h]
    rw [allIds] at hp
    rw [allIds, spliceL_eq, spliceL_eq]
    rcases List.mem_append.mp hp with hm | hm
    · rcases mem_allIdsL_iff.mp hm with ⟨c, hc, hpc⟩
      exact List.mem_append.mpr (Or.inl (mem_allIdsL_iff.mpr
        ⟨splice pid side nd c, List.mem_map_of_mem _ hc, ihl c hc hpc⟩))
    · rcases List.mem_cons.mp hm with h2 | h2
      · exact absurd h2.symm h
      · rcases mem_allIdsL_iff.mp h2 with ⟨c, hc, hpc⟩
        exact List.mem_append.mpr (Or.inr (List.mem_cons.mpr (Or.inr
          (mem_allIdsL_iff.mpr
            ⟨splice pid side nd c, List.mem_map_of_mem _ hc, ihr c hc hpc⟩))))

theorem mem_allIds_stepI {t : ITree} {m : Msg} {a : String}
    (h : a ∈ t.allIds) : a ∈ (stepI t m).allIds := by
  cases m with
  | ins m => exact ITree.allIds_splice_mono t h
  | del i =>
      show a ∈ (t.tomb i).allIds
      rw [ITree.allIds_tomb]
      exact h

theorem mem_allIds_applySeqI {a : String} : ∀ {l : List Msg} {t : ITree},
    a ∈ t.allIds → a ∈ (applySeqI t l).allIds := by
  intro l
  induction l with
  | nil => intro t h; exact h
  | cons m rest ih => intro t h; exact ih (mem_allIds_stepI h)

theorem itree_step {s : State} {m : Msg} (hwf : WF s) (hv : validMsg s m) :
    (step s m).itree = stepI s.itree m := by
  cases m with
  | ins m =>
      have hfsome : (s.itree.findNode m.parentID).isSome :=
        (ITree.findNode_isSome_iff s.itree).mpr hv.1
      cases hfind : s.itree.findNode m.parentID with
      | none => rw [hfind] at hfsome; cases hfsome
      | some parent =>
          show ((applyInsert s m).1).itree =
            s.itree.splice m.parentID m.isLeftChild
              { id := m.id, value := m.value, isPresent := true }
          rw [applyInsert, hfind]
  | del i =>
      have hids : s.btree.ids = s.itree.allIds := ids_eq_allIds hwf.2.1
      have hbn : s.btree.ids.Nodup := by rw [hids]; exact hwf.1
      have hsome : (s.btree.find? i).isSome :=
        (BTree.find?_isSome_iff i s.btree).mpr (hids ▸ hv)
      cases hfind : s.btree.find? i with
      | none => rw [hfind] at hsome; cases hsome
      | some e =>
          show ((applyDelete s i).1).itree = s.itree.tomb i
          have h0 : applyDelete s i =
              (if e.isPresent then
                ({ itree := s.itree.tomb i, btree := s.btree.tomb i,
                   leftS := s.leftS, rightS := s.rightS },
                 [Ev.del (((s.btree.nodeToIndexF i).map Prod.fst).getD 0) e.value])
              else (s, [])) := by
            rw [applyDelete, hfind]
          by_cases hep : e.isPresent = true
          · rw [if_pos hep] at h0
            rw [h0]
          · rw [if_neg hep] at h0
            rw [h0]
            show s.itree = s.itree.tomb i
            symm
            apply ITree.tomb_eq_self
            intro d hd hdi
            have hdd : d ∈ s.btree.dat := by rw [hwf.2.1]; exact hd
            have hed : e.dat ∈ s.btree.dat := BTree.find?_mem_dat hfind
            have heq : d = e.dat := by
              apply List.inj_on_of_nodup_map
                (show (s.btree.dat.map IData.id).Nodup from by
                  rw [← BTree.ids_eq_map_dat]; exact hbn) hdd hed
              show d.id = e.dat.id
              rw [hdi]
              exact (BTree.find?_id hfind).symm
            rw [heq]
            show e.isPresent = false
            exact Bool.eq_false_iff.mpr hep

theorem applySeq_itree : ∀ {l : List Msg} {s : State}, Reachable s → ValidSeq s l →
    (applySeq s l).itree = applySeqI s.itree l ∧ ValidSeqI s.itree l := by
  intro l
  induction l with
  | nil => intro s _ _; exact ⟨rfl, trivial⟩
  | cons m rest ih =>
      intro s hs hv
      have hI : (step s m).itree = stepI s.itree m := itree_step hs.wf hv.1
      have hvI : validMsgI s.itree m := by
        cases m with
        | ins m => exact hv.1
        | del i => exact hv.1
      rcases ih (hs.step hv.1) hv.2 with ⟨ha, hb⟩
      rw [hI] at ha hb
      exact ⟨ha, hvI, hb⟩

theorem validMsgI_at_end {m : Msg} : ∀ {A B : List Msg} {t : ITree},
    ValidSeqI t (A ++ m :: B) → validMsgI (applySeqI t A) m := by
  intro A
  induction A with
  | nil => intro B t hv; exact hv.1
  | cons a A ih => intro B t hv; exact ih hv.2

theorem stepI_comm {t : ITree} {m a : Msg} (hm : validMsgI t m)
    (ha : validMsgI t a) (hfm : validMsgI (stepI t a) m) :
    stepI (stepI t a) m = stepI (stepI t m) a := by
  cases m with
  | ins m =>
      cases a with
      | ins a =>
          have hma : m.id ≠ a.id := fun h => hfm.2.1 (by
            rw [h]; exact ITree.mem_allIds_splice_self t ha.1)
          have hpm : a.parentID ≠ m.id := fun h => hm.2.1 (h ▸ ha.1)
          have hpa : m.parentID ≠ a.id := fun h => ha.2.1 (h ▸ hm.1)
          exact ITree.splice_splice_comm (Ne.symm hma) hpm hpa t
      | del i =>
          have hne : m.id ≠ i := fun h => hm.2.1 (h ▸ ha)
          exact ITree.splice_tomb_comm hne t
  | del i =>
      cases a with
      | ins a =>
          have hne : a.id ≠ i := fun h => ha.2.1 (h ▸ hm)
          exact (ITree.splice_tomb_comm hne t).symm
      | del j => exact ITree.tomb_comm t

theorem validMsgI_swap {t : ITree} {m a : Msg} (hm : validMsgI t m)
    (ha : validMsgI t a) (hfm : validMsgI (stepI t a) m) :
    validMsgI (stepI t m) a := by
  cases a with
  | ins a =>
      cases m with
      | ins m =>
          have hma : m.id ≠ a.id := fun h => hfm.2.1 (by
            rw [h]; exact ITree.mem_allIds_splice_self t ha.1)
          refine ⟨ITree.allIds_splice_mono t ha.1, ?_, ha.2.2⟩
          intro hx
          rcases ITree.allIds_splice_sub t hx with h | h
          · exact hma h.symm
          · exact ha.2.1 h
      | del j =>
          refine ⟨?_, ?_, ha.2.2⟩
          · show a.parentID ∈ (t.tomb j).allIds
            rw [ITree.allIds_tomb]
            exact ha.1
          · show a.id ∉ (t.tomb j).allIds
            rw [ITree.allIds_tomb]
            exact ha.2.1
  | del i =>
      cases m with
      | ins m => exact ITree.allIds_splice_mono t ha
      | del j =>
          show i ∈ (t.tomb j).allIds
          rw [ITree.allIds_tomb]
          exact ha

theorem applySeqI_pull {m : Msg} : ∀ {A B : List Msg} {t : ITree},
    validMsgI t m → ValidSeqI t (A ++ m :: B) →
      applySeqI t (A ++ m :: B) = applySeqI (stepI t m) (A ++ B) ∧
        ValidSeqI (stepI t m) (A ++ B) := by
  intro A
  induction A with
  | nil => intro B t hm hv; exact ⟨rfl, hv.2⟩
  | cons a A ih =>
      intro B t hm hv
      have hva : validMsgI t a := hv.1
      have hrest : ValidSeqI (stepI t a) (A ++ m :: B) := hv.2
      have hfm : validMsgI (stepI t a) m := by
        cases m with
        | ins m =>
            refine ⟨mem_allIds_stepI hm.1, ?_, hm.2.2⟩
            intro hx
            exact (validMsgI_at_end hrest).2.1 (mem_allIds_applySeqI hx)
        | del i => exact mem_allIds_stepI hm
      rcases ih hfm hrest with ⟨h1, h2⟩
      have hcomm : stepI (stepI t a) m = stepI (stepI t m) a :=
        stepI_comm hm hva hfm
      have hva2 : validMsgI (stepI t m) a := validMsgI_swap hm hva hfm
      rw [hcomm] at h1 h2
      exact ⟨h1, hva2, h2⟩

theorem applySeqI_perm : ∀ {l1 l2 : List Msg}, l1.Perm l2 → ∀ {t : ITree},
    ValidSeqI t l1 → ValidSeqI t l2 → applySeqI t l1 = applySeqI t l2 := by
  intro l1
  induction l1 with
  | nil =>
      intro l2 hp t _ _
      have h0 : l2 = [] := hp.symm.eq_nil
      rw [h0]
  | cons m r1 ih =>
      intro l2 hp t hv1 hv2
      have hm2 : m ∈ l2 := hp.mem_iff.mp (List.mem_cons_self m r1)
      rcases List.append_of_mem hm2 with ⟨A, B, rfl⟩
      have hr : r1.Perm (A ++ B) := by
        have h2 : (m :: r1).Perm (m :: (A ++ B)) := hp.trans List.perm_middle
        exact (List.perm_cons m).mp h2
      have hpull := applySeqI_pull hv1.1 hv2
      have hIH := ih hr (t := stepI t m) hv1.2 hpull.2
      show applySeqI (stepI t m) r1 = applySeqI t (A ++ m :: B)
      rw [hIH, ← hpull.1]

theorem toStr_congr {s1 s2 : State} (h1 : WF s1) (h2 : WF s2)
    (h : s1.itree = s2.itree) : s1.toStr = s2.toStr := by
  have e1 : s1.btree.toVals = s2.btree.toVals := by
    rw [BTree.toVals_eq h1.2.2.1, BTree.toVals_eq h2.2.2.1, h1.2.1, h2.2.1, h]
  have e2 : s1.length = s2.length := by
    show s1.btree.count = s2.btree.count
    rw [BTree.count_eq_presCnt h1.2.2.1, BTree.count_eq_presCnt h2.2.2.1,
      h1.2.1, h2.2.1, h]
  simp only [State.toStr, e1, e2]

/-! # Claim theorems -/

/-- C2: in every reachable replica state, the inorder traversal of the
balanced index carries exactly the character-node sequence of the
canonical inorder of the interleaving tree. -/
theorem c2_inorder_agreement {s : State} (h : Reachable s) :
    s.btree.dat = s.itree.canon := h.wf.2.1

/-- Witness for C2 on a concrete six-insert run. -/
theorem c2_inorder_agreement_witness :
    (applySeq State.init c3seq).btree.dat = (applySeq State.init c3seq).itree.canon :=
  c2_inorder_agreement (Reachable.applySeq Reachable.init (by decide))

/-- C4: in every reachable replica state, for every index `i < length`,
`indexToNode` succeeds and `nodeToIndex` maps the found node back to
`(i, true)`. -/
theorem c4_index_round_trip {s : State} (h : Reachable s) {i : Nat}
    (hi : i < s.length) :
    ∃ e, s.btree.indexToNodeF i = .ok e ∧
      s.btree.nodeToIndexF e.id = some (i, true) := by
  rcases h.wf with ⟨hnodup, hagree, hcounts, h4, h5, h6⟩
  have hbn : s.btree.ids.Nodup := by rw [ids_eq_allIds hagree]; exact hnodup
  rcases BTree.indexToNodeF_ok hcounts hbn hi with ⟨e, h1, h2, h3, h4⟩
  exact ⟨e, h1, h3⟩

/-- Witness for C4 at index 0 of a one-character document. -/
theorem c4_index_round_trip_witness :
    0 < (applySeq State.init [mkIns "a" "" true]).length ∧
      ∃ e, (applySeq State.init [mkIns "a" "" true]).btree.indexToNodeF 0 = .ok e ∧
        (applySeq State.init [mkIns "a" "" true]).btree.nodeToIndexF e.id =
          some (0, true) :=
  ⟨by decide, c4_index_round_trip
    (Reachable.applySeq Reachable.init (by decide)) (by decide)⟩

/-- C5: in every reachable replica state, every stored `bCount` equals the
recomputation from the children plus the node's own presence bit, and the
`length` getter consequently counts the present nodes. -/
theorem c5_bcount_correct {s : State} (h : Reachable s) :
    s.btree.countsOK = true ∧ s.length = presCnt s.itree.canon := by
  rcases h.wf with ⟨h1, hagree, hcounts, h4, h5, h6⟩
  refine ⟨hcounts, ?_⟩
  rw [State.length, BTree.count_eq_presCnt hcounts, hagree]

/-- Witness for C5 on a run with one deletion. -/
theorem c5_bcount_correct_witness :
    (applySeq State.init [mkIns "a" "" true, mkIns "b" "a" true, .del "a"]).btree.countsOK = true ∧
      (applySeq State.init [mkIns "a" "" true, mkIns "b" "a" true, .del "a"]).length =
        presCnt (applySeq State.init [mkIns "a" "" true, mkIns "b" "a" true, .del "a"]).itree.canon :=
  c5_bcount_correct (Reachable.applySeq Reachable.init (by decide))

/-- C10: in every reachable replica state, `toString` returns normally
(the internal length-mismatch error branch is unreachable) and the
returned string has exactly `length` characters. -/
theorem c10_toString_ok {s : State} (h : Reachable s) :
    ∃ str : String, s.toStr = .ok str ∧ str.length = s.length := by
  rcases h.wf with ⟨h1, hagree, hcounts, h4, h5, hpres⟩
  have hv := BTree.toVals_eq hcounts
  have hlen : (String.join (List.replicate s.length "" ++ s.btree.toVals)).length
      = s.length := by
    rw [length_join, List.map_append, List.sum_append]
    have h1 : ((List.replicate s.length "").map String.length).sum = 0 := by
      simp
    have h2 : (s.btree.toVals.map String.length).sum = presCnt s.btree.dat := by
      rw [hv, List.map_map]
      have hone : ∀ d ∈ s.btree.dat.filter (fun d => d.isPresent),
          (String.length ∘ fun d => d.value) d = 1 := by
        intro d hd
        rcases List.mem_filter.mp hd with ⟨hd1, hd2⟩
        exact hpres d (hagree ▸ hd1) hd2
      rw [List.map_congr_left hone]
      rw [show presCnt s.btree.dat =
        (s.btree.dat.filter fun d => d.isPresent).length from rfl]
      simp
    rw [h1, h2, ← BTree.count_eq_presCnt hcounts]
    rw [State.length]
    omega
  refine ⟨String.join (List.replicate s.length "" ++ s.btree.toVals), ?_, hlen⟩
  rw [State.toStr, if_neg (by rw [hlen]; exact fun hx => hx rfl)]

/-- Witness for C10 on a run with an interior deletion. -/
theorem c10_toString_ok_witness :
    ∃ str : String,
      (applySeq State.init [mkIns "a" "" true, mkIns "b" "a" false, .del "a"]).toStr = .ok str ∧
        str.length = (applySeq State.init [mkIns "a" "" true, mkIns "b" "a" false, .del "a"]).length :=
  c10_toString_ok (Reachable.applySeq Reachable.init (by decide))


/-- C7: in every reachable replica state, for every node with a non-empty
`rightChildren` list, `nextNode` over the balanced index finds a node of
the interleaving tree whose `leftChildren` list is empty. -/
theorem c7_nextNode_no_left_children {s : State} (h : Reachable s) {a : String}
    (hrc : (s.itree.findNode a).map (fun L => L.rcs.isEmpty) = some false) :
    ∃ e n, s.btree.nextNodeF a = some e ∧ s.itree.findNode e.id = some n ∧
      n.lcs = [] := by
  rcases h.wf with ⟨hnodup, hagree, hcounts, h4, h5, h6⟩
  cases hf : s.itree.findNode a with
  | none => rw [hf] at hrc; cases hrc
  | some L =>
  rw [hf, Option.map_some'] at hrc
  injection hrc with hrc
  rcases ITree.findNode_sound hf with ⟨hIsL, hidL⟩
  cases L with
  | node dL lcL rcL =>
  cases rcL with
  | nil => simp [ITree.rcs] at hrc
  | cons c cs =>
  rcases ITree.leftmost_spec c with ⟨n, hnc, hnlcs, hnid, hnhead⟩
  have hIsc : ITree.IsNode s.itree c := hIsL.trans
    (ITree.IsNode.child (by
      rw [ITree.lcs, ITree.rcs]
      exact List.mem_append.mpr (Or.inr (by simp))) (ITree.IsNode.refl c))
  have hIsn : ITree.IsNode s.itree n := hIsc.trans hnc
  rcases hIsL.canon_contig with ⟨A, B, hAB⟩
  have hLnodup : (ITree.node dL lcL (c :: cs)).allIds.Nodup :=
    hIsL.allIds_nodup hnodup
  rcases ITree.nodup_children hLnodup with ⟨hn1, hn2, hd1, hd2, hdisj⟩
  have hda : dL.id = a := hidL
  have hamem : a ∈ ((ITree.node dL lcL (c :: cs)).canon).map IData.id := by
    rw [ITree.canon_map_id, ← hda]
    exact ITree.mem_allIds_self _
  have haA : a ∉ A.map IData.id := by
    intro hmm
    have hidsnodup : (s.itree.canon.map IData.id).Nodup := by
      rw [ITree.canon_map_id]
      exact hnodup
    rw [hAB, List.map_append, List.map_append] at hidsnodup
    rcases List.nodup_append.mp hidsnodup with ⟨ha1, ha2, hadis⟩
    rcases List.nodup_append.mp ha1 with ⟨ha3, ha4, hadis2⟩
    exact hadis2 hmm hamem
  have hsucc : succD s.itree.canon a = some n.data := by
    rw [hAB, List.append_assoc, succD_append_not_mem _ haA,
      succD_append_mem _ hamem]
    have hlc : a ∉ (ITree.canonL lcL).map IData.id := by
      rw [ITree.canonL_map_id, ← hda]
      exact hd1
    have hstep : succD ((ITree.node dL lcL (c :: cs)).canon) a = some n.data := by
      rw [show (ITree.node dL lcL (c :: cs)).canon =
        ITree.canonL lcL ++ dL :: (c.canon ++ ITree.canonL cs) from rfl,
        succD_append_not_mem _ hlc,
        show succD (dL :: (c.canon ++ ITree.canonL cs)) a =
          (c.canon ++ ITree.canonL cs).head? from by simp [succD, hda],
        List.head?_append_of_ne_nil _ (ITree.canon_ne_nil c), hnhead]
    rw [hstep]
  have hmemids : a ∈ s.btree.ids := by
    rw [ids_eq_allIds hagree, ← hda]
    exact hIsL.mem_allIds (ITree.mem_allIds_self _)
  have hbn : s.btree.ids.Nodup := by rw [ids_eq_allIds hagree]; exact hnodup
  have hnext := BTree.nextNodeF_dat hbn hmemids
  rw [show s.btree.dat = s.itree.canon from hagree, hsucc] at hnext
  cases he : s.btree.nextNodeF a with
  | none => rw [he] at hnext; cases hnext
  | some e =>
      rw [he, Option.map_some'] at hnext
      injection hnext with hnext
      refine ⟨e, n, rfl, ?_, hnlcs⟩
      have heid : e.id = n.data.id := by
        rw [show e.id = (e.dat).id from rfl, hnext]
      rw [heid]
      exact ITree.findNode_complete hnodup hIsn

/-- Witness for C7 at a node with one right child. -/
theorem c7_nextNode_no_left_children_witness :
    ((applySeq State.init [mkIns "a" "" false]).itree.findNode "").map
        (fun L => L.rcs.isEmpty) = some false ∧
      ∃ e n, (applySeq State.init [mkIns "a" "" false]).btree.nextNodeF "" = some e ∧
        (applySeq State.init [mkIns "a" "" false]).itree.findNode e.id = some n ∧
        n.lcs = [] :=
  ⟨by decide, c7_nextNode_no_left_children
    (Reachable.applySeq Reachable.init (by decide)) (by decide)⟩


/-- C9: applying the same `delete(id)` message twice yields exactly the
state reached by applying it once, and the repeated application emits no
event. -/
theorem c9_delete_idempotent {s : State} (h : Reachable s) (i : String) :
    step (step s (.del i)) (.del i) = step s (.del i) ∧
      (applyMsg (step s (.del i)) (.del i)).2 = [] := by
  rcases h.wf with ⟨hnodup, hagree, hcounts, h4, h5, h6⟩
  have hbn : s.btree.ids.Nodup := by rw [ids_eq_allIds hagree]; exact hnodup
  show (applyDelete (applyDelete s i).1 i).1 = (applyDelete s i).1 ∧
    (applyDelete (applyDelete s i).1 i).2 = []
  cases hfind : s.btree.find? i with
  | none =>
      have h0 : applyDelete s i = (s, []) := by rw [applyDelete, hfind]
      rw [show (applyDelete s i).1 = s from by rw [h0], h0]
      exact ⟨rfl, rfl⟩
  | some e =>
      have h0 : applyDelete s i =
          (if e.isPresent then
            ({ itree := s.itree.tomb i, btree := s.btree.tomb i,
               leftS := s.leftS, rightS := s.rightS },
             [Ev.del (((s.btree.nodeToIndexF i).map Prod.fst).getD 0) e.value])
          else (s, [])) := by
        rw [applyDelete, hfind]
      by_cases hep : e.isPresent = true
      · rw [if_pos hep] at h0
        have h2 : (s.btree.tomb i).find? i = some { e with isPresent := false } :=
          BTree.find?_tomb_self hbn hfind
        have hs1 : (applyDelete s i).1 =
            { itree := s.itree.tomb i, btree := s.btree.tomb i,
              leftS := s.leftS, rightS := s.rightS } := by
          rw [h0]
        rw [hs1]
        have h3 : applyDelete { itree := s.itree.tomb i, btree := s.btree.tomb i, leftS := s.leftS, rightS := s.rightS } i =
            ({ itree := s.itree.tomb i, btree := s.btree.tomb i,
               leftS := s.leftS, rightS := s.rightS }, []) := by
          have h4 : applyDelete { itree := s.itree.tomb i, btree := s.btree.tomb i, leftS := s.leftS, rightS := s.rightS } i =
              (if ({ e with isPresent := false } : BEntry).isPresent then
                ({ itree := (s.itree.tomb i).tomb i, btree := (s.btree.tomb i).tomb i, leftS := s.leftS, rightS := s.rightS },
                 [Ev.del ((((s.btree.tomb i).nodeToIndexF i).map Prod.fst).getD 0)
                   ({ e with isPresent := false } : BEntry).value])
              else ({ itree := s.itree.tomb i, btree := s.btree.tomb i, leftS := s.leftS, rightS := s.rightS }, [])) := by
            rw [applyDelete]
            rw [show ({ itree := s.itree.tomb i, btree := s.btree.tomb i, leftS := s.leftS, rightS := s.rightS } : State).btree = s.btree.tomb i from rfl]
            rw [h2]
          rw [if_neg (show ¬ ({ e with isPresent := false } : BEntry).isPresent = true from fun hx => by cases hx)] at h4
          exact h4
        rw [h3]
        exact ⟨rfl, rfl⟩
      · rw [if_neg hep] at h0
        rw [show (applyDelete s i).1 = s from by rw [h0], h0]
        exact ⟨rfl, rfl⟩

/-- Witness for C9 on a concrete two-insert run, deleting one node. -/
theorem c9_delete_idempotent_witness :
    step (step (applySeq State.init [mkIns "a" "" true, mkIns "b" "a" true])
        (.del "a")) (.del "a") =
      step (applySeq State.init [mkIns "a" "" true, mkIns "b" "a" true])
        (.del "a") ∧
    (applyMsg (step (applySeq State.init [mkIns "a" "" true, mkIns "b" "a" true])
        (.del "a")) (.del "a")).2 = [] :=
  c9_delete_idempotent (Reachable.applySeq Reachable.init (by decide)) "a"

/-- C8: the delete call contract as established by the code.  On a
reachable state, a `delete(i, k)` call with `i + k ≤ length` completes
without error, removes exactly the `k` characters at indices
`i .. i + k - 1`, and lands in a reachable state whose length dropped by
`k`; a call with `i + k > length` (and `k ≥ 1`) raises the
"index out of bounds" error.  The contract range is thus
`i ∈ [0, length - k]`, one wider than the spec's `[0, length - k)`. -/
theorem c8_delete_contract {s : State} (hs : Reachable s) (i k : Nat) :
    (i + k ≤ s.length →
      ∃ s1, deleteL s i k = .ok s1 ∧ Reachable s1 ∧ s1.length + k = s.length ∧
        s1.btree.toVals = s.btree.toVals.take i ++ s.btree.toVals.drop (i + k)) ∧
    (1 ≤ k → s.length < i + k →
      deleteL s i k = .error "index out of bounds") :=
  ⟨fun h => deleteL_ok hs h, fun hk h => deleteL_oob hk h⟩

/-- Witness for C8 on a two-character document: `delete(0, 1)` succeeds
and removes the first character, `delete(5, 1)` errors. -/
theorem c8_delete_contract_witness :
    (∃ s1, deleteL (applySeq State.init [mkIns "a" "" true, mkIns "b" "a" false])
        0 1 = .ok s1 ∧ Reachable s1 ∧
      s1.length + 1 =
        (applySeq State.init [mkIns "a" "" true, mkIns "b" "a" false]).length ∧
      s1.btree.toVals =
        (applySeq State.init
          [mkIns "a" "" true, mkIns "b" "a" false]).btree.toVals.take 0 ++
        (applySeq State.init
          [mkIns "a" "" true, mkIns "b" "a" false]).btree.toVals.drop (0 + 1)) ∧
    deleteL (applySeq State.init [mkIns "a" "" true, mkIns "b" "a" false]) 5 1 =
      .error "index out of bounds" :=
  ⟨(c8_delete_contract (Reachable.applySeq Reachable.init (by decide)) 0 1).1
      (by decide),
   (c8_delete_contract (Reachable.applySeq Reachable.init (by decide)) 5 1).2
      (by decide) (by decide)⟩

/-- C8 counterexample to the claim as stated: on a one-character document
the spec's contract range `[0, length - k)` for `k = 1` is empty, so
`i = 0` counts as a bad index and the claim requires the call to raise
IndexOutOfBounds; yet `delete(0, 1)` completes without error and removes
the character. -/
theorem c8_spec_range_violated :
    ¬ 0 < (applySeq State.init [mkIns "a" "" true]).length - 1 ∧
    0 < (applySeq State.init [mkIns "a" "" true]).length ∧
    ∃ s1, deleteL (applySeq State.init [mkIns "a" "" true]) 0 1 = .ok s1 ∧
      s1.length = 0 := by
  refine ⟨by decide, by decide, ⟨_, rfl, by decide⟩⟩

/-- C1: convergence.  Two replicas that receive the same set of insert
and delete messages, each in any delivery order consistent with causal
order (modelled by `ValidSeq`: a parent's insert before its children's
inserts, a node's insert before any delete of it, ids fresh), end with
equal `toString()` results. -/
theorem c1_convergence {l1 l2 : List Msg} (hp : l1.Perm l2)
    (h1 : ValidSeq State.init l1) (h2 : ValidSeq State.init l2) :
    (applySeq State.init l1).toStr = (applySeq State.init l2).toStr := by
  have hr1 : Reachable (applySeq State.init l1) :=
    Reachable.applySeq Reachable.init h1
  have hr2 : Reachable (applySeq State.init l2) :=
    Reachable.applySeq Reachable.init h2
  rcases applySeq_itree Reachable.init h1 with ⟨hi1, hv1⟩
  rcases applySeq_itree Reachable.init h2 with ⟨hi2, hv2⟩
  apply toStr_congr hr1.wf hr2.wf
  rw [hi1, hi2]
  exact applySeqI_perm hp hv1 hv2

/-- Witness for C1: two concurrent root inserts delivered in both
orders. -/
theorem c1_convergence_witness :
    (applySeq State.init [mkIns "a" "" true, mkIns "b" "" true]).toStr =
      (applySeq State.init [mkIns "b" "" true, mkIns "a" "" true]).toStr :=
  c1_convergence (List.Perm.swap (mkIns "b" "" true) (mkIns "a" "" true) [])
    (by decide) (by decide)

end TextLogn